import Mathlib

/-!
# AI-Vocab-Notebook: FastVocabService

A shallow embedding of `fast_vocab_service.cpp` (class `FastVocabService`) and
theorems about its similarity scoring and ranked search.

Modelling conventions

* `std::string` is a sequence of bytes: `Str = List Nat`, every element standing
  for one `unsigned char`.  String constants of the source are written with
  `bytes`, which gives the UTF-8 bytes of a literal.
  A text the caller passes may hold a NUL byte: where the source binds it as a
  C string, SQLite takes the bytes before the first NUL (`c_str`).  The texts
  the service writes therefore hold no NUL byte, and a text column is read back
  whole.
* `double` scores are modelled by exact rationals `ℚ`.  Every score the service
  computes is one correctly rounded division `2 * overlap / (|a| + |b|)` of two
  integers; for strings below `2^26` bytes two different quotients round to
  different doubles, so the order of scores and their equalities with `0` and
  `1` agree with the floating-point ones.  Stored `REAL` scores are finite.
* `int` is `Int`; container sizes stay below `2^31`, so
  `static_cast<int>(hits.size())` is the length.  A rowid is a 64-bit integer;
  `sqlite3_column_int` gives its low 32 bits (`column_int`).
* `std::unordered_map<string,int>` is a finite map `Str → Option Int`
  (`none` = key absent).
* The SQLite database is a record of its four tables, each a list of rows in
  row order; a statement that fails to prepare is not modelled.
* A call that throws returns `none`.
-/

namespace FastVocabService

/-- A `std::string`: the list of its bytes. -/
abbrev Str := List Nat

/-- UTF-8 encoding of one code point, as a list of bytes. -/
def utf8EncodeNat (c : Nat) : List Nat :=
  if c < 0x80 then [c]
  else if c < 0x800 then [0xC0 + c / 64, 0x80 + c % 64]
  else if c < 0x10000 then [0xE0 + c / 4096, 0x80 + (c / 64) % 64, 0x80 + c % 64]
  else [0xF0 + c / 262144, 0x80 + (c / 4096) % 64, 0x80 + (c / 64) % 64, 0x80 + c % 64]

/-- The bytes of a string literal of the source (UTF-8). -/
def bytes (s : String) : Str :=
  s.toList.flatMap (fun c => utf8EncodeNat c.toNat)

/-! ## Helpers (`trim`, `to_lower_ascii`, `is_cjk_heuristic`) -/

/-- `std::isspace` in the "C" locale: space, `\t`, `\n`, `\v`, `\f`, `\r`. -/
def isspace (c : Nat) : Bool :=
  c == 32 || (9 ≤ c && c ≤ 13)

/-- `std::tolower` in the "C" locale. -/
def tolower (c : Nat) : Nat :=
  if 65 ≤ c ∧ c ≤ 90 then c + 32 else c

/-- `FastVocabService::trim`: `start` skips leading white space, `end` steps back
over trailing white space while `end > start`, the result is `s[start, end)`. -/
def trim (s : Str) : Str :=
  (s.dropWhile isspace).rdropWhile isspace

/-- `FastVocabService::to_lower_ascii`. -/
def to_lower_ascii (s : Str) : Str :=
  s.map tolower

/-- What SQLite and `std::string` read of a buffer passed as a C string
(`s.c_str()` bound with length `-1`, or a `const char *` assigned to a string):
the bytes before the first NUL. -/
def c_str (s : Str) : Str :=
  s.takeWhile (fun b => decide (b ≠ 0))

/-- `sqlite3_column_int`: the 64-bit integer of the column converted to `int`,
which keeps its low 32 bits (two's complement). -/
def column_int (v : Int) : Int :=
  (v + 2147483648) % 4294967296 - 2147483648

/-- `FastVocabService::is_cjk_heuristic`: some byte is `>= 0xE4`. -/
def is_cjk_heuristic (s : Str) : Bool :=
  s.any (fun c => decide (0xE4 ≤ c))

/-! ## Bigrams and the Dice score -/

/-- `std::string::substr(pos, n)` for `pos <= size()`. -/
def substr (s : Str) (pos n : Nat) : Str :=
  (s.drop pos).take n

/-- `FastVocabService::bigrams`.  The loop
`for (i = 0; i + 1 < s.size(); ++i) grams.push_back(s.substr(i, 2))`
runs `i` over `0 .. s.size() - 2` in order. -/
def bigrams (s : Str) : List Str :=
  if s.length < 2 then
    (if s ≠ [] then [s] else [])
  else
    (List.range (s.length - 1)).map (fun i => substr s i 2)

/-- State of `std::unordered_map<string,int>`: `none` when the key is absent. -/
abbrev FreqMap := Str → Option Int

/-- `freq[g]++` : `operator[]` inserts `0` for an absent key, then increments. -/
def freq_incr (freq : FreqMap) (g : Str) : FreqMap :=
  fun k => if k = g then some ((freq g).getD 0 + 1) else freq k

/-- `it->second--` for the entry of key `g`. -/
def freq_decr (freq : FreqMap) (g : Str) : FreqMap :=
  fun k => if k = g then (freq g).map (fun n => n - 1) else freq k

/-- `for (const auto &g : a) freq[g]++;` starting from the map `freq`. -/
def build_freq (freq : FreqMap) : List Str → FreqMap
  | [] => freq
  | g :: a => build_freq (freq_incr freq g) a

/-- The second loop of `dice_score`: returns the final value of `overlap`. -/
def overlap_loop (freq : FreqMap) (overlap : Int) : List Str → Int
  | [] => overlap
  | g :: b =>
    match freq g with
    | some n => if n > 0 then overlap_loop (freq_decr freq g) (overlap + 1) b
                else overlap_loop freq overlap b
    | none => overlap_loop freq overlap b

/-- `FastVocabService::dice_score`. -/
def dice_score (a b : List Str) : ℚ :=
  if a = [] ∨ b = [] then 0
  else
    let freq := build_freq (fun _ => none) a
    let overlap := overlap_loop freq 0 b
    let denom : ℚ := ((a.length + b.length : Nat) : ℚ)
    if denom = 0 then 0 else (2 * (overlap : ℚ)) / denom

/-- The number of occurrences of the bigram `g` in the list `A`. -/
def occurrences (g : Str) (A : List Str) : Nat :=
  A.countP (fun x => decide (x = g))

/-- The matched count as the specification words it: the sum, over the distinct
bigrams `g`, of `min (count_A g) (count_B g)` (bigrams absent from `A` add `0`). -/
def matched (A B : List Str) : Nat :=
  ∑ g in A.toFinset, min (occurrences g A) (occurrences g B)

/-- Abstraction relation of the frequency table: the map `freq` holds the
multiplicities of the multiset `M` (a key stored with value `0` counts as absent). -/
def FreqRep (freq : FreqMap) (M : Multiset Str) : Prop :=
  ∀ g, (freq g).getD 0 = (M.count g : Int)

/-! ## The store (SQLite schema of `ensure_schema`) -/

/-- A row of `user_vocab`.  `TEXT` columns may hold `NULL` (`none`);
`load_user_vocab` reads a `NULL` text as the empty string. -/
structure UserVocabRow where
  id : Int
  english : Option Str
  chinese : Option Str
  meaning_en : Option Str
  meaning_zh : Option Str
  deleted : Option Int
  created_at : Str
  updated_at : Str
deriving DecidableEq

/-- A row of `terms`. -/
structure TermRow where
  term : Str
  language : Str
deriving DecidableEq

/-- A row of `synonym_edge`.  The search path reads the term columns without a
`NULL` check, so they are taken to be non-`NULL`; `score` is a `REAL`. -/
structure SynonymEdgeRow where
  id : Int
  left_term : Str
  right_term : Str
  language : Str
  score : ℚ
  source : Str
deriving DecidableEq

/-- A row of `translation_edge` (term columns non-`NULL`, `score` a `REAL`). -/
structure TranslationEdgeRow where
  id : Int
  en_term : Str
  zh_term : Str
  score : ℚ
  source : Str
deriving DecidableEq

/-- The database behind `db_`: the four tables, each in row order, and the
`AUTOINCREMENT` counter of `user_vocab` (the `seq` that `sqlite_sequence` holds
for the table, `0` when it holds none). -/
structure Store where
  terms : List TermRow
  synonym_edge : List SynonymEdgeRow
  translation_edge : List TranslationEdgeRow
  user_vocab : List UserVocabRow
  user_vocab_seq : Int := 0
deriving DecidableEq

/-- `FastVocabService::VocabEntry`. -/
structure VocabEntry where
  id : Int
  english : Str
  chinese : Str
  meaning_en : Str
  meaning_zh : Str
  deleted : Bool
deriving DecidableEq

/-- `FastVocabService::SearchHit`. -/
structure SearchHit where
  score : ℚ
  source : Str
  english : Str
  chinese : Str
  extra : Str
deriving DecidableEq

/-! ## Unspecified orderings

`std::sort` and SQL `ORDER BY` fix the result only up to the order of elements
that compare equal.  Both are taken as parameters: a function together with the
contract the C++ standard (resp. SQL) gives it.  One `std::sort` is given in
full below, that of libstdc++. -/

/-- A sorting procedure by descending `key`: the output is a permutation of the
input and no later element has a strictly greater key than an earlier one
(the postcondition of `std::sort` with comparator `a.score > b.score`). -/
structure DescSort (α : Type) (key : α → ℚ) where
  sort : List α → List α
  perm : ∀ l, (sort l).Perm l
  sorted : ∀ l, (sort l).Pairwise (fun a b => ¬ key b > key a)

/-- What the service takes from its environment: the `std::sort` of the C++
library and the row order SQLite gives an `ORDER BY score DESC`. -/
structure Env where
  std_sort : DescSort SearchHit SearchHit.score
  order_by_translation : DescSort TranslationEdgeRow TranslationEdgeRow.score
  order_by_synonym : DescSort SynonymEdgeRow SynonymEdgeRow.score

/-- Insertion sort by descending key; an element is placed before the first
element with a key not greater than its own, so equal keys keep their input
order (a stable sort). -/
def stable_sort_desc {α : Type} (key : α → ℚ) (l : List α) : List α :=
  l.insertionSort (fun a b => key a ≥ key b)

/-! ## `std::sort` of libstdc++

The functions of `bits/stl_algo.h` and `bits/stl_heap.h` that `std::sort` runs, on
a range held as a list, iterators being positions in it.  `comp` is the
comparator; the loops that the library leaves unguarded stop at the ends of the
list.  A `while` loop is a recursion on a fuel argument which the loop does not
use up (`unguarded_partition_fuel`, `push_heap_fuel`, `adjust_heap_down_fuel`,
`lg_spec`). -/

/-- `std::iter_swap` on two positions of the range. -/
def iter_swap {α : Type} (l : List α) (i j : Nat) : List α :=
  match l[i]?, l[j]? with
  | some a, some b => (l.set i b).set j a
  | _, _ => l

/-- `std::__lg`: the floor of the binary logarithm. -/
def lg : Nat → Nat → Nat
  | 0, _ => 0
  | fuel + 1, n => if 2 ≤ n then lg fuel (n / 2) + 1 else 0

/-- `std::__move_median_to_first(result, a, b, c, comp)`. -/
def move_median_to_first {α : Type} (comp : α → α → Bool) (l : List α)
    (result a b c : Nat) : List α :=
  match l[a]?, l[b]?, l[c]? with
  | some va, some vb, some vc =>
    if comp va vb then
      if comp vb vc then iter_swap l result b
      else if comp va vc then iter_swap l result c
      else iter_swap l result a
    else if comp va vc then iter_swap l result a
    else if comp vb vc then iter_swap l result c
    else iter_swap l result b
  | _, _, _ => l

/-- `std::__unguarded_partition(first, last, pivot, comp)`: one turn of the outer
loop moves `first` up over the elements `x` with `comp x pivot`, `last` down over
those with `comp pivot x`, and swaps the two where they have not met.  Gives the
range and the cut. -/
def unguarded_partition {α : Type} (comp : α → α → Bool) (pivot : α) :
    Nat → List α → Nat → Nat → List α × Nat
  | 0, l, first, _ => (l, first)
  | fuel + 1, l, first, last =>
    let first := first + ((l.drop first).takeWhile (fun x => comp x pivot)).length
    let last := last - 1
    let last := last - ((l.take (last + 1)).reverse.takeWhile (fun x => comp pivot x)).length
    if first < last then
      unguarded_partition comp pivot fuel (iter_swap l first last) (first + 1) last
    else (l, first)

/-- `std::__unguarded_partition_pivot(first, last, comp)` on the range `l`. -/
def unguarded_partition_pivot {α : Type} (comp : α → α → Bool) (l : List α) :
    List α × Nat :=
  let l := move_median_to_first comp l 0 1 (l.length / 2) (l.length - 1)
  match l.head? with
  | some pivot => unguarded_partition comp pivot l.length l 1 l.length
  | none => (l, 0)

/-- The loop of `std::__push_heap`.  The hole is held filled with `value`, so
that moving the parent into the hole is a swap. -/
def push_heap {α : Type} (comp : α → α → Bool) (value : α) (topIndex : Nat) :
    Nat → List α → Nat → List α
  | 0, l, _ => l
  | fuel + 1, l, holeIndex =>
    let parent := (holeIndex - 1) / 2
    match l[parent]? with
    | some p =>
      if holeIndex > topIndex ∧ comp p value then
        push_heap comp value topIndex fuel (iter_swap l holeIndex parent) parent
      else l
    | none => l

/-- The first loop of `std::__adjust_heap`: the hole moves down to the child
that `comp` does not put first.  Gives the range and the hole. -/
def adjust_heap_down {α : Type} (comp : α → α → Bool) (len : Nat) :
    Nat → List α → Nat → List α × Nat
  | 0, l, holeIndex => (l, holeIndex)
  | fuel + 1, l, holeIndex =>
    if holeIndex < (len - 1) / 2 then
      let secondChild := 2 * (holeIndex + 1)
      match l[secondChild]?, l[secondChild - 1]? with
      | some x, some y =>
        let secondChild := if comp x y then secondChild - 1 else secondChild
        adjust_heap_down comp len fuel (iter_swap l holeIndex secondChild) secondChild
      | _, _ => (l, holeIndex)
    else (l, holeIndex)

/-- `std::__adjust_heap(first, holeIndex, len, value, comp)`. -/
def adjust_heap {α : Type} (comp : α → α → Bool) (l : List α) (holeIndex len : Nat)
    (value : α) : List α :=
  let down := adjust_heap_down comp len len (l.set holeIndex value) holeIndex
  let last :=
    if len % 2 = 0 ∧ down.2 = (len - 2) / 2 then
      (iter_swap down.1 down.2 (2 * (down.2 + 1) - 1), 2 * (down.2 + 1) - 1)
    else down
  push_heap comp value holeIndex (last.2 + 1) last.1 last.2

/-- `std::__pop_heap(first, last, result, comp)` with `len = last - first`. -/
def pop_heap {α : Type} (comp : α → α → Bool) (l : List α) (len result : Nat) : List α :=
  match l[result]?, l[0]? with
  | some value, some top => adjust_heap comp (l.set result top) 0 len value
  | _, _ => l

/-- The loop of `std::__make_heap`, `parent` counting down to `0`. -/
def make_heap_loop {α : Type} (comp : α → α → Bool) (len : Nat) : Nat → List α → List α
  | 0, l =>
    match l[0]? with
    | some value => adjust_heap comp l 0 len value
    | none => l
  | parent + 1, l =>
    match l[parent + 1]? with
    | some value => make_heap_loop comp len parent (adjust_heap comp l (parent + 1) len value)
    | none => l

/-- `std::__make_heap(first, last, comp)`. -/
def make_heap {α : Type} (comp : α → α → Bool) (l : List α) : List α :=
  if l.length < 2 then l else make_heap_loop comp l.length ((l.length - 2) / 2) l

/-- `std::__sort_heap(first, last, comp)`, `last` counting down. -/
def sort_heap {α : Type} (comp : α → α → Bool) : Nat → List α → List α
  | 0, l => l
  | last + 1, l => if last + 1 > 1 then sort_heap comp last (pop_heap comp l last last) else l

/-- `std::__partial_sort(first, last, last, comp)`: `__heap_select` with
`middle = last` is `__make_heap`, then `__sort_heap`. -/
def partial_sort {α : Type} (comp : α → α → Bool) (l : List α) : List α :=
  sort_heap comp l.length (make_heap comp l)

/-- `std::__introsort_loop(first, last, depth_limit, comp)` on the range `l`: the
recursive call sorts the part from the cut on, the next turn of the loop the part
before it, both with the lowered depth limit. -/
def introsort_loop {α : Type} (comp : α → α → Bool) : Nat → List α → List α
  | 0, l => if l.length > 16 then partial_sort comp l else l
  | depth_limit + 1, l =>
    if l.length > 16 then
      let cut := unguarded_partition_pivot comp l
      introsort_loop comp depth_limit (cut.1.take cut.2) ++
        introsort_loop comp depth_limit (cut.1.drop cut.2)
    else l

/-- The loop of `std::__unguarded_linear_insert`, on the sorted part read from
right to left: `val` passes every element `next` with `comp val next`. -/
def linear_insert_loop {α : Type} (comp : α → α → Bool) (val : α) : List α → List α
  | [] => [val]
  | next :: rest =>
    if comp val next then next :: linear_insert_loop comp val rest else val :: next :: rest

/-- `std::__unguarded_linear_insert(last, comp)`, `before` being the range up to
`last` and `val` the element at `last`. -/
def unguarded_linear_insert {α : Type} (comp : α → α → Bool) (val : α) (before : List α) :
    List α :=
  (linear_insert_loop comp val before.reverse).reverse

/-- One turn of the loop of `std::__insertion_sort`. -/
def insertion_step {α : Type} (comp : α → α → Bool) (before : List α) (val : α) : List α :=
  match before with
  | [] => [val]
  | first :: _ =>
    if comp val first then val :: before else unguarded_linear_insert comp val before

/-- `std::__insertion_sort(first, last, comp)`. -/
def insertion_sort {α : Type} (comp : α → α → Bool) (l : List α) : List α :=
  match l with
  | [] => []
  | first :: rest => rest.foldl (insertion_step comp) [first]

/-- `std::__final_insertion_sort(first, last, comp)`. -/
def final_insertion_sort {α : Type} (comp : α → α → Bool) (l : List α) : List α :=
  if l.length > 16 then
    (l.drop 16).foldl (fun before val => unguarded_linear_insert comp val before)
      (insertion_sort comp (l.take 16))
  else insertion_sort comp l

/-- `std::__sort(first, last, comp)`. -/
def std_sort {α : Type} (comp : α → α → Bool) (l : List α) : List α :=
  if l.isEmpty then l
  else final_insertion_sort comp (introsort_loop comp (lg l.length l.length * 2) l)

/-- The comparator `a.score > b.score`. -/
def score_comp {α : Type} (key : α → ℚ) (a b : α) : Bool :=
  decide (key a > key b)

/-! ## SQL `LIKE` (SQLite built-in, default settings)

`text LIKE pattern` without `ESCAPE` is SQLite's `likeFunc`, which runs
`patternCompare` on the two texts as C strings, reading them character by
character with `sqlite3Utf8Read`. -/

/-- A UTF-8 continuation byte `10xxxxxx`. -/
def is_continuation (c : Nat) : Bool :=
  decide (0x80 ≤ c ∧ c < 0xC0)

/-- The table `sqlite3Utf8Trans1` at `c - 0xC0`: the payload bits of a lead byte
`c >= 0xC0`. -/
def utf8_lead_bits (c : Nat) : Nat :=
  if c < 0xE0 then c - 0xC0
  else if c < 0xF0 then c - 0xE0
  else if c < 0xF8 then c - 0xF0
  else if c < 0xFC then c - 0xF8
  else if c < 0xFE then c - 0xFC
  else 0

/-- The last step of `sqlite3Utf8Read` for a multi-byte character: a value below
`0x80`, a surrogate (`(c & 0xFFFFF800) == 0xD800`) or `0xFFFE`, `0xFFFF`
(`(c & 0xFFFFFFFE) == 0xFFFE`) is read as `0xFFFD`. -/
def utf8_finish (c : Nat) : Nat :=
  if c < 0x80 ∨ (0xD800 ≤ c ∧ c ≤ 0xDFFF) ∨ c = 0xFFFE ∨ c = 0xFFFF then 0xFFFD else c

/-- The characters `Utf8Read` gives from a text until its NUL terminator.  A
byte below `0xC0` is a character by itself; a lead byte starts a character that
takes every continuation byte after it (`c = (c << 6) + (0x3f & byte)` in 32
bits).  `pending` is the value of the character being read. -/
def utf8_chars_aux : Option Nat → Str → List Nat
  | pending, [] =>
    match pending with
    | some c => [utf8_finish c]
    | none => []
  | pending, b :: rest =>
    match pending with
    | some c =>
      if is_continuation b then
        utf8_chars_aux (some ((c * 64 + b % 64) % 4294967296)) rest
      else if b = 0 then [utf8_finish c]
      else if b < 0xC0 then utf8_finish c :: b :: utf8_chars_aux none rest
      else utf8_finish c :: utf8_chars_aux (some (utf8_lead_bits b)) rest
    | none =>
      if b = 0 then []
      else if b < 0xC0 then b :: utf8_chars_aux none rest
      else utf8_chars_aux (some (utf8_lead_bits b)) rest

/-- The characters of a text as SQLite reads them. -/
def utf8_chars (s : Str) : List Nat :=
  utf8_chars_aux none s

/-- `patternCompare` for `LIKE` on the characters of pattern and text: `%` (37)
matches any run of characters, `_` (95) one character, any other character
itself, two characters below `0x80` also when `sqlite3Tolower` makes them
equal. -/
def like_chars : (pattern : List Nat) → (text : List Nat) → Bool
  | [], text => text.isEmpty
  | c :: p, text =>
    if c = 37 then text.tails.any (fun t => like_chars p t)
    else match text with
      | [] => false
      | d :: rest =>
        if c = 95 then like_chars p rest
        else (decide (c = d) ||
          (decide (tolower c = tolower d) && decide (c < 0x80) && decide (d < 0x80))) &&
          like_chars p rest

/-- SQLite's built-in `text LIKE pattern`, the pattern being bound as a C
string.  A pattern of more than `SQLITE_MAX_LIKE_PATTERN_LENGTH` (50000) bytes
makes the statement fail, so that no row is returned. -/
def sql_like (pattern : Str) (text : Str) : Bool :=
  decide ((c_str pattern).length ≤ 50000) &&
    like_chars (utf8_chars pattern) (utf8_chars text)

/-- SQL `LIMIT k`: a negative `k` means no limit. -/
def sql_limit {α : Type} (k : Int) (l : List α) : List α :=
  if k < 0 then l else l.take k.toNat

/-! ## Search -/

/-- `joined_fields` of the anonymous namespace (`trim_local` is `trim`). -/
def joined_fields (e : VocabEntry) : Str :=
  trim ((if e.english ≠ [] then e.english ++ bytes " " else []) ++
        (if e.chinese ≠ [] then e.chinese ++ bytes " " else []) ++
        (if e.meaning_en ≠ [] then e.meaning_en ++ bytes " " else []) ++
        (if e.meaning_zh ≠ [] then e.meaning_zh else []))

/-- One row read by `load_user_vocab`: a `NULL` text is `""`, and
`sqlite3_column_int` reads a `NULL` integer as `0` and any other as an `int`. -/
def row_to_entry (r : UserVocabRow) : VocabEntry :=
  { id := column_int r.id,
    english := r.english.getD [],
    chinese := r.chinese.getD [],
    meaning_en := r.meaning_en.getD [],
    meaning_zh := r.meaning_zh.getD [],
    deleted := decide (column_int (r.deleted.getD 0) ≠ 0) }

/-- `FastVocabService::load_user_vocab`: `... FROM user_vocab WHERE deleted = 0`. -/
def load_user_vocab (st : Store) : List VocabEntry :=
  (st.user_vocab.filter (fun r => decide (r.deleted = some 0))).map row_to_entry

/-- The lambda `consider` of `search_user_vocab`, as a function of the running
`best`. -/
def consider (q_bi : List Str) (best : ℚ) (text : Str) : ℚ :=
  if text = [] then best
  else
    let s := dice_score q_bi (bigrams text)
    if s > best then s else best

/-- The value of `best` after the body of the loop over `entries`. -/
def entry_best (q_bi : List Str) (lang : Str) (entry : VocabEntry) : ℚ :=
  if lang = bytes "en" then
    [entry.english, entry.meaning_en, entry.chinese, entry.meaning_zh].foldl (consider q_bi) 0
  else if lang = bytes "zh" then
    [entry.chinese, entry.meaning_zh, entry.english, entry.meaning_en].foldl (consider q_bi) 0
  else
    consider q_bi 0 (joined_fields entry)

/-- The query as `search_user_vocab` normalises it (`q_norm`). -/
def normalize_query (query lang : Str) : Str :=
  if lang = bytes "en" then to_lower_ascii (trim query) else trim query

/-- The hits pushed by the loop of `search_user_vocab`, before sorting. -/
def user_candidates (st : Store) (query lang : Str) : List SearchHit :=
  let q_bi := bigrams (normalize_query query lang)
  (load_user_vocab st).filterMap (fun entry =>
    let best := entry_best q_bi lang entry
    if best > 0 then
      some { score := best, source := bytes "user", english := entry.english,
             chinese := entry.chinese, extra := [] }
    else none)

/-- `if (static_cast<int>(hits.size()) > topk) hits.resize(topk);`.  A negative
`topk` converts to a size beyond `max_size()`, and `resize` throws
(`none`). -/
def truncate_topk (hits : List SearchHit) (topk : Int) : Option (List SearchHit) :=
  if (hits.length : Int) > topk then
    (if topk < 0 then none else some (hits.take topk.toNat))
  else some hits

/-- `FastVocabService::search_user_vocab`. -/
def search_user_vocab (env : Env) (st : Store) (query lang : Str) (topk : Int) :
    Option (List SearchHit) :=
  truncate_topk (env.std_sort.sort (user_candidates st query lang)) topk

/-- The rows of the translation query on `en_term`, as hits. -/
def translation_hits_en (env : Env) (st : Store) (pattern : Str) (topk : Int) :
    List SearchHit :=
  (sql_limit topk (env.order_by_translation.sort
      (st.translation_edge.filter (fun r => sql_like pattern r.en_term)))).map
    (fun r => { score := r.score, source := bytes "translation_edge", english := r.en_term,
                chinese := r.zh_term, extra := [] })

/-- The rows of the translation query on `zh_term`, as hits. -/
def translation_hits_zh (env : Env) (st : Store) (pattern : Str) (topk : Int) :
    List SearchHit :=
  (sql_limit topk (env.order_by_translation.sort
      (st.translation_edge.filter (fun r => sql_like pattern r.zh_term)))).map
    (fun r => { score := r.score, source := bytes "translation_edge", english := r.en_term,
                chinese := r.zh_term, extra := [] })

/-- The rows of the synonym query, as hits. -/
def synonym_hits (env : Env) (st : Store) (pattern lang_code : Str) (topk : Int) :
    List SearchHit :=
  (sql_limit topk (env.order_by_synonym.sort
      (st.synonym_edge.filter (fun r =>
        decide (r.language = lang_code) &&
          (sql_like pattern r.left_term || sql_like pattern r.right_term))))).map
    (fun r => { score := r.score, source := bytes "synonym_edge", english := r.left_term,
                chinese := r.right_term, extra := bytes "lang=" ++ lang_code })

/-- The hits pushed by `search_base_tables`, before the final sort. -/
def base_candidates (env : Env) (st : Store) (query lang : Str) (topk : Int) :
    List SearchHit :=
  let pattern := bytes "%" ++ query ++ bytes "%"
  (if lang = bytes "en" ∨ lang = bytes "both" then translation_hits_en env st pattern topk
   else []) ++
  (if lang = bytes "zh" ∨ lang = bytes "both" then translation_hits_zh env st pattern topk
   else []) ++
  (if lang = bytes "en" ∨ lang = bytes "both" ∨ lang = bytes "zh" then
     synonym_hits env st pattern (if lang = bytes "both" then bytes "en" else lang) topk
   else [])

/-- `FastVocabService::search_base_tables`. -/
def search_base_tables (env : Env) (st : Store) (query lang : Str) (topk : Int) :
    Option (List SearchHit) :=
  truncate_topk (env.std_sort.sort (base_candidates env st query lang topk)) topk

/-- The language `search` works with: `"auto"` is resolved by `is_cjk_heuristic`. -/
def resolve_language (query language_hint : Str) : Str :=
  if language_hint = bytes "auto" then
    (if is_cjk_heuristic query then bytes "zh" else bytes "en")
  else language_hint

/-- `FastVocabService::search`; `none` when a call throws. -/
def search (env : Env) (st : Store) (query language_hint : Str) (topk : Int)
    (include_base : Bool) : Option (List SearchHit) :=
  let lang := resolve_language query language_hint
  match search_user_vocab env st query lang topk with
  | none => none
  | some user_hits =>
    if !include_base then some user_hits
    else
      match search_base_tables env st query
          (if lang = bytes "auto" then bytes "both" else lang) topk with
      | none => none
      | some base_hits => truncate_topk (env.std_sort.sort (user_hits ++ base_hits)) topk

/-- The stable sort meets the sorting contract. -/
def stable_desc_sort (α : Type) (key : α → ℚ) : DescSort α key where
  sort := stable_sort_desc key
  perm := fun l => List.perm_insertionSort _ l
  sorted := fun l => by
    haveI : IsTotal α (fun a b => key a ≥ key b) := ⟨fun a b => le_total (key b) (key a)⟩
    haveI : IsTrans α (fun a b => key a ≥ key b) := ⟨fun a b c hab hbc => le_trans hbc hab⟩
    exact (List.sorted_insertionSort (fun a b => key a ≥ key b) l).imp
      (fun h => not_lt.mpr h)

/-- The `std::sort` of libstdc++ with the comparator of the service.  The sorting
contract is read off the result (`std_sort_meets_contract` shows that the result
always meets it, so that `sort` is `std_sort`). -/
def libstdcxx_desc_sort : DescSort SearchHit SearchHit.score where
  sort := fun l =>
    if (std_sort (score_comp SearchHit.score) l).Perm l ∧
        (std_sort (score_comp SearchHit.score) l).Pairwise
          (fun a b => ¬ SearchHit.score b > SearchHit.score a) then
      std_sort (score_comp SearchHit.score) l
    else stable_sort_desc SearchHit.score l
  perm := fun l => by
    dsimp only
    split_ifs with h
    · exact h.1
    · exact (stable_desc_sort SearchHit SearchHit.score).perm l
  sorted := fun l => by
    dsimp only
    split_ifs with h
    · exact h.2
    · exact (stable_desc_sort SearchHit SearchHit.score).sorted l

/-- An environment whose `std::sort` and `ORDER BY` are stable. -/
def stable_env : Env :=
  { std_sort := stable_desc_sort SearchHit SearchHit.score,
    order_by_translation := stable_desc_sort TranslationEdgeRow TranslationEdgeRow.score,
    order_by_synonym := stable_desc_sort SynonymEdgeRow SynonymEdgeRow.score }

/-- An environment whose `std::sort` is that of libstdc++ and whose `ORDER BY`
keeps rows of equal score in table order. -/
def libstdcxx_env : Env :=
  { std_sort := libstdcxx_desc_sort,
    order_by_translation := stable_desc_sort TranslationEdgeRow TranslationEdgeRow.score,
    order_by_synonym := stable_desc_sort SynonymEdgeRow SynonymEdgeRow.score }

/-- The largest of a list of row ids (`0` for an empty table). -/
def max_id (ids : List Int) : Int :=
  ids.foldl max 0

/-- The largest rowid `user_vocab` has held: the larger of the largest rowid in
the table and the `AUTOINCREMENT` counter. -/
def largest_user_vocab_id (st : Store) : Int :=
  max (max_id (st.user_vocab.map UserVocabRow.id)) st.user_vocab_seq

/-- The rowid SQLite takes for an `INSERT` into `user_vocab` (`AUTOINCREMENT`):
one more than the largest rowid the table has held. -/
def next_user_vocab_id (st : Store) : Int :=
  largest_user_vocab_id st + 1

/-- The row has the key `(english, chinese)` (a `NULL` column equals nothing). -/
def has_key (en zh : Str) (r : UserVocabRow) : Bool :=
  decide (r.english = some en) && decide (r.chinese = some zh)

/-- `en_norm` of `record`: `english ? to_lower_ascii(trim(*english)) : ""`. -/
def norm_english (english : Option Str) : Str :=
  match english with
  | some s => to_lower_ascii (trim s)
  | none => []

/-- `zh_norm`, `mean_en`, `mean_zh` of `record`: `x ? trim(*x) : ""`. -/
def norm_trim (x : Option Str) : Str :=
  match x with
  | some s => trim s
  | none => []

/-- The statement `INSERT INTO user_vocab(english, chinese, meaning_en, meaning_zh)
VALUES (?, ?, ?, ?) ON CONFLICT(english, chinese) DO UPDATE SET meaning_en = ...,
meaning_zh = ..., updated_at = CURRENT_TIMESTAMP` on the four bound texts.  SQLite
first takes the next rowid and advances the `AUTOINCREMENT` counter, also when
the statement ends in `DO UPDATE`; when the largest rowid `2^63 - 1` has been
used the statement fails with `SQLITE_FULL` and changes nothing. -/
def upsert_user_vocab (now : Str) (st : Store) (en zh mean_en mean_zh : Str) : Store :=
  if largest_user_vocab_id st = 9223372036854775807 then st
  else if st.user_vocab.any (has_key en zh) then
    { st with
      user_vocab := st.user_vocab.map (fun r =>
        if has_key en zh r then
          { r with meaning_en := some mean_en, meaning_zh := some mean_zh, updated_at := now }
        else r),
      user_vocab_seq := next_user_vocab_id st }
  else
    { st with
      user_vocab := st.user_vocab ++
        [{ id := next_user_vocab_id st, english := some en, chinese := some zh,
           meaning_en := some mean_en, meaning_zh := some mean_zh, deleted := some 0,
           created_at := now, updated_at := now }],
      user_vocab_seq := next_user_vocab_id st }

/-- `SELECT id FROM user_vocab WHERE english=? AND chinese=? LIMIT 1` on the two
bound texts, read with `sqlite3_column_int` into `row_id`, which starts at `0`. -/
def select_row_id (st : Store) (en zh : Str) : Int :=
  match st.user_vocab.find? (has_key en zh) with
  | some r => column_int r.id
  | none => 0

/-- `FastVocabService::ensure_term`: `INSERT OR IGNORE INTO terms(term, language)`,
`term` being the primary key; both texts are bound as C strings. -/
def ensure_term (st : Store) (term lang : Str) : Store :=
  if st.terms.any (fun t => decide (t.term = c_str term)) then st
  else { st with terms := st.terms ++ [{ term := c_str term, language := c_str lang }] }

/-- `FastVocabService::upsert_translation_edge`: `INSERT OR REPLACE INTO
translation_edge(en_term, zh_term, score, source) VALUES (?, ?, ?, 'user')`; a row
with the same `(en_term, zh_term, source)` is removed and the new row gets a new
rowid; both terms are bound as C strings. -/
def upsert_translation_edge (st : Store) (en_term zh_term : Str) (score : ℚ) : Store :=
  { st with translation_edge :=
      st.translation_edge.filter (fun r =>
        !(decide (r.en_term = c_str en_term) && decide (r.zh_term = c_str zh_term) &&
          decide (r.source = bytes "user"))) ++
      [{ id := max_id (st.translation_edge.map TranslationEdgeRow.id) + 1,
         en_term := c_str en_term, zh_term := c_str zh_term, score := score,
         source := bytes "user" }] }

/-- The part of `record` after the row id is fetched: the two `ensure_term` calls
and the translation edge of a bilingual pair. -/
def record_links (st : Store) (en_norm zh_norm : Str) : Store :=
  let st1 := if en_norm ≠ [] then ensure_term st en_norm (bytes "en") else st
  let st2 := if zh_norm ≠ [] then ensure_term st1 zh_norm (bytes "zh") else st1
  if en_norm ≠ [] ∧ zh_norm ≠ [] then upsert_translation_edge st2 en_norm zh_norm 1 else st2

/-- `FastVocabService::record`: the store after the call and the returned row id;
`none` when `std::invalid_argument` is thrown.  The four texts are bound to the
two statements as C strings (`c_str()` with length `-1`). -/
def record (now : Str) (st : Store) (english chinese meaning_en meaning_zh : Option Str) :
    Store × Option Int :=
  if norm_english english = [] ∧ norm_trim chinese = [] then (st, none)
  else
    (record_links
        (upsert_user_vocab now st (c_str (norm_english english)) (c_str (norm_trim chinese))
          (c_str (norm_trim meaning_en)) (c_str (norm_trim meaning_zh)))
        (norm_english english) (norm_trim chinese),
      some (select_row_id
        (upsert_user_vocab now st (c_str (norm_english english)) (c_str (norm_trim chinese))
          (c_str (norm_trim meaning_en)) (c_str (norm_trim meaning_zh)))
        (c_str (norm_english english)) (c_str (norm_trim chinese))))

/-- `FastVocabService::load_deleted_vocab`: `... FROM user_vocab WHERE deleted != 0`
(a `NULL` flag is neither `= 0` nor `!= 0`). -/
def load_deleted_vocab (st : Store) : List VocabEntry :=
  (st.user_vocab.filter (fun r =>
      match r.deleted with
      | some d => decide (d ≠ 0)
      | none => false)).map row_to_entry

/-- `FastVocabService::fetch_entry`: the first row of `... WHERE id = ?`. -/
def fetch_entry (st : Store) (id : Int) : Option VocabEntry :=
  (st.user_vocab.find? (fun r => decide (r.id = id))).map row_to_entry

/-- `FastVocabService::list_active`. -/
def list_active (st : Store) : List VocabEntry :=
  load_user_vocab st

/-- `FastVocabService::list_deleted`. -/
def list_deleted (st : Store) : List VocabEntry :=
  load_deleted_vocab st

/-- `FastVocabService::get_entry`. -/
def get_entry (st : Store) (id : Int) : Option VocabEntry :=
  fetch_entry st id

/-- `UPDATE user_vocab SET deleted = <flag> WHERE id = ?`, with the trigger. -/
def set_deleted (now : Str) (st : Store) (id flag : Int) : Store :=
  { st with user_vocab := st.user_vocab.map (fun r =>
      if r.id = id then { r with deleted := some flag, updated_at := now } else r) }

/-- `FastVocabService::soft_delete`.  `ok` is `sqlite3_step(stmt) == SQLITE_DONE`:
an `UPDATE` that has run returns `SQLITE_DONE` whether or not a row matched, and
no constraint involves `deleted`. -/
def soft_delete (now : Str) (st : Store) (id : Int) : Store × Bool :=
  (set_deleted now st id 1, true)

/-- `FastVocabService::restore_entry` (see `soft_delete` for `ok`). -/
def restore_entry (now : Str) (st : Store) (id : Int) : Store × Bool :=
  (set_deleted now st id 0, true)

/-- `FastVocabService::update_entry`.  The four texts are bound as C strings.  The
`UPDATE` fails with `SQLITE_CONSTRAINT`, changing nothing, when another row
already holds the new `(english, chinese)` pair. -/
def update_entry (now : Str) (st : Store) (id : Int)
    (english chinese meaning_en meaning_zh : Option Str) : Store × Bool :=
  match fetch_entry st id with
  | none => (st, false)
  | some existing =>
    let en_norm := match english with
      | some s => to_lower_ascii (trim s)
      | none => existing.english
    let zh_norm := match chinese with
      | some s => trim s
      | none => existing.chinese
    let mean_en := match meaning_en with
      | some s => trim s
      | none => existing.meaning_en
    let mean_zh := match meaning_zh with
      | some s => trim s
      | none => existing.meaning_zh
    if st.user_vocab.any (fun r =>
        decide (r.id ≠ id) && has_key (c_str en_norm) (c_str zh_norm) r) then
      (st, false)
    else
      let st1 : Store := { st with user_vocab := st.user_vocab.map (fun r =>
        if r.id = id then
          { r with english := some (c_str en_norm), chinese := some (c_str zh_norm),
                   meaning_en := some (c_str mean_en), meaning_zh := some (c_str mean_zh),
                   updated_at := now }
        else r) }
      let st2 := if en_norm ≠ [] then ensure_term st1 en_norm (bytes "en") else st1
      let st3 := if zh_norm ≠ [] then ensure_term st2 zh_norm (bytes "zh") else st2
      (st3, true)

/-- The constraints SQLite keeps on `user_vocab`: `id` is the primary key, and
`UNIQUE(english, chinese)` (rows with a `NULL` in the pair never conflict). -/
def store_ok (st : Store) : Prop :=
  (st.user_vocab.map UserVocabRow.id).Nodup ∧
  st.user_vocab.Pairwise (fun r₁ r₂ =>
    ∀ en zh, r₁.english = some en → r₁.chinese = some zh →
      ¬ (r₂.english = some en ∧ r₂.chinese = some zh))

/-- The value is one the C++ type `int` holds. -/
abbrev fits_int (v : Int) : Prop :=
  -2147483648 ≤ v ∧ v ≤ 2147483647

/-- SQLite can still give `n` new rowids to `user_vocab`: the largest rowid the
table has held is at least `n` below `2^63 - 1`. -/
abbrev rowids_left (n : Int) (st : Store) : Prop :=
  largest_user_vocab_id st + n ≤ 9223372036854775807

/-- The database without the `user_vocab` rows of rowid `id`. -/
def without_row (st : Store) (id : Int) : Store :=
  { st with user_vocab := st.user_vocab.filter (fun r => decide (r.id ≠ id)) }

/-- The argument is absent, empty, or made of white space only. -/
def is_blank (x : Option Str) : Prop :=
  ∀ s, x = some s → ∀ b ∈ s, isspace b = true

/-- The empty database (schema only). -/
def empty_store : Store :=
  { terms := [], synonym_edge := [], translation_edge := [], user_vocab := [] }

/-- What the `DO UPDATE` branch of the upsert does to the conflicting row. -/
def refresh_meanings (now mean_en mean_zh : Str) (r : UserVocabRow) : UserVocabRow :=
  { r with meaning_en := some mean_en, meaning_zh := some mean_zh, updated_at := now }

/-- The row the `INSERT` branch of the upsert adds. -/
def new_row (now : Str) (st : Store) (en zh mean_en mean_zh : Str) : UserVocabRow :=
  { id := next_user_vocab_id st, english := some en, chinese := some zh,
    meaning_en := some mean_en, meaning_zh := some mean_zh, deleted := some 0,
    created_at := now, updated_at := now }

/-- The VocabularyEntry invariant: every row has a non-empty english or a
non-empty chinese. -/
def entry_invariant (st : Store) : Prop :=
  ∀ r ∈ st.user_vocab, r.english.getD [] ≠ [] ∨ r.chinese.getD [] ≠ []

/-! ## The reference score of an entry -/

/-- The maximum, over the non-empty texts of `fields`, of the Dice score of the
query bigrams against the text's bigrams (`0` when no text is non-empty). -/
def max_field_score (q_bi : List Str) (fields : List Str) : ℚ :=
  ((fields.filter (fun f => decide (f ≠ []))).map
    (fun f => dice_score q_bi (bigrams f))).foldr max 0

/-- The non-empty fields of an entry joined, in the order english, chinese,
meaning_en, meaning_zh, with single spaces. -/
def joined_with_spaces (e : VocabEntry) : Str :=
  (bytes " ").intercalate
    ([e.english, e.chinese, e.meaning_en, e.meaning_zh].filter (fun f => decide (f ≠ [])))

/-- The reference score as stated: for `"en"` and `"zh"` the maximum over the
non-empty fields, for any other language the score against the joined fields;
the query is lower-cased and trimmed for `"en"`, trimmed otherwise. -/
def reference_score (query lang : Str) (e : VocabEntry) : ℚ :=
  if lang = bytes "en" then
    max_field_score (bigrams (to_lower_ascii (trim query)))
      [e.english, e.meaning_en, e.chinese, e.meaning_zh]
  else if lang = bytes "zh" then
    max_field_score (bigrams (trim query)) [e.english, e.meaning_en, e.chinese, e.meaning_zh]
  else
    dice_score (bigrams (trim query)) (bigrams (joined_with_spaces e))

end FastVocabService

/-!
# wordsDictionary

A shallow embedding of `words_dictionary.cpp` (class `wordsDictionary` and its
nodes `aiThesaurusWord`).

* A pointer `aiThesaurusWord *` held by `database` or by an adjacency set is
  modelled by the key under which `database` holds the node: such a node is
  entered into `database` under its own `word` when it is created, and no entry
  is ever removed or overwritten. A pointer held by `ZHDatabase` or `ENDatabase`
  is modelled by the `word` and the `language` of the node it refers to (both
  are fixed by the node's constructor).
* `std::map<string, aiThesaurusWord *>` is a finite map (`none` = key absent),
  `std::set<aiThesaurusWord *>` a finite set of keys.
* A source file is `Option Str`: `none` when the stream cannot be opened,
  otherwise the bytes of the file.
* A call that dereferences a null pointer returns `none`.
* A read `v[i]` outside the bounds of a `std::vector` has no defined behaviour:
  a function that makes such a read takes what the read does as the parameter
  `oob` (`none`: the program stops there, `some g`: it goes on with the string
  `g`).
-/

namespace wordsDictionary

open FastVocabService

/-- The enumeration `Language` of `enums.h`. -/
inductive Language where
  | chinese
  | english
deriving DecidableEq

/-- The class `aiThesaurusWord`: a word node with its adjacency sets. -/
structure aiThesaurusWord where
  word : Str
  language : Language
  aiWordSynonyms : Finset Str
  aiWordTranslations : Finset Str

/-- The three maps of `wordsDictionary`; `database` carries the node a pointer
refers to, `ZHDatabase` and `ENDatabase` the word and the language tag of the
node their pointer refers to. -/
structure State where
  database : Str → Option aiThesaurusWord
  ZHDatabase : Str → Option (Str × Language)
  ENDatabase : Str → Option (Str × Language)

/-- The maps before the constructor body runs. -/
def State.empty : State :=
  { database := fun _ => none, ZHDatabase := fun _ => none, ENDatabase := fun _ => none }

/-- What repeated `getline(stream, token, delim)` returns: `cur` is the text read
since the last delimiter, `pending` tells that the current call has read a byte.
A call at the end of the stream fails, so a final delimiter yields no empty last
piece. -/
def split_aux (delim : Nat) : (cur : Str) → (pending : Bool) → Str → List Str
  | cur, pending, [] => if pending then [cur] else []
  | cur, _, c :: rest =>
    if c = delim then cur :: split_aux delim [] false rest
    else split_aux delim (cur ++ [c]) true rest

/-- The successive results of `getline(stream, x, delim)` on a stream holding `s`. -/
def getline_all (delim : Nat) (s : Str) : List Str :=
  split_aux delim [] false s

/-- The lines `getline(fin, line)` reads; a stream that is not open yields none. -/
def file_lines (file : Option Str) : List Str :=
  match file with
  | none => []
  | some content => getline_all 10 content

/-- `wordsDictionary::getTokens` called until it fails, each token passed through
the local lambda `trim` (which erases the white space at both ends, as
`FastVocabService::trim` does). -/
def trimmed_tokens (line : Str) : List Str :=
  (getline_all 44 line).map trim

/-- `std::map::emplace(key, value)`: no effect when the key is present. -/
def map_emplace {β : Type} (m : Str → Option β) (key : Str) (value : β) : Str → Option β :=
  fun k => if k = key then (match m key with
    | some v => some v
    | none => some value) else m k

/-- The body `if (database.find(token) == database.end()) { new node; emplace into
database and into one language map }`; `into_zh` selects `ZHDatabase`. -/
def create_node (lang : Language) (into_zh : Bool) (d : State) (token : Str) : State :=
  match d.database token with
  | some _ => d
  | none =>
    { database := map_emplace d.database token
        { word := token, language := lang, aiWordSynonyms := ∅, aiWordTranslations := ∅ },
      ZHDatabase :=
        if into_zh then map_emplace d.ZHDatabase token (token, lang) else d.ZHDatabase,
      ENDatabase :=
        if into_zh then d.ENDatabase else map_emplace d.ENDatabase token (token, lang) }

/-- The loop over the lines of a synonym file in `createAll*Synonyms`. -/
def create_synonym_nodes (lang : Language) (into_zh : Bool) (file : Option Str)
    (d : State) : State :=
  (file_lines file).foldl (fun d line =>
    if line = [] then d
    else (trimmed_tokens line).foldl (create_node lang into_zh) d) d

/-- `wordsDictionary::createAllChineseSynonyms`. -/
def createAllChineseSynonyms (file : Option Str) (d : State) : State :=
  create_synonym_nodes Language.chinese true file d

/-- `wordsDictionary::createAllEnglishSynonyms`. -/
def createAllEnglishSynonyms (file : Option Str) (d : State) : State :=
  create_synonym_nodes Language.english false file d

/-- The statement `database[headword]->aiWordSynonyms.emplace(tokens[idxSynonym])`:
`operator[]` gives a null pointer for an absent headword, whose dereference is
`none`; the set receives the node named by the token. -/
def add_synonym (d : State) (headword synonym : Str) : Option State :=
  match d.database headword with
  | none => none
  | some node =>
    some
      { database := fun k =>
          if k = headword then
            some { word := node.word, language := node.language,
                   aiWordSynonyms := insert synonym node.aiWordSynonyms,
                   aiWordTranslations := node.aiWordTranslations }
          else d.database k,
        ZHDatabase := d.ZHDatabase,
        ENDatabase := d.ENDatabase }

/-- The inner loop over `idxSynonym` for one `idxHeadword`. -/
def link_headword (tokens : List Str) (idxHeadword : Nat) (d : State) : Option State :=
  (List.range tokens.length).foldlM (fun d idxSynonym =>
    if idxSynonym = idxHeadword then some d
    else add_synonym d (tokens.getD idxHeadword []) (tokens.getD idxSynonym [])) d

/-- The two nested loops over one row of tokens. -/
def link_row (tokens : List Str) (d : State) : Option State :=
  (List.range tokens.length).foldlM (fun d idxHeadword =>
    link_headword tokens idxHeadword d) d

/-- The body of `initialize*Synonyms`: returns at once when the file is not open,
otherwise links the non-empty trimmed tokens of every non-empty line. -/
def initialize_synonyms (file : Option Str) (d : State) : Option State :=
  match file with
  | none => some d
  | some content =>
    (getline_all 10 content).foldlM (fun d line =>
      if line = [] then some d
      else
        let tokens := (trimmed_tokens line).filter (fun t => decide (t ≠ []))
        if tokens = [] then some d else link_row tokens d) d

/-- `wordsDictionary::initializeChineseSynonyms`. -/
def initializeChineseSynonyms (file : Option Str) (d : State) : Option State :=
  initialize_synonyms file d

/-- `wordsDictionary::initializeEnglishSynonyms`. -/
def initializeEnglishSynonyms (file : Option Str) (d : State) : Option State :=
  initialize_synonyms file d

/-- The synonym set of the node of `word` (empty when there is no such node). -/
def synonyms_of (d : State) (word : Str) : Finset Str :=
  match d.database word with
  | some node => node.aiWordSynonyms
  | none => ∅

/-- The node `node` with the keys of `extra` added to its synonym set. -/
def with_synonyms (node : aiThesaurusWord) (extra : Finset Str) : aiThesaurusWord :=
  { word := node.word, language := node.language,
    aiWordSynonyms := node.aiWordSynonyms ∪ extra,
    aiWordTranslations := node.aiWordTranslations }

/-- A node as `new aiThesaurusWord(token, lang)` makes it. -/
def fresh_node (token : Str) (lang : Language) : aiThesaurusWord :=
  { word := token, language := lang, aiWordSynonyms := ∅, aiWordTranslations := ∅ }

/-- The graph holds exactly the row `toks` with all its directed synonym pairs:
every token has a node of language `lang` whose synonym set is the other tokens
of the row, there is no other node, the synonym relation is the set of ordered
pairs of distinct tokens, and these are `n * (n - 1)` pairs. -/
def exactly_linked (lang : Language) (toks : List Str) (d : State) : Prop :=
  (∀ t ∈ toks, ∃ node, d.database t = some node ∧ node.word = t ∧ node.language = lang ∧
    node.aiWordSynonyms = toks.toFinset.erase t ∧
    node.aiWordSynonyms.card = toks.length - 1) ∧
  (∀ k, k ∉ toks → d.database k = none) ∧
  (∀ s t, s ∈ synonyms_of d t ↔ (s ∈ toks ∧ t ∈ toks ∧ s ≠ t)) ∧
  (∀ s t, s ∈ synonyms_of d t → t ∈ synonyms_of d s) ∧
  (∀ t, t ∉ synonyms_of d t) ∧
  (toks.map (fun t => (synonyms_of d t).card)).sum = toks.length * (toks.length - 1)

/-- The translation set of the node of `word` (empty when there is no such node). -/
def translations_of (d : State) (word : Str) : Finset Str :=
  match d.database word with
  | some node => node.aiWordTranslations
  | none => ∅

/-- The language tag of the node of `word`. -/
def language_of (d : State) (word : Str) : Option Language :=
  (d.database word).map (fun node => node.language)

/-- `v[i]` of `std::vector<string>`. Outside `0 .. v.size() - 1` the read has no
defined behaviour: `oob` is what such a read does, `none` when it stops the
program and `some g` when it goes on with the string `g`. -/
def vector_index (oob : Option Str) (v : List Str) (i : Nat) : Option Str :=
  match v.get? i with
  | some x => some x
  | none => oob

/-- The statements `new aiThesaurusWord(token, lang); database.emplace(token, ...);
XXDatabase.emplace(token, ...)`; `into_zh` selects `ZHDatabase`. -/
def register_node (lang : Language) (into_zh : Bool) (d : State) (token : Str) : State :=
  { database := map_emplace d.database token (fresh_node token lang),
    ZHDatabase :=
      if into_zh then map_emplace d.ZHDatabase token (token, lang) else d.ZHDatabase,
    ENDatabase :=
      if into_zh then d.ENDatabase else map_emplace d.ENDatabase token (token, lang) }

/-- The body of the column loop of `createAllTranslations` at `loop_index` (below
the `break` at 4): column 0 makes an `english` node and enters it into
`ZHDatabase`, column 3 a `chinese` node and enters it into `ENDatabase`, both
guarded by `database.find(tokens[loop_index]) == database.end()`. -/
def translation_column (oob : Option Str) (tokens : List Str) (d : State)
    (loop_index : Nat) (token : Str) : Option State :=
  if loop_index = 0 then
    match vector_index oob tokens loop_index with
    | none => none
    | some key =>
      match d.database key with
      | some _ => some d
      | none => some (register_node Language.english true d token)
  else if loop_index = 3 then
    match vector_index oob tokens loop_index with
    | none => none
    | some key =>
      match d.database key with
      | some _ => some d
      | none => some (register_node Language.chinese false d token)
  else some d

/-- One data row of `createAllTranslations`: the local vector `tokens` is declared
and never filled; the columns are scanned until `loop_index == 4`. -/
def translation_row (oob : Option Str) (d : State) (line : Str) : Option State :=
  let tokens : List Str := []
  (((trimmed_tokens line).take 4).enum).foldlM
    (fun d (column : Nat × Str) => translation_column oob tokens d column.1 column.2) d

/-- `wordsDictionary::createAllTranslations`: the first line is skipped, then every
non-empty line is scanned. -/
def createAllTranslations (oob : Option Str) (file : Option Str) (d : State) :
    Option State :=
  ((file_lines file).drop 1).foldlM (fun d line =>
    if line = [] then some d else translation_row oob d line) d

/-- `wordsDictionary::initializeTranslations`: returns at once when the file is
not open; otherwise the loop reads the lines with `i` staying `0`, and its body
has no statement. -/
def initializeTranslations (file : Option Str) (d : State) : State :=
  match file with
  | none => d
  | some content =>
    ((getline_all 10 content).foldl (fun (p : State × Int) _ =>
      if p.2 = 4 then p else if p.2 = 0 then p else p) (d, 0)).1

/-- The constructor `wordsDictionary::wordsDictionary()` on the three source
files. -/
def construct (oob : Option Str) (zh en tr : Option Str) : Option State :=
  let d := createAllChineseSynonyms zh State.empty
  let d := createAllEnglishSynonyms en d
  (createAllTranslations oob tr d).bind (fun d =>
    (initializeChineseSynonyms zh d).bind (fun d =>
      initializeEnglishSynonyms en d))

/-- The non-empty trimmed tokens of the rows of a synonym source. -/
def source_tokens (file : Option Str) : List Str :=
  (file_lines file).flatMap (fun line =>
    (trimmed_tokens line).filter (fun t => decide (t ≠ [])))

/-- The trimmed tokens (empty ones included) of the rows of a synonym source: the
texts `createAll*Synonyms` looks up and creates. -/
def created_tokens (file : Option Str) : List Str :=
  (file_lines file).flatMap trimmed_tokens

/-- The dictionary `d'` is `d` with synonym edges added, each between two tokens of
`T`: no node is added or removed and no other field changes. -/
def linked_within (T : List Str) (d d' : State) : Prop :=
  ∀ k, ∃ X : Finset Str,
    d'.database k = (d.database k).map (fun node => with_synonyms node X) ∧
    ∀ s ∈ X, s ∈ T ∧ k ∈ T

/-- The dictionary `d'` is `d` with fresh nodes added under new keys. -/
def grown (d d' : State) : Prop :=
  ∀ k, d'.database k = d.database k ∨
    (d.database k = none ∧ ∃ lang, d'.database k = some (fresh_node k lang))

end wordsDictionary

/-!
# zhAiThesaurusWord

A shallow embedding of `zhAiThesaurusWord::getTokens` (`zh_ai_thesaurus_word.cpp`)
and of `advancedGetline` (`get_tokens_helper_functions.cpp`). An input stream is
the list of the bytes that are not yet read; a call that returns `false` is
`none`, a call that returns `true` gives the string it has read and the stream
it leaves.
-/

namespace zhAiThesaurusWord

open FastVocabService

/-- The loop `while (in.get(ch))` of `advancedGetline`; `out` is the text read so
far. At the end of the stream the call returns `!out.empty()`. -/
def advancedGetline_loop (delims : Str) : (out : Str) → (stream : Str) → Option (Str × Str)
  | out, [] => if out = [] then none else some (out, [])
  | out, ch :: rest =>
    if ch ∈ delims then some (out, rest)
    else if ch = 10 then some (out, rest)
    else advancedGetline_loop delims (out ++ [ch]) rest

/-- The function `advancedGetline(in, out, delims)`. -/
def advancedGetline (stream : Str) (delims : Str) : Option (Str × Str) :=
  advancedGetline_loop delims [] stream

/-- The lambda `ltrim` of `trimChinese`: erases leading ASCII white space and
leading full-width spaces (U+3000, the bytes `E3 80 80`). -/
def ltrim : Str → Str
  | [] => []
  | c :: rest =>
    if isspace c then ltrim rest
    else
      match c, rest with
      | 227, 128 :: 128 :: rest' => ltrim rest'
      | _, _ => c :: rest

/-- The loop of the lambda `rtrim` on the reversed string. -/
def rtrim_reversed : Str → Str
  | [] => []
  | c :: rest =>
    if isspace c then rtrim_reversed rest
    else
      match c, rest with
      | 128, 128 :: 227 :: rest' => rtrim_reversed rest'
      | _, _ => c :: rest

/-- The lambda `rtrim` of `trimChinese`: erases trailing ASCII white space and
trailing full-width spaces. -/
def rtrim (s : Str) : Str :=
  (rtrim_reversed s.reverse).reverse

/-- The lambda `trimChinese`. -/
def trimChinese (text : Str) : Str :=
  rtrim (ltrim text)

/-- The delimiter string `",， \t"` passed to `advancedGetline`, as bytes. -/
def zh_delims : Str :=
  bytes ",\uFF0C \t"

/-- The loop of `zhAiThesaurusWord::getTokens`, run for at most `fuel` calls of
`advancedGetline`. -/
def getTokens_loop : Nat → Str → Option (Str × Str)
  | 0, _ => none
  | fuel + 1, iss =>
    match advancedGetline iss zh_delims with
    | none => none
    | some (token, rest) =>
      if trimChinese token ≠ [] then some (trimChinese token, rest)
      else getTokens_loop fuel rest

/-- `zhAiThesaurusWord::getTokens(iss, token)`: every call of `advancedGetline`
that returns `true` on a non-empty stream takes a byte from it, so `iss.size() + 1`
calls are enough. -/
def getTokens (iss : Str) : Option (Str × Str) :=
  getTokens_loop (iss.length + 1) iss

/-- The tokens of `getTokens` called on a stream until it returns `false`, at most
`calls` times. -/
def read_tokens : Nat → Str → List Str
  | 0, _ => []
  | calls + 1, iss =>
    match getTokens iss with
    | none => []
    | some (token, rest) => token :: read_tokens calls rest

/-- The strings `","`, `"，"`, `" "` and `"\t"` a row may use between two
tokens. -/
def delimiter_strings : List Str :=
  [bytes ",", bytes "\uFF0C", bytes " ", bytes "\t"]

/-- The row made of the tokens with `seps[i]` between token `i` and token
`i + 1`. -/
def join_row : List Str → List Str → Str
  | [], _ => []
  | t :: ts, seps => t ++ (List.zipWith (fun s t => s ++ t) seps ts).flatten

/-- A token of a row: not empty, no ASCII white space, none of the bytes of the
delimiter string (the comma and the three bytes `EF BC 8C` of the full-width
comma among them), and no full-width space at either end. -/
abbrev plain_token (t : Str) : Prop :=
  t ≠ [] ∧ (∀ b ∈ t, isspace b = false ∧ b ∉ zh_delims) ∧
  ¬ bytes "\u3000" <+: t ∧ ¬ bytes "\u3000" <:+ t

end zhAiThesaurusWord


namespace FastVocabService

/-! ## Concrete stores used by the examples -/

/-- A timestamp as `CURRENT_TIMESTAMP` writes it. -/
def sample_time : Str := bytes "2024-01-01 00:00:00"

/-- The store after `record("apple", nullopt, nullopt, nullopt)` on an empty
database: one active `user_vocab` row and its term. -/
def apple_store : Store :=
  { terms := [{ term := bytes "apple", language := bytes "en" }],
    synonym_edge := [],
    translation_edge := [],
    user_vocab := [{ id := 1, english := some (bytes "apple"), chinese := some [],
                     meaning_en := some [], meaning_zh := some [], deleted := some 0,
                     created_at := sample_time, updated_at := sample_time }],
    user_vocab_seq := 1 }

/-- The store after `record("apple", "苹果", nullopt, nullopt)` on an empty
database: the `user_vocab` row, its two terms, and the translation edge with
score `1.0` that `record` links to a bilingual pair. -/
def tie_store : Store :=
  { terms := [{ term := bytes "apple", language := bytes "en" },
              { term := bytes "苹果", language := bytes "zh" }],
    synonym_edge := [],
    translation_edge := [{ id := 1, en_term := bytes "apple", zh_term := bytes "苹果",
                           score := 1, source := bytes "user" }],
    user_vocab := [{ id := 1, english := some (bytes "apple"), chinese := some (bytes "苹果"),
                     meaning_en := some [], meaning_zh := some [], deleted := some 0,
                     created_at := sample_time, updated_at := sample_time }],
    user_vocab_seq := 1 }

/-- The user hit of the query `"apple"` on `tie_store`. -/
def tie_user_hit : SearchHit :=
  { score := 1, source := bytes "user", english := bytes "apple", chinese := bytes "苹果",
    extra := [] }

/-- The translation-edge hit of the query `"apple"` on `tie_store`. -/
def tie_edge_hit : SearchHit :=
  { score := 1, source := bytes "translation_edge", english := bytes "apple",
    chinese := bytes "苹果", extra := [] }

/-- The store `tie_store` with sixteen translation edges of `"apple"` and `"苹果"`
in place of one, each with the score `1.0` and a `source` of its own
(`UNIQUE(en_term, zh_term, source)`). -/
def tied_store : Store :=
  { tie_store with
    translation_edge := (List.range 16).map (fun (i : Nat) =>
      { id := (i : Int) + 1, en_term := bytes "apple", zh_term := bytes "苹果", score := 1,
        source := bytes "seed" ++ [48 + i / 10, 48 + i % 10] }) }

/-- The row of `apple_store`, soft-deleted. -/
def deleted_apple_row : UserVocabRow :=
  { id := 1, english := some (bytes "apple"), chinese := some [],
    meaning_en := some [], meaning_zh := some [], deleted := some 1,
    created_at := sample_time, updated_at := sample_time }

/-- The store `apple_store` after `soft_delete(1)`. -/
def deleted_apple_store : Store :=
  { terms := [{ term := bytes "apple", language := bytes "en" }],
    synonym_edge := [],
    translation_edge := [],
    user_vocab := [deleted_apple_row],
    user_vocab_seq := 1 }

/-- The row of `apple_store`. -/
def apple_row : UserVocabRow :=
  { id := 1, english := some (bytes "apple"), chinese := some [],
    meaning_en := some [], meaning_zh := some [], deleted := some 0,
    created_at := sample_time, updated_at := sample_time }

/-- An entry whose english text `" a"` starts with a space (a row loaded from a
dump; `record` would have trimmed it). -/
def padded_entry : VocabEntry :=
  { id := 1, english := bytes " a", chinese := [], meaning_en := [], meaning_zh := [],
    deleted := false }

/-- The store holding the row of `padded_entry`. -/
def padded_store : Store :=
  { terms := [], synonym_edge := [], translation_edge := [],
    user_vocab := [{ id := 1, english := some (bytes " a"), chinese := some [],
                     meaning_en := some [], meaning_zh := some [], deleted := some 0,
                     created_at := sample_time, updated_at := sample_time }],
    user_vocab_seq := 1 }

/-- A row whose rowid `2^32 + 5` is not an `int`. -/
def wide_row : UserVocabRow :=
  { id := 4294967301, english := some (bytes "a"), chinese := some [],
    meaning_en := some [], meaning_zh := some [], deleted := some 0,
    created_at := sample_time, updated_at := sample_time }

/-- A database whose one `user_vocab` row has the rowid `2^32 + 5` (loaded from a
dump, say). -/
def wide_store : Store :=
  { terms := [{ term := bytes "a", language := bytes "en" }],
    synonym_edge := [],
    translation_edge := [],
    user_vocab := [wide_row],
    user_vocab_seq := 4294967301 }

/-- The row of `wide_store`, soft-deleted. -/
def deleted_wide_row : UserVocabRow :=
  { wide_row with deleted := some 1 }

/-- The store `wide_store` with its row soft-deleted. -/
def deleted_wide_store : Store :=
  { wide_store with user_vocab := [deleted_wide_row] }

/-- A soft-deleted row whose english text `"a\0b"` holds a NUL byte. -/
def nul_row : UserVocabRow :=
  { id := 1, english := some [97, 0, 98], chinese := some [],
    meaning_en := some [], meaning_zh := some [], deleted := some 1,
    created_at := sample_time, updated_at := sample_time }

/-- A database with the row `nul_row`. -/
def nul_store : Store :=
  { terms := [], synonym_edge := [], translation_edge := [], user_vocab := [nul_row],
    user_vocab_seq := 1 }

/-- A database whose `AUTOINCREMENT` counter has reached the largest rowid. -/
def full_store : Store :=
  { terms := [], synonym_edge := [], translation_edge := [], user_vocab := [],
    user_vocab_seq := 9223372036854775807 }

/-- The store `deleted_apple_store` with the `AUTOINCREMENT` counter at the
largest rowid. -/
def full_deleted_store : Store :=
  { deleted_apple_store with user_vocab_seq := 9223372036854775807 }

theorem substr_two (s : Str) (i : Nat) (h : i + 1 < s.length) :
    substr s i 2 = [s[i], s[i + 1]] := by
  unfold substr
  rw [List.drop_eq_getElem_cons (by omega : i < s.length),
    List.drop_eq_getElem_cons (by omega : i + 1 < s.length)]
  rfl

theorem bigrams_of_two_le (s : Str) (h : 2 ≤ s.length) :
    bigrams s = (List.range (s.length - 1)).map (fun i => substr s i 2) := by
  unfold bigrams
  rw [if_neg (by omega)]

theorem bigrams_length_of_two_le (s : Str) (h : 2 ≤ s.length) :
    (bigrams s).length = s.length - 1 := by
  rw [bigrams_of_two_le s h]; simp

theorem bigrams_ne_nil (s : Str) (h : s ≠ []) : bigrams s ≠ [] := by
  by_cases h2 : s.length < 2
  · unfold bigrams
    rw [if_pos h2, if_pos h]
    exact List.cons_ne_nil _ _
  · intro hnil
    have := bigrams_length_of_two_le s (by omega)
    rw [hnil] at this
    simp at this
    omega

/-- C10 (as amended): `bigrams ""` is the empty list, not `[""]`; a string of
length 1 gives the one-element list `[s]`; a string of length `n >= 2` gives its
`n - 1` adjacent two-byte substrings `[s[i], s[i+1]]`, in order. -/
theorem bigrams_spec (s : Str) :
    (s = [] → bigrams s = []) ∧
    (s.length = 1 → bigrams s = [s]) ∧
    (2 ≤ s.length →
      (bigrams s).length = s.length - 1 ∧
      ∀ (i : Nat) (h : i + 1 < s.length), (bigrams s)[i]? = some [s[i], s[i + 1]]) := by
  refine ⟨?_, ?_, ?_⟩
  · intro h; subst h; rfl
  · intro h
    unfold bigrams
    have hne : s ≠ [] := by
      intro h0; rw [h0] at h; simp at h
    rw [if_pos (by omega), if_pos hne]
  · intro h
    refine ⟨bigrams_length_of_two_le s h, ?_⟩
    intro i hi
    rw [bigrams_of_two_le s h, List.getElem?_map, List.getElem?_range (by omega)]
    simp only [Option.map_some']
    rw [substr_two s i hi]

/-- Witness of `bigrams_spec` at the string `"abc"`. -/
theorem bigrams_spec_witness :
    (bigrams (bytes "abc")).length = (bytes "abc").length - 1 ∧
    ∀ (i : Nat) (h : i + 1 < (bytes "abc").length),
      (bigrams (bytes "abc"))[i]? = some [(bytes "abc")[i], (bytes "abc")[i + 1]] :=
  (bigrams_spec (bytes "abc")).2.2 (by decide)

/-- C10 fails as stated at the empty string: it is shorter than 2 characters and
`bigrams` returns the empty list for it, not the one-element list `[""]`. -/
theorem bigrams_empty_counterexample :
    (bytes "").length < 2 ∧ bigrams (bytes "") ≠ [bytes ""] := by
  decide

/-! ## The Dice score -/

theorem freqRep_empty : FreqRep (fun _ => none) 0 := by
  intro g; simp

theorem freqRep_incr {freq : FreqMap} {M : Multiset Str} (h : FreqRep freq M) (g : Str) :
    FreqRep (freq_incr freq g) (g ::ₘ M) := by
  intro k
  unfold freq_incr
  by_cases hk : k = g
  · subst hk; simp [h k]
  · simp [hk, h k, Multiset.count_cons_of_ne hk]

theorem freqRep_build {freq : FreqMap} {M : Multiset Str} (h : FreqRep freq M)
    (a : List Str) : FreqRep (build_freq freq a) (M + (a : Multiset Str)) := by
  induction a generalizing freq M with
  | nil => simpa [build_freq] using h
  | cons g a ih =>
    have := ih (freqRep_incr h g)
    simpa [build_freq, ← Multiset.cons_coe, Multiset.add_cons] using this

theorem freqRep_decr {freq : FreqMap} {M : Multiset Str} (h : FreqRep freq M) (g : Str)
    {n : Int} (hf : freq g = some n) (hn : 0 < n) :
    FreqRep (freq_decr freq g) (M.erase g) := by
  intro k
  unfold freq_decr
  by_cases hk : k = g
  · subst hk
    have := h k
    rw [hf] at this
    simp only [Option.getD_some] at this
    simp only [if_true, hf, Option.map_some', Option.getD_some, Multiset.count_erase_self]
    omega
  · simp [hk, h k, Multiset.count_erase_of_ne hk]

/-- The consuming loop counts the multiset intersection of `b` with the table. -/
theorem overlap_loop_eq {freq : FreqMap} {M : Multiset Str} (h : FreqRep freq M)
    (o : Int) (b : List Str) :
    overlap_loop freq o b = o + (Multiset.card ((b : Multiset Str) ∩ M) : Int) := by
  induction b generalizing freq M o with
  | nil => simp [overlap_loop]
  | cons g b ih =>
    unfold overlap_loop
    have hg := h g
    cases hf : freq g with
    | none =>
      rw [hf] at hg
      have hnot : g ∉ M := by
        intro hmem
        have := Multiset.count_pos.mpr hmem
        simp at hg; omega
      simp only []
      rw [ih h, ← Multiset.cons_coe, Multiset.cons_inter_of_neg _ hnot]
    | some n =>
      rw [hf] at hg
      simp only [Option.getD_some] at hg
      simp only []
      by_cases hn : n > 0
      · have hmem : g ∈ M := by
          apply Multiset.count_pos.mp; omega
        rw [if_pos hn, ih (freqRep_decr h g hf hn), ← Multiset.cons_coe,
          Multiset.cons_inter_of_pos _ hmem, Multiset.card_cons]
        push_cast; ring
      · have hnot : g ∉ M := by
          intro hmem
          have := Multiset.count_pos.mpr hmem
          omega
        rw [if_neg hn, ih h, ← Multiset.cons_coe, Multiset.cons_inter_of_neg _ hnot]

theorem coe_count_eq_occurrences (g : Str) (A : List Str) :
    Multiset.count g (A : Multiset Str) = occurrences g A := by
  rw [Multiset.coe_count]; rfl

theorem card_inter_eq_matched (A B : List Str) :
    Multiset.card ((B : Multiset Str) ∩ (A : Multiset Str)) = matched A B := by
  unfold matched
  rw [Multiset.inter_comm, ← Multiset.toFinset_sum_count_eq]
  have hsub : ((A : Multiset Str) ∩ (B : Multiset Str)).toFinset ⊆ A.toFinset := by
    intro g hg
    simp only [Multiset.toFinset_inter, Finset.mem_inter, Multiset.mem_toFinset,
      Multiset.mem_coe] at hg
    simpa using hg.1
  rw [Finset.sum_subset hsub]
  · refine Finset.sum_congr rfl (fun g _ => ?_)
    rw [Multiset.count_inter, coe_count_eq_occurrences, coe_count_eq_occurrences]
  · intro g _ hg
    rw [Multiset.mem_toFinset, ← Multiset.count_pos] at hg
    exact Nat.eq_zero_of_not_pos hg

theorem matched_comm (A B : List Str) : matched A B = matched B A := by
  rw [← card_inter_eq_matched, ← card_inter_eq_matched, Multiset.inter_comm]

theorem matched_of_perm {A B : List Str} (h : A.Perm B) : matched A B = A.length := by
  rw [← card_inter_eq_matched, Multiset.coe_eq_coe.mpr h, ← Multiset.inf_eq_inter, inf_idem,
    Multiset.coe_card, h.length_eq]

theorem matched_le_left (A B : List Str) : matched A B ≤ A.length := by
  rw [← card_inter_eq_matched, ← Multiset.coe_card A]
  exact Multiset.card_le_card (Multiset.inter_le_right _ _)

theorem dice_score_eq (A B : List Str) :
    dice_score A B =
      if A = [] ∨ B = [] then 0
      else (2 * (matched A B : ℚ)) / ((A.length : ℚ) + (B.length : ℚ)) := by
  unfold dice_score
  split_ifs with h
  · rfl
  · push_neg at h
    have hA : 0 < A.length := List.length_pos.mpr h.1
    have hden : ((A.length + B.length : Nat) : ℚ) ≠ 0 := by
      have : 0 < A.length + B.length := by omega
      exact_mod_cast this.ne'
    have hrep := freqRep_build freqRep_empty A
    rw [zero_add] at hrep
    simp only [if_neg hden]
    rw [overlap_loop_eq hrep, card_inter_eq_matched]
    simp

theorem dice_score_comm (A B : List Str) : dice_score A B = dice_score B A := by
  rw [dice_score_eq, dice_score_eq, matched_comm A B, add_comm (A.length : ℚ)]
  by_cases h : A = [] ∨ B = []
  · rw [if_pos h, if_pos (Or.symm h)]
  · rw [if_neg h, if_neg (fun h1 => h (Or.symm h1))]

theorem dice_score_of_perm {A B : List Str} (hA : A ≠ []) (h : A.Perm B) :
    dice_score A B = 1 := by
  have hB : B ≠ [] := fun hb => hA (by simpa [hb] using h)
  have hlen : (0 : ℚ) < (A.length : ℚ) := by exact_mod_cast List.length_pos.mpr hA
  rw [dice_score_eq, if_neg (by simp [hA, hB]), matched_of_perm h, ← h.length_eq]
  field_simp
  ring

theorem dice_score_nonneg (A B : List Str) : 0 ≤ dice_score A B := by
  rw [dice_score_eq]
  split_ifs
  · exact le_refl 0
  · positivity

/-- C7: `dice_score A B` is `0` when `A` or `B` is empty and otherwise exactly
`2 * m / (|A| + |B|)` with `m` the multiset-intersection size
`Σ_g min (count_A g) (count_B g)`; `m` is not the size of the set intersection:
for `A = B = ["aa", "aa"]` the score is `1`, the set-based formula gives `1/2`;
and a bigram repeated in one list is matched only as often as the other list
has it: `["aa", "aa"]` against `["aa"]` scores `2 * 1 / 3` in either order. -/
theorem dice_score_formula (A B : List Str) :
    dice_score A B =
      (if A = [] ∨ B = [] then 0
       else (2 * (matched A B : ℚ)) / ((A.length : ℚ) + (B.length : ℚ))) ∧
    (dice_score [bytes "aa", bytes "aa"] [bytes "aa", bytes "aa"] = 1 ∧
     (2 * (([bytes "aa", bytes "aa"].toFinset ∩ [bytes "aa", bytes "aa"].toFinset).card : ℚ))
        / (2 + 2) = 1 / 2) ∧
    (dice_score [bytes "aa", bytes "aa"] [bytes "aa"] = 2 / 3 ∧
     dice_score [bytes "aa"] [bytes "aa", bytes "aa"] = 2 / 3) := by
  refine ⟨dice_score_eq A B, ⟨?_, ?_⟩, ?_, ?_⟩
  · exact dice_score_of_perm (List.cons_ne_nil _ _) (List.Perm.refl _)
  · have : ([bytes "aa", bytes "aa"].toFinset ∩ [bytes "aa", bytes "aa"].toFinset).card = 1 := by
      decide
    rw [this]; norm_num
  · have hm : matched [bytes "aa", bytes "aa"] [bytes "aa"] = 1 := by decide
    rw [dice_score_eq, if_neg (by decide), hm]
    norm_num
  · have hm : matched [bytes "aa"] [bytes "aa", bytes "aa"] = 1 := by decide
    rw [dice_score_eq, if_neg (by decide), hm]
    norm_num

/-- C8: the bigram overlap score is symmetric in its two strings (and in any two
bigram lists), although the table is built from the first and consumed by the
second. -/
theorem dice_score_symmetric (a b : Str) :
    dice_score (bigrams a) (bigrams b) = dice_score (bigrams b) (bigrams a) ∧
    ∀ A B : List Str, dice_score A B = dice_score B A :=
  ⟨dice_score_comm _ _, dice_score_comm⟩

/-- C9: for a string `a` of length at least 2 the score of `a` against itself is
exactly `1`, and the score of two non-empty bigram lists that are equal as
multisets (permutations of one another) is `1`. -/
theorem dice_score_identical (a : Str) (A B : List Str) (ha : 2 ≤ a.length)
    (hA : A ≠ []) (hAB : A.Perm B) :
    dice_score (bigrams a) (bigrams a) = 1 ∧ dice_score A B = 1 := by
  refine ⟨dice_score_of_perm (bigrams_ne_nil a ?_) (List.Perm.refl _),
    dice_score_of_perm hA hAB⟩
  intro h0; rw [h0] at ha; simp at ha

/-- Witness of `dice_score_identical`: `"apple"` against itself, and the bigram
lists `["ab", "bc"]` and `["bc", "ab"]`. -/
theorem dice_score_identical_witness :
    dice_score (bigrams (bytes "apple")) (bigrams (bytes "apple")) = 1 ∧
    dice_score [bytes "ab", bytes "bc"] [bytes "bc", bytes "ab"] = 1 :=
  dice_score_identical (bytes "apple") [bytes "ab", bytes "bc"] [bytes "bc", bytes "ab"]
    (by decide) (by decide) (List.Perm.swap _ _ _)

/-! ## Truncation and sorting -/

theorem truncate_topk_of_nonneg (hits : List SearchHit) {topk : Int} (h : 0 ≤ topk) :
    truncate_topk hits topk = some (hits.take topk.toNat) := by
  unfold truncate_topk
  split_ifs with h1 h2
  · omega
  · rfl
  · rw [List.take_of_length_le (by omega)]

theorem truncate_topk_of_neg (hits : List SearchHit) {topk : Int} (h : topk < 0) :
    truncate_topk hits topk = none := by
  unfold truncate_topk
  rw [if_pos (by omega), if_pos h]

theorem length_take_toNat_le {α : Type} (l : List α) {k : Int} (h : 0 ≤ k) :
    ((l.take k.toNat).length : Int) ≤ k := by
  rw [List.length_take]
  omega

theorem search_user_vocab_of_nonneg (env : Env) (st : Store) (query lang : Str)
    {topk : Int} (h : 0 ≤ topk) :
    search_user_vocab env st query lang topk =
      some ((env.std_sort.sort (user_candidates st query lang)).take topk.toNat) :=
  truncate_topk_of_nonneg _ h

theorem search_base_tables_of_nonneg (env : Env) (st : Store) (query lang : Str)
    {topk : Int} (h : 0 ≤ topk) :
    search_base_tables env st query lang topk =
      some ((env.std_sort.sort (base_candidates env st query lang topk)).take topk.toNat) :=
  truncate_topk_of_nonneg _ h

theorem resolve_language_ne_auto (query hint : Str) :
    resolve_language query hint ≠ bytes "auto" := by
  unfold resolve_language
  split_ifs with h1 h2
  · decide
  · decide
  · exact h1

/-- The value of `search` for a non-negative `topk`. -/
theorem search_of_nonneg (env : Env) (st : Store) (query hint : Str) {topk : Int}
    (include_base : Bool) (h : 0 ≤ topk) :
    search env st query hint topk include_base =
      some (if include_base then
        (env.std_sort.sort
          ((env.std_sort.sort
              (user_candidates st query (resolve_language query hint))).take topk.toNat ++
           (env.std_sort.sort
              (base_candidates env st query (resolve_language query hint) topk)).take
                topk.toNat)).take topk.toNat
      else
        (env.std_sort.sort
          (user_candidates st query (resolve_language query hint))).take topk.toNat) := by
  unfold search
  simp only [search_user_vocab_of_nonneg env st query _ h,
    search_base_tables_of_nonneg env st query _ h, if_neg (resolve_language_ne_auto query hint)]
  cases include_base
  · simp
  · simp [truncate_topk_of_nonneg _ h]

theorem search_of_neg (env : Env) (st : Store) (query hint : Str) {topk : Int}
    (include_base : Bool) (h : topk < 0) :
    search env st query hint topk include_base = none := by
  unfold search search_user_vocab
  simp only [truncate_topk_of_neg _ h]

/-- A sorted list has every adjacent pair in descending score order. -/
theorem adjacent_of_sorted {α : Type} {key : α → ℚ} {l : List α}
    (h : l.Pairwise (fun a b => ¬ key b > key a)) (i : Nat) (hi : i + 1 < l.length) :
    key l[i] ≥ key l[i + 1] := by
  have := List.pairwise_iff_getElem.mp h i (i + 1) (by omega) hi (by omega)
  exact not_lt.mp this

theorem sorted_take {α : Type} {key : α → ℚ} (S : DescSort α key) (l : List α) (n : Nat) :
    ((S.sort l).take n).Pairwise (fun a b => ¬ key b > key a) :=
  (S.sorted l).sublist (List.take_sublist n _)

theorem mem_of_mem_sort_take {α : Type} {key : α → ℚ} (S : DescSort α key) {l : List α}
    {n : Nat} {x : α} (h : x ∈ (S.sort l).take n) : x ∈ l :=
  (S.perm l).subset (List.mem_of_mem_take h)

/-- C1: for every `topk = K >= 0`, `search` returns, and returns at most `K`
hits; so do `search_user_vocab` and `search_base_tables` on their own. -/
theorem search_length_le_topk (env : Env) (st : Store) (query hint lang : Str) (K : Int)
    (include_base : Bool) (hK : 0 ≤ K) :
    (∃ hits, search env st query hint K include_base = some hits ∧ (hits.length : Int) ≤ K) ∧
    (∃ hits, search_user_vocab env st query lang K = some hits ∧ (hits.length : Int) ≤ K) ∧
    (∃ hits, search_base_tables env st query lang K = some hits ∧ (hits.length : Int) ≤ K) := by
  refine ⟨⟨_, search_of_nonneg env st query hint include_base hK, ?_⟩,
    ⟨_, search_user_vocab_of_nonneg env st query lang hK, length_take_toNat_le _ hK⟩,
    ⟨_, search_base_tables_of_nonneg env st query lang hK, length_take_toNat_le _ hK⟩⟩
  cases include_base
  · exact length_take_toNat_le _ hK
  · exact length_take_toNat_le _ hK

/-- C2: whenever `search` returns a list (it does for every `topk >= 0`; a
negative `topk` makes `resize` throw), the list is in descending score order:
each hit's score is at least the score of the hit after it. -/
theorem search_sorted_desc (env : Env) (st : Store) (query hint : Str) (topk : Int)
    (include_base : Bool) :
    (topk < 0 → search env st query hint topk include_base = none) ∧
    (0 ≤ topk → ∃ hits, search env st query hint topk include_base = some hits ∧
      ∀ (i : Nat) (h : i + 1 < hits.length), hits[i].score ≥ hits[i + 1].score) := by
  refine ⟨fun h => search_of_neg env st query hint include_base h, fun h => ?_⟩
  refine ⟨_, search_of_nonneg env st query hint include_base h, ?_⟩
  cases include_base
  · exact fun i hi => adjacent_of_sorted (sorted_take env.std_sort _ _) i hi
  · exact fun i hi => adjacent_of_sorted (sorted_take env.std_sort _ _) i hi

/-! ## Evaluation on the concrete stores -/

theorem sort_singleton {α : Type} {key : α → ℚ} (S : DescSort α key) (x : α) :
    S.sort [x] = [x] :=
  List.perm_singleton.mp (S.perm [x])

theorem sort_nil {α : Type} {key : α → ℚ} (S : DescSort α key) : S.sort [] = [] :=
  List.perm_nil.mp (S.perm [])

theorem mem_load_user_vocab {st : Store} {entry : VocabEntry} :
    entry ∈ load_user_vocab st ↔
      ∃ row ∈ st.user_vocab, row.deleted = some 0 ∧ row_to_entry row = entry := by
  unfold load_user_vocab
  simp only [List.mem_map, List.mem_filter, decide_eq_true_eq]
  constructor
  · rintro ⟨row, ⟨h1, h2⟩, h3⟩; exact ⟨row, h1, h2, h3⟩
  · rintro ⟨row, h1, h2, h3⟩; exact ⟨row, ⟨h1, h2⟩, h3⟩

theorem mem_user_candidates {st : Store} {query lang : Str} {hit : SearchHit} :
    hit ∈ user_candidates st query lang ↔
      ∃ entry ∈ load_user_vocab st,
        0 < entry_best (bigrams (normalize_query query lang)) lang entry ∧
        hit = { score := entry_best (bigrams (normalize_query query lang)) lang entry,
                source := bytes "user", english := entry.english,
                chinese := entry.chinese, extra := [] } := by
  unfold user_candidates
  simp only [List.mem_filterMap]
  constructor
  · rintro ⟨entry, he, h⟩
    refine ⟨entry, he, ?_⟩
    split_ifs at h with hpos
    · exact ⟨hpos, (Option.some.inj h).symm⟩
  · rintro ⟨entry, he, hpos, rfl⟩
    exact ⟨entry, he, by rw [if_pos hpos]⟩

theorem eq_take_of_truncate {l hits : List SearchHit} {topk : Int}
    (h : truncate_topk l topk = some hits) : 0 ≤ topk ∧ hits = l.take topk.toNat := by
  by_cases hk : topk < 0
  · rw [truncate_topk_of_neg _ hk] at h; exact absurd h (by simp)
  · have hk0 : 0 ≤ topk := by omega
    rw [truncate_topk_of_nonneg _ hk0] at h
    exact ⟨hk0, (Option.some.inj h).symm⟩

theorem consider_ge_best (q_bi : List Str) (best : ℚ) (text : Str) :
    best ≤ consider q_bi best text := by
  simp only [consider]
  split_ifs with h1 h2
  · exact le_refl _
  · exact le_of_lt h2
  · exact le_refl _

theorem user_candidates_tie_store :
    user_candidates tie_store (bytes "apple") (bytes "en") = [tie_user_hit] := by
  have hq : normalize_query (bytes "apple") (bytes "en") = bytes "apple" := by decide
  have hload : load_user_vocab tie_store =
      [{ id := 1, english := bytes "apple", chinese := bytes "苹果", meaning_en := [],
         meaning_zh := [], deleted := false }] := by decide
  have hself : dice_score (bigrams (bytes "apple")) (bigrams (bytes "apple")) = 1 :=
    dice_score_of_perm (by decide) (List.Perm.refl _)
  have hzh : dice_score (bigrams (bytes "apple")) (bigrams (bytes "苹果")) = 0 := by
    have hm : matched (bigrams (bytes "apple")) (bigrams (bytes "苹果")) = 0 := by decide
    rw [dice_score_eq, hm]
    simp
  have hbest : entry_best (bigrams (bytes "apple")) (bytes "en")
      { id := 1, english := bytes "apple", chinese := bytes "苹果", meaning_en := [],
        meaning_zh := [], deleted := false } = 1 := by
    have hne : bytes "apple" ≠ [] := by decide
    have hne2 : bytes "苹果" ≠ [] := by decide
    simp only [entry_best, if_true, List.foldl_cons, List.foldl_nil, consider, if_neg hne,
      if_neg hne2, hself, hzh]
    norm_num
  unfold user_candidates
  simp only [hq, hload, List.filterMap_cons, List.filterMap_nil, hbest]
  norm_num
  rfl

theorem set_perm_cons {α : Type} (l : List α) (j : Nat) (a b : α) (h : l[j]? = some b) :
    (b :: l.set j a).Perm (a :: l) := by
  induction l generalizing j with
  | nil => simp at h
  | cons y ys ih =>
    cases j with
    | zero =>
      simp only [List.getElem?_cons_zero, Option.some.injEq] at h
      subst h
      exact List.Perm.swap _ _ _
    | succ k =>
      simp only [List.getElem?_cons_succ] at h
      simp only [List.set_cons_succ]
      exact (List.Perm.swap _ _ _).trans (((ih k h).cons y).trans (List.Perm.swap _ _ _))

theorem set_set_perm {α : Type} (l : List α) (i j : Nat) (a b : α) (hi : l[i]? = some a)
    (hj : l[j]? = some b) : ((l.set i b).set j a).Perm l := by
  induction l generalizing i j with
  | nil => simp
  | cons x xs ih =>
    cases i with
    | zero =>
      simp only [List.getElem?_cons_zero, Option.some.injEq] at hi
      subst hi
      cases j with
      | zero =>
        simp
      | succ k =>
        simp only [List.getElem?_cons_succ] at hj
        simp only [List.set_cons_zero, List.set_cons_succ]
        exact set_perm_cons xs k x b hj
    | succ m =>
      simp only [List.getElem?_cons_succ] at hi
      cases j with
      | zero =>
        simp only [List.getElem?_cons_zero, Option.some.injEq] at hj
        subst hj
        simp only [List.set_cons_zero, List.set_cons_succ]
        exact set_perm_cons xs m x a hi
      | succ k =>
        simp only [List.getElem?_cons_succ] at hj
        simp only [List.set_cons_succ]
        exact (ih m k hi hj).cons x

theorem iter_swap_perm {α : Type} (l : List α) (i j : Nat) : (iter_swap l i j).Perm l := by
  unfold iter_swap
  split
  · next a b hi hj => exact set_set_perm l i j a b hi hj
  · exact List.Perm.refl _

theorem set_self {α : Type} (l : List α) (i : Nat) (a : α) (h : l[i]? = some a) : l.set i a = l := by
  induction l generalizing i with
  | nil => rfl
  | cons x xs ih =>
    cases i with
    | zero =>
      simp only [List.getElem?_cons_zero, Option.some.injEq] at h
      subst h
      rfl
    | succ k =>
      simp only [List.getElem?_cons_succ] at h
      simp only [List.set_cons_succ, ih k h]

theorem move_median_to_first_perm {α : Type} (comp : α → α → Bool) (l : List α) (result a b c : Nat) :
    (move_median_to_first comp l result a b c).Perm l := by
  unfold move_median_to_first
  split
  · split_ifs <;> exact iter_swap_perm _ _ _
  · exact List.Perm.refl _

theorem unguarded_partition_perm {α : Type} (comp : α → α → Bool) (pivot : α) (fuel : Nat) (l : List α)
    (first last : Nat) : (unguarded_partition comp pivot fuel l first last).1.Perm l := by
  induction fuel generalizing l first last with
  | zero => exact List.Perm.refl _
  | succ fuel ih =>
    simp only [unguarded_partition]
    split_ifs
    · exact (ih _ _ _).trans (iter_swap_perm _ _ _)
    · exact List.Perm.refl _

theorem unguarded_partition_pivot_perm {α : Type} (comp : α → α → Bool) (l : List α) :
    (unguarded_partition_pivot comp l).1.Perm l := by
  unfold unguarded_partition_pivot
  simp only []
  split
  · exact (unguarded_partition_perm _ _ _ _ _ _).trans (move_median_to_first_perm _ _ _ _ _ _)
  · exact move_median_to_first_perm _ _ _ _ _ _

theorem push_heap_perm {α : Type} (comp : α → α → Bool) (value : α) (topIndex fuel : Nat) (l : List α)
    (holeIndex : Nat) : (push_heap comp value topIndex fuel l holeIndex).Perm l := by
  induction fuel generalizing l holeIndex with
  | zero => exact List.Perm.refl _
  | succ fuel ih =>
    simp only [push_heap]
    split
    · split_ifs
      · exact (ih _ _).trans (iter_swap_perm _ _ _)
      · exact List.Perm.refl _
    · exact List.Perm.refl _

theorem adjust_heap_down_perm {α : Type} (comp : α → α → Bool) (len fuel : Nat) (l : List α)
    (holeIndex : Nat) : (adjust_heap_down comp len fuel l holeIndex).1.Perm l := by
  induction fuel generalizing l holeIndex with
  | zero => exact List.Perm.refl _
  | succ fuel ih =>
    simp only [adjust_heap_down]
    split_ifs
    · split
      · exact (ih _ _).trans (iter_swap_perm _ _ _)
      · exact List.Perm.refl _
    · exact List.Perm.refl _

theorem adjust_heap_perm {α : Type} (comp : α → α → Bool) (l : List α) (holeIndex len : Nat) (value : α) :
    (adjust_heap comp l holeIndex len value).Perm (l.set holeIndex value) := by
  unfold adjust_heap
  refine (push_heap_perm _ _ _ _ _ _).trans ?_
  split_ifs
  · exact (iter_swap_perm _ _ _).trans (adjust_heap_down_perm _ _ _ _ _)
  · exact adjust_heap_down_perm _ _ _ _ _

theorem pop_heap_perm {α : Type} (comp : α → α → Bool) (l : List α) (len result : Nat) :
    (pop_heap comp l len result).Perm l := by
  unfold pop_heap
  split
  · next value top hr h0 =>
    exact (adjust_heap_perm _ _ _ _ _).trans (set_set_perm l result 0 value top hr h0)
  · exact List.Perm.refl _

theorem make_heap_loop_perm {α : Type} (comp : α → α → Bool) (len parent : Nat) (l : List α) :
    (make_heap_loop comp len parent l).Perm l := by
  induction parent generalizing l with
  | zero =>
    simp only [make_heap_loop]
    split
    · next value h =>
      have := adjust_heap_perm comp l 0 len value
      rwa [set_self l 0 value h] at this
    · exact List.Perm.refl _
  | succ parent ih =>
    simp only [make_heap_loop]
    split
    · next value h =>
      have := adjust_heap_perm comp l (parent + 1) len value
      rw [set_self l (parent + 1) value h] at this
      exact (ih _).trans this
    · exact List.Perm.refl _

theorem make_heap_perm {α : Type} (comp : α → α → Bool) (l : List α) : (make_heap comp l).Perm l := by
  unfold make_heap
  split_ifs
  · exact List.Perm.refl _
  · exact make_heap_loop_perm _ _ _ _

theorem sort_heap_perm {α : Type} (comp : α → α → Bool) (last : Nat) (l : List α) :
    (sort_heap comp last l).Perm l := by
  induction last generalizing l with
  | zero => exact List.Perm.refl _
  | succ last ih =>
    simp only [sort_heap]
    split_ifs
    · exact (ih _).trans (pop_heap_perm _ _ _ _)
    · exact List.Perm.refl _

theorem partial_sort_perm {α : Type} (comp : α → α → Bool) (l : List α) : (partial_sort comp l).Perm l :=
  (sort_heap_perm _ _ _).trans (make_heap_perm _ _)

theorem introsort_loop_perm {α : Type} (comp : α → α → Bool) (depth_limit : Nat) (l : List α) :
    (introsort_loop comp depth_limit l).Perm l := by
  induction depth_limit generalizing l with
  | zero =>
    simp only [introsort_loop]
    split_ifs
    · exact partial_sort_perm _ _
    · exact List.Perm.refl _
  | succ depth_limit ih =>
    simp only [introsort_loop]
    split_ifs
    · refine ((ih _).append (ih _)).trans ?_
      rw [List.take_append_drop]
      exact unguarded_partition_pivot_perm _ _
    · exact List.Perm.refl _

theorem linear_insert_loop_perm {α : Type} (comp : α → α → Bool) (val : α) (l : List α) :
    (linear_insert_loop comp val l).Perm (val :: l) := by
  induction l with
  | nil => exact List.Perm.refl _
  | cons next rest ih =>
    simp only [linear_insert_loop]
    split_ifs
    · exact (ih.cons next).trans (List.Perm.swap _ _ _)
    · exact List.Perm.refl _

theorem unguarded_linear_insert_perm {α : Type} (comp : α → α → Bool) (val : α) (before : List α) :
    (unguarded_linear_insert comp val before).Perm (before ++ [val]) := by
  unfold unguarded_linear_insert
  refine (List.reverse_perm _).trans ((linear_insert_loop_perm _ _ _).trans ?_)
  exact ((List.reverse_perm before).cons val).trans (List.perm_append_singleton val before).symm

theorem insertion_step_perm {α : Type} (comp : α → α → Bool) (before : List α) (val : α) :
    (insertion_step comp before val).Perm (before ++ [val]) := by
  unfold insertion_step
  split
  · exact List.Perm.refl _
  · split_ifs
    · exact (List.perm_append_singleton _ _).symm
    · exact unguarded_linear_insert_perm _ _ _

theorem foldl_perm {α : Type} (step : List α → α → List α)
    (hstep : ∀ before val, (step before val).Perm (before ++ [val])) (rest before : List α) :
    (rest.foldl step before).Perm (before ++ rest) := by
  induction rest generalizing before with
  | nil => simp
  | cons x xs ih =>
    simp only [List.foldl_cons]
    refine (ih _).trans ?_
    have := (hstep before x).append_right xs
    simpa using this

theorem insertion_sort_perm {α : Type} (comp : α → α → Bool) (l : List α) :
    (insertion_sort comp l).Perm l := by
  unfold insertion_sort
  split
  · exact List.Perm.refl _
  · exact foldl_perm _ (insertion_step_perm comp) _ _

theorem final_insertion_sort_perm {α : Type} (comp : α → α → Bool) (l : List α) :
    (final_insertion_sort comp l).Perm l := by
  unfold final_insertion_sort
  split_ifs
  · refine (foldl_perm _ (fun before val => unguarded_linear_insert_perm comp val before)
      _ _).trans ?_
    refine ((insertion_sort_perm comp _).append_right _).trans ?_
    rw [List.take_append_drop]
  · exact insertion_sort_perm _ _

theorem std_sort_perm {α : Type} (comp : α → α → Bool) (l : List α) : (std_sort comp l).Perm l := by
  unfold std_sort
  split_ifs
  · exact List.Perm.refl _
  · exact (final_insertion_sort_perm _ _).trans (introsort_loop_perm _ _ _)

theorem linear_insert_loop_sorted {α : Type} (key : α → ℚ) (val : α) (l : List α)
    (h : l.Pairwise (fun a b => ¬ key a > key b)) :
    (linear_insert_loop (score_comp key) val l).Pairwise (fun a b => ¬ key a > key b) := by
  induction l with
  | nil => simp [linear_insert_loop]
  | cons next rest ih =>
    rw [List.pairwise_cons] at h
    simp only [linear_insert_loop, score_comp, decide_eq_true_eq]
    split_ifs with hc
    · rw [List.pairwise_cons]
      refine ⟨fun b hb => ?_, ih h.2⟩
      rcases List.mem_cons.mp ((linear_insert_loop_perm _ val rest).subset hb) with rfl | hb
      · exact not_lt.mpr hc.le
      · exact h.1 b hb
    · rw [List.pairwise_cons]
      refine ⟨fun b hb => ?_, List.pairwise_cons.mpr h⟩
      rcases List.mem_cons.mp hb with rfl | hb
      · exact hc
      · have h1 := h.1 b hb
        exact not_lt.mpr ((not_lt.mp hc).trans (not_lt.mp h1))

theorem unguarded_linear_insert_sorted {α : Type} (key : α → ℚ) (val : α) (before : List α)
    (h : before.Pairwise (fun a b => ¬ key b > key a)) :
    (unguarded_linear_insert (score_comp key) val before).Pairwise
      (fun a b => ¬ key b > key a) := by
  unfold unguarded_linear_insert
  rw [List.pairwise_reverse]
  exact linear_insert_loop_sorted key val _ (List.pairwise_reverse.mpr h)

theorem insertion_step_sorted {α : Type} (key : α → ℚ) (before : List α) (val : α)
    (h : before.Pairwise (fun a b => ¬ key b > key a)) :
    (insertion_step (score_comp key) before val).Pairwise (fun a b => ¬ key b > key a) := by
  unfold insertion_step
  split
  · simp
  · next first rest =>
    split_ifs with hc
    · simp only [score_comp, decide_eq_true_eq] at hc
      rw [List.pairwise_cons]
      refine ⟨fun b hb => ?_, h⟩
      rcases List.mem_cons.mp hb with rfl | hb
      · exact not_lt.mpr hc.le
      · have h1 := (List.pairwise_cons.mp h).1 b hb
        exact not_lt.mpr ((not_lt.mp h1).trans hc.le)
    · exact unguarded_linear_insert_sorted key val _ h

theorem foldl_sorted {α : Type} (key : α → ℚ) (step : List α → α → List α)
    (hstep : ∀ before val, before.Pairwise (fun a b => ¬ key b > key a) →
      (step before val).Pairwise (fun a b => ¬ key b > key a)) (rest before : List α)
    (h : before.Pairwise (fun a b => ¬ key b > key a)) :
    (rest.foldl step before).Pairwise (fun a b => ¬ key b > key a) := by
  induction rest generalizing before with
  | nil => exact h
  | cons x xs ih => exact ih _ (hstep _ _ h)

theorem insertion_sort_sorted {α : Type} (key : α → ℚ) (l : List α) :
    (insertion_sort (score_comp key) l).Pairwise (fun a b => ¬ key b > key a) := by
  unfold insertion_sort
  split
  · exact List.Pairwise.nil
  · exact foldl_sorted key _ (insertion_step_sorted key) _ _ (List.pairwise_singleton _ _)

theorem final_insertion_sort_sorted {α : Type} (key : α → ℚ) (l : List α) :
    (final_insertion_sort (score_comp key) l).Pairwise (fun a b => ¬ key b > key a) := by
  unfold final_insertion_sort
  split_ifs
  · exact foldl_sorted key _ (fun before val => unguarded_linear_insert_sorted key val before)
      _ _ (insertion_sort_sorted key _)
  · exact insertion_sort_sorted key l

theorem std_sort_sorted {α : Type} (key : α → ℚ) (l : List α) :
    (std_sort (score_comp key) l).Pairwise (fun a b => ¬ key b > key a) := by
  unfold std_sort
  split_ifs with h
  · rw [List.isEmpty_iff] at h
    rw [h]
    exact List.Pairwise.nil
  · exact final_insertion_sort_sorted key _

/-- The loop of `unguarded_partition` ends before its fuel does: a turn that goes
on moves `first` and `last` towards each other, so any fuel above `last - first`
gives the same result. -/
theorem unguarded_partition_fuel {α : Type} (comp : α → α → Bool) (pivot : α)
    (fuel fuel' : Nat) (l : List α) (first last : Nat)
    (h : last ≤ first + fuel) (h' : last ≤ first + fuel') :
    unguarded_partition comp pivot (fuel + 1) l first last =
      unguarded_partition comp pivot (fuel' + 1) l first last := by
  induction fuel generalizing fuel' l first last with
  | zero =>
    simp only [unguarded_partition]
    rw [if_neg (by omega), if_neg (by omega)]
  | succ fuel ih =>
    cases fuel' with
    | zero =>
      simp only [unguarded_partition]
      rw [if_neg (by omega), if_neg (by omega)]
    | succ fuel' =>
      conv_lhs => rw [unguarded_partition]
      conv_rhs => rw [unguarded_partition]
      split_ifs with hlt
      · exact ih fuel' _ _ _ (by omega) (by omega)
      · rfl

/-- The loop of `push_heap` ends before its fuel does: the hole moves to its
parent, so any fuel above `holeIndex` gives the same result. -/
theorem push_heap_fuel {α : Type} (comp : α → α → Bool) (value : α) (topIndex : Nat)
    (fuel fuel' : Nat) (l : List α) (holeIndex : Nat)
    (h : holeIndex ≤ fuel) (h' : holeIndex ≤ fuel') :
    push_heap comp value topIndex (fuel + 1) l holeIndex =
      push_heap comp value topIndex (fuel' + 1) l holeIndex := by
  induction fuel generalizing fuel' l holeIndex with
  | zero =>
    have h0 : holeIndex = 0 := by omega
    subst h0
    simp only [push_heap]
    split
    · rw [if_neg (by omega), if_neg (by omega)]
    · rfl
  | succ fuel ih =>
    cases fuel' with
    | zero =>
      have h0 : holeIndex = 0 := by omega
      subst h0
      simp only [push_heap]
      split
      · rw [if_neg (by omega), if_neg (by omega)]
      · rfl
    | succ fuel' =>
      conv_lhs => rw [push_heap]
      conv_rhs => rw [push_heap]
      split
      · split_ifs with hc
        · exact ih fuel' _ _ (by omega) (by omega)
        · rfl
      · rfl

/-- The loop of `adjust_heap_down` ends before its fuel does: the hole moves to a
child below `len`, so any fuel of `len - holeIndex` or more gives the same
result. -/
theorem adjust_heap_down_fuel {α : Type} (comp : α → α → Bool) (len : Nat)
    (fuel fuel' : Nat) (l : List α) (holeIndex : Nat)
    (h : len ≤ holeIndex + fuel) (h' : len ≤ holeIndex + fuel') :
    adjust_heap_down comp len fuel l holeIndex =
      adjust_heap_down comp len fuel' l holeIndex := by
  induction fuel generalizing fuel' l holeIndex with
  | zero =>
    cases fuel' with
    | zero => rfl
    | succ fuel' =>
      simp only [adjust_heap_down]
      rw [if_neg (by omega)]
  | succ fuel ih =>
    cases fuel' with
    | zero =>
      simp only [adjust_heap_down]
      rw [if_neg (by omega)]
    | succ fuel' =>
      conv_lhs => rw [adjust_heap_down]
      conv_rhs => rw [adjust_heap_down]
      split_ifs with hlt
      · simp only []
        split
        · split_ifs
          · exact ih fuel' _ _ (by omega) (by omega)
          · exact ih fuel' _ _ (by omega) (by omega)
        · rfl
      · rfl

/-- The fuel of `lg` is enough: `lg n n` is the floor of the binary logarithm. -/
theorem lg_spec (n : Nat) (hn : 0 < n) : 2 ^ lg n n ≤ n ∧ n < 2 ^ (lg n n + 1) := by
  have key : ∀ fuel m, 0 < m → m ≤ fuel → 2 ^ lg fuel m ≤ m ∧ m < 2 ^ (lg fuel m + 1) := by
    intro fuel
    induction fuel with
    | zero => intro m hm hle; omega
    | succ fuel ih =>
      intro m hm hle
      simp only [lg]
      split_ifs with h2
      · obtain ⟨h1, h3⟩ := ih (m / 2) (by omega) (by omega)
        constructor
        · rw [pow_succ]; omega
        · rw [pow_succ]; omega
      · simp; omega
  exact key n n hn le_rfl

/-- The result of `std_sort` meets the sorting contract, so that the sort of
`libstdcxx_desc_sort` is `std_sort`. -/
theorem std_sort_meets_contract (l : List SearchHit) :
    libstdcxx_desc_sort.sort l = std_sort (score_comp SearchHit.score) l :=
  if_pos ⟨std_sort_perm _ l, std_sort_sorted SearchHit.score l⟩

theorem user_candidates_tied_store :
    user_candidates tied_store (bytes "apple") (bytes "en") = [tie_user_hit] :=
  user_candidates_tie_store

theorem base_candidates_tied_store :
    base_candidates libstdcxx_env tied_store (bytes "apple") (bytes "en") 20 =
      List.replicate 16 tie_edge_hit := by
  decide

/-- With the `std::sort` of libstdc++ a merged list of at most sixteen hits keeps
equal scores in merge order: on `tie_store`, with one user hit and one
translation-edge hit of score `1.0`, `search` with `topk = 1` returns the user
hit. -/
theorem search_tie_store_libstdcxx :
    search libstdcxx_env tie_store (bytes "apple") (bytes "en") 1 true = some [tie_user_hit] := by
  have hl : resolve_language (bytes "apple") (bytes "en") = bytes "en" := by decide
  have hbase : base_candidates libstdcxx_env tie_store (bytes "apple") (bytes "en") 1 =
      [tie_edge_hit] := by decide
  rw [search_of_nonneg _ _ _ _ _ (by decide), hl, user_candidates_tie_store, hbase]
  have hsort : ∀ l, libstdcxx_env.std_sort.sort l = std_sort (score_comp SearchHit.score) l :=
    std_sort_meets_contract
  simp only [hsort, if_true]
  decide

/-- C3 fails as stated.  On `tied_store` the query `"apple"` has one user hit and
sixteen translation-edge hits, all with the score `1.0`.  `search` with
`include_base` sorts the seventeen hits with the `std::sort` of libstdc++, whose
first partition step swaps the first element with the middle one and then swaps
inwards from both ends: the user hit comes out tenth, after nine translation-edge
hits, where the stable sort of the merged list has it first. -/
theorem search_tie_counterexample :
    search_user_vocab libstdcxx_env tied_store (bytes "apple") (bytes "en") 20
      = some [tie_user_hit] ∧
    search_base_tables libstdcxx_env tied_store (bytes "apple") (bytes "en") 20
      = some (List.replicate 16 tie_edge_hit) ∧
    search libstdcxx_env tied_store (bytes "apple") (bytes "en") 20 true
      = some (List.replicate 9 tie_edge_hit ++ tie_user_hit :: List.replicate 7 tie_edge_hit) ∧
    (stable_sort_desc SearchHit.score ([tie_user_hit] ++ List.replicate 16 tie_edge_hit)).take 20
      = tie_user_hit :: List.replicate 16 tie_edge_hit ∧
    tie_user_hit.score = tie_edge_hit.score ∧
    search libstdcxx_env tied_store (bytes "apple") (bytes "en") 20 true ≠
      some ((stable_sort_desc SearchHit.score
        ([tie_user_hit] ++ List.replicate 16 tie_edge_hit)).take 20) := by
  have hl : resolve_language (bytes "apple") (bytes "en") = bytes "en" := by decide
  have hsort : ∀ l, libstdcxx_env.std_sort.sort l = std_sort (score_comp SearchHit.score) l :=
    std_sort_meets_contract
  have huser : std_sort (score_comp SearchHit.score) [tie_user_hit] = [tie_user_hit] := by
    decide
  have hbase : std_sort (score_comp SearchHit.score) (List.replicate 16 tie_edge_hit) =
      List.replicate 16 tie_edge_hit := by
    decide
  have hmerged : std_sort (score_comp SearchHit.score)
      ([tie_user_hit] ++ List.replicate 16 tie_edge_hit) =
      List.replicate 9 tie_edge_hit ++ tie_user_hit :: List.replicate 7 tie_edge_hit := by
    decide
  have hsearch : search libstdcxx_env tied_store (bytes "apple") (bytes "en") 20 true
      = some (List.replicate 9 tie_edge_hit ++ tie_user_hit :: List.replicate 7 tie_edge_hit) := by
    rw [search_of_nonneg _ _ _ _ _ (by decide), hl, user_candidates_tied_store,
      base_candidates_tied_store]
    simp only [hsort, huser, hbase, if_true]
    have h1 : List.take (Int.toNat 20) [tie_user_hit] = [tie_user_hit] := by decide
    have h2 : List.take (Int.toNat 20) (List.replicate 16 tie_edge_hit) =
        List.replicate 16 tie_edge_hit := by decide
    rw [h1, h2, hmerged]
    decide
  have hstable : (stable_sort_desc SearchHit.score
      ([tie_user_hit] ++ List.replicate 16 tie_edge_hit)).take 20
      = tie_user_hit :: List.replicate 16 tie_edge_hit := by
    decide
  refine ⟨?_, ?_, hsearch, hstable, rfl, ?_⟩
  · rw [search_user_vocab_of_nonneg _ _ _ _ (by decide), user_candidates_tied_store, hsort,
      huser]
    rfl
  · rw [search_base_tables_of_nonneg _ _ _ _ (by decide), base_candidates_tied_store, hsort,
      hbase]
    decide
  · rw [hsearch, hstable]
    decide

/-- Two descending sorts of the same list carry the same sequence of scores. -/
theorem scores_eq_of_sorted_perm {α : Type} {key : α → ℚ} {l₁ l₂ : List α}
    (hp : l₁.Perm l₂) (h₁ : l₁.Pairwise (fun a b => ¬ key b > key a))
    (h₂ : l₂.Pairwise (fun a b => ¬ key b > key a)) :
    l₁.map key = l₂.map key := by
  have s₁ : (l₁.map key).Sorted (· ≥ ·) :=
    List.pairwise_map.mpr (h₁.imp (fun h => not_lt.mp h))
  have s₂ : (l₂.map key).Sorted (· ≥ ·) :=
    List.pairwise_map.mpr (h₂.imp (fun h => not_lt.mp h))
  exact List.eq_of_perm_of_sorted (hp.map key) s₁ s₂

/-- Without equal scores there is only one descending sort. -/
theorem sort_unique_of_nodup {α : Type} {key : α → ℚ} {l₁ l₂ : List α}
    (hp : l₁.Perm l₂) (h₁ : l₁.Pairwise (fun a b => ¬ key b > key a))
    (h₂ : l₂.Pairwise (fun a b => ¬ key b > key a)) (hn : (l₂.map key).Nodup) :
    l₁ = l₂ := by
  have hmap := scores_eq_of_sorted_perm hp h₁ h₂
  have hlen : l₁.length = l₂.length := hp.length_eq
  apply List.ext_getElem hlen
  intro i hi₁ hi₂
  have hk : key l₁[i] = key l₂[i] := by
    have h := congrArg (fun l => l[i]?) hmap
    simp only [List.getElem?_map, List.getElem?_eq_getElem hi₁, List.getElem?_eq_getElem hi₂,
      Option.map_some', Option.some.injEq] at h
    exact h
  exact List.inj_on_of_nodup_map hn (hp.subset (List.getElem_mem hi₁)) (List.getElem_mem hi₂) hk

/-- C3 (as amended): with `include_base` set and `topk >= 0`, the result is the
first `topk` elements of a descending-by-score ordering of (user hits followed
by graph hits): a permutation of the merged list sorted by score, whose sequence
of scores is that of the stable sort.  The order among hits of equal score is
left open; when no two merged hits have the same score the result is exactly
the first `topk` elements of the stable sort. -/
theorem search_merge_order (env : Env) (st : Store) (query hint : Str) (topk : Int)
    (hk : 0 ≤ topk) :
    ∃ user_hits base_hits result : List SearchHit,
      search_user_vocab env st query (resolve_language query hint) topk = some user_hits ∧
      search_base_tables env st query (resolve_language query hint) topk = some base_hits ∧
      search env st query hint topk true = some result ∧
      (∃ l : List SearchHit, l.Perm (user_hits ++ base_hits) ∧
        l.Pairwise (fun a b => a.score ≥ b.score) ∧ result = l.take topk.toNat) ∧
      result.map SearchHit.score =
        ((stable_sort_desc SearchHit.score (user_hits ++ base_hits)).take topk.toNat).map
          SearchHit.score ∧
      (((user_hits ++ base_hits).map SearchHit.score).Nodup →
        result = (stable_sort_desc SearchHit.score (user_hits ++ base_hits)).take topk.toNat) := by
  refine ⟨_, _, _, search_user_vocab_of_nonneg env st query _ hk,
    search_base_tables_of_nonneg env st query _ hk,
    search_of_nonneg env st query hint true hk, ?_, ?_, ?_⟩
  · exact ⟨_, env.std_sort.perm _, (env.std_sort.sorted _).imp (fun h => not_lt.mp h),
      by simp⟩
  · simp only [if_true, List.map_take]
    congr 1
    exact scores_eq_of_sorted_perm
      ((env.std_sort.perm _).trans ((stable_desc_sort SearchHit SearchHit.score).perm _).symm)
      (env.std_sort.sorted _) ((stable_desc_sort SearchHit SearchHit.score).sorted _)
  · intro hn
    simp only [if_true]
    congr 1
    refine sort_unique_of_nodup
      ((env.std_sort.perm _).trans ((stable_desc_sort SearchHit SearchHit.score).perm _).symm)
      (env.std_sort.sorted _) ((stable_desc_sort SearchHit SearchHit.score).sorted _) ?_
    exact (((stable_desc_sort SearchHit SearchHit.score).perm _).map _).nodup_iff.mpr hn

/-- Witness of `search_merge_order`: the query `"apple"` on `tie_store`. -/
theorem search_merge_order_witness :
    ∃ user_hits base_hits result : List SearchHit,
      search_user_vocab stable_env tie_store (bytes "apple")
        (resolve_language (bytes "apple") (bytes "en")) 2 = some user_hits ∧
      search_base_tables stable_env tie_store (bytes "apple")
        (resolve_language (bytes "apple") (bytes "en")) 2 = some base_hits ∧
      search stable_env tie_store (bytes "apple") (bytes "en") 2 true = some result ∧
      (∃ l : List SearchHit, l.Perm (user_hits ++ base_hits) ∧
        l.Pairwise (fun a b => a.score ≥ b.score) ∧ result = l.take (2 : Int).toNat) ∧
      result.map SearchHit.score =
        ((stable_sort_desc SearchHit.score (user_hits ++ base_hits)).take (2 : Int).toNat).map
          SearchHit.score ∧
      (((user_hits ++ base_hits).map SearchHit.score).Nodup →
        result =
          (stable_sort_desc SearchHit.score (user_hits ++ base_hits)).take (2 : Int).toNat) :=
  search_merge_order stable_env tie_store (bytes "apple") (bytes "en") 2 (by decide)

/-- Witness of `search_length_le_topk`: `topk = 1` on `tie_store`, where the user
entry and the translation edge both match the query `"apple"`. -/
theorem search_length_le_topk_witness :
    (∃ hits, search stable_env tie_store (bytes "apple") (bytes "en") 1 true = some hits ∧
      (hits.length : Int) ≤ 1) ∧
    (∃ hits, search_user_vocab stable_env tie_store (bytes "apple") (bytes "en") 1 = some hits ∧
      (hits.length : Int) ≤ 1) ∧
    (∃ hits, search_base_tables stable_env tie_store (bytes "apple") (bytes "en") 1 = some hits ∧
      (hits.length : Int) ≤ 1) :=
  search_length_le_topk stable_env tie_store (bytes "apple") (bytes "en") (bytes "en") 1 true
    (by decide)

/-- Witness of `search_sorted_desc`: `topk = 5` on `tie_store`. -/
theorem search_sorted_desc_witness :
    ∃ hits, search stable_env tie_store (bytes "apple") (bytes "en") 5 true = some hits ∧
      ∀ (i : Nat) (h : i + 1 < hits.length), hits[i].score ≥ hits[i + 1].score :=
  (search_sorted_desc stable_env tie_store (bytes "apple") (bytes "en") 5 true).2 (by decide)

/-! ## Graph-path hits and `LIKE` -/

theorem is_cjk_of_mem {query : Str} {b : Nat} (hb : b ∈ query) (h : 0xE4 ≤ b) :
    is_cjk_heuristic query = true := by
  unfold is_cjk_heuristic
  rw [List.any_eq_true]
  exact ⟨b, hb, by simpa using h⟩

theorem is_cjk_of_ascii {query : Str} (h : ∀ b ∈ query, b < 0x80) :
    is_cjk_heuristic query = false := by
  unfold is_cjk_heuristic
  rw [List.any_eq_false]
  intro b hb
  have := h b hb
  simp only [decide_eq_true_eq]
  omega

/-- The UTF-8 encoding of an ideograph in `U+4E00..U+9FFF` starts with a byte in
`0xE4..0xE9`. -/
theorem utf8_cjk_lead (cp : Nat) (h₁ : 0x4E00 ≤ cp) (h₂ : cp ≤ 0x9FFF) :
    ∃ b rest, utf8EncodeNat cp = b :: rest ∧ 0xE4 ≤ b := by
  refine ⟨0xE0 + cp / 4096, [0x80 + (cp / 64) % 64, 0x80 + cp % 64], ?_, by omega⟩
  unfold utf8EncodeNat
  rw [if_neg (by omega), if_neg (by omega), if_pos (by omega)]

/-- C12: with hint `"auto"`, `search` works with language `"zh"` for every query
that contains the UTF-8 bytes of an ideograph in `U+4E00..U+9FFF` and with `"en"`
for every query of ASCII bytes only; any other hint is used unchanged. -/
theorem resolve_language_auto (env : Env) (st : Store) (query hint : Str) (topk : Int)
    (include_base : Bool) :
    (∀ cp, 0x4E00 ≤ cp → cp ≤ 0x9FFF → utf8EncodeNat cp <:+: query →
      resolve_language query (bytes "auto") = bytes "zh" ∧
      search env st query (bytes "auto") topk include_base =
        search env st query (bytes "zh") topk include_base) ∧
    ((∀ b ∈ query, b < 0x80) →
      resolve_language query (bytes "auto") = bytes "en" ∧
      search env st query (bytes "auto") topk include_base =
        search env st query (bytes "en") topk include_base) ∧
    (hint ≠ bytes "auto" → resolve_language query hint = hint) := by
  have hzh : resolve_language query (bytes "zh") = bytes "zh" := by
    unfold resolve_language; rw [if_neg (by decide)]
  have hen : resolve_language query (bytes "en") = bytes "en" := by
    unfold resolve_language; rw [if_neg (by decide)]
  refine ⟨?_, ?_, ?_⟩
  · intro cp h₁ h₂ hin
    obtain ⟨b, rest, henc, hb⟩ := utf8_cjk_lead cp h₁ h₂
    have hmem : b ∈ query := hin.subset (by rw [henc]; exact List.mem_cons_self _ _)
    have hr : resolve_language query (bytes "auto") = bytes "zh" := by
      unfold resolve_language
      rw [if_pos rfl, if_pos (is_cjk_of_mem hmem hb)]
    refine ⟨hr, ?_⟩
    unfold search
    rw [hr, hzh]
  · intro hascii
    have hr : resolve_language query (bytes "auto") = bytes "en" := by
      unfold resolve_language
      rw [if_pos rfl, if_neg (by rw [is_cjk_of_ascii hascii]; decide)]
    refine ⟨hr, ?_⟩
    unfold search
    rw [hr, hen]
  · intro h
    unfold resolve_language
    rw [if_neg h]

/-- Witness of `resolve_language_auto`: the query `"你好"` holds the ideograph
`U+4F60`. -/
theorem resolve_language_auto_witness :
    resolve_language (bytes "你好") (bytes "auto") = bytes "zh" ∧
    search stable_env apple_store (bytes "你好") (bytes "auto") 5 true =
      search stable_env apple_store (bytes "你好") (bytes "zh") 5 true :=
  (resolve_language_auto stable_env apple_store (bytes "你好") (bytes "auto") 5 true).1
    0x4F60 (by decide) (by decide) (by decide)

/-! ## `record`: validation -/

theorem trim_eq_nil_iff (s : Str) : trim s = [] ↔ ∀ b ∈ s, isspace b = true := by
  unfold trim
  rw [List.rdropWhile_eq_nil_iff]
  constructor
  · intro h
    by_cases hd : s.dropWhile isspace = []
    · exact List.dropWhile_eq_nil_iff.mp hd
    · have hnot := List.head_dropWhile_not isspace s hd
      have := h _ (List.head_mem hd)
      rw [this] at hnot
      exact absurd hnot (by simp)
  · intro h x hx
    exact h x ((List.dropWhile_suffix isspace).subset hx)

theorem norm_trim_eq_nil_iff (x : Option Str) : norm_trim x = [] ↔ is_blank x := by
  unfold norm_trim is_blank
  cases x with
  | none => simp
  | some s => simp [trim_eq_nil_iff]

theorem norm_english_eq_nil_iff (x : Option Str) : norm_english x = [] ↔ is_blank x := by
  unfold norm_english is_blank
  cases x with
  | none => simp
  | some s => simp [to_lower_ascii, trim_eq_nil_iff]

/-- C13: `record` throws `std::invalid_argument` exactly when the english and the
chinese argument are both absent, empty or white space only; when it throws, the
store (all of its tables) is as before the call. -/
theorem record_validation (now : Str) (st : Store)
    (english chinese meaning_en meaning_zh : Option Str) :
    ((record now st english chinese meaning_en meaning_zh).2 = none ↔
      (is_blank english ∧ is_blank chinese)) ∧
    ((record now st english chinese meaning_en meaning_zh).2 = none →
      (record now st english chinese meaning_en meaning_zh).1 = st) := by
  unfold record
  by_cases h : norm_english english = [] ∧ norm_trim chinese = []
  · have hb : is_blank english ∧ is_blank chinese :=
      ⟨(norm_english_eq_nil_iff _).mp h.1, (norm_trim_eq_nil_iff _).mp h.2⟩
    rw [if_pos h]
    exact ⟨⟨fun _ => hb, fun _ => rfl⟩, fun _ => rfl⟩
  · have hb : ¬ (is_blank english ∧ is_blank chinese) := fun hb =>
      h ⟨(norm_english_eq_nil_iff _).mpr hb.1, (norm_trim_eq_nil_iff _).mpr hb.2⟩
    rw [if_neg h]
    exact ⟨⟨fun hn => absurd hn (by simp), fun hb' => absurd hb' hb⟩,
      fun hn => absurd hn (by simp)⟩

/-! ## `record`: the row written -/

theorem ensure_term_user_vocab (st : Store) (term lang : Str) :
    (ensure_term st term lang).user_vocab = st.user_vocab := by
  unfold ensure_term
  split_ifs <;> rfl

theorem record_links_user_vocab (st : Store) (en zh : Str) :
    (record_links st en zh).user_vocab = st.user_vocab := by
  unfold record_links
  simp only []
  split_ifs <;>
    simp only [upsert_translation_edge, ensure_term_user_vocab]

theorem le_max_id {ids : List Int} {i : Int} (h : i ∈ ids) : i ≤ max_id ids := by
  unfold max_id
  have key : ∀ (l : List Int) (a : Int), a ≤ l.foldl max a ∧ ∀ x ∈ l, x ≤ l.foldl max a := by
    intro l
    induction l with
    | nil => intro a; exact ⟨le_refl a, fun x hx => by cases hx⟩
    | cons y l ih =>
      intro a
      obtain ⟨h1, h2⟩ := ih (max a y)
      refine ⟨le_trans (le_max_left a y) h1, ?_⟩
      intro x hx
      rcases List.mem_cons.mp hx with rfl | hx
      · exact le_trans (le_max_right a x) h1
      · exact h2 x hx
  exact (key ids 0).2 i h

theorem le_largest_user_vocab_id (st : Store) {r : UserVocabRow} (h : r ∈ st.user_vocab) :
    r.id ≤ largest_user_vocab_id st :=
  le_trans (le_max_id (List.mem_map_of_mem UserVocabRow.id h)) (le_max_left _ _)

theorem next_user_vocab_id_fresh (st : Store) {r : UserVocabRow} (h : r ∈ st.user_vocab) :
    r.id ≠ next_user_vocab_id st := by
  unfold next_user_vocab_id
  have := le_largest_user_vocab_id st h
  omega

theorem c_str_of_not_mem {s : Str} (h : 0 ∉ s) : c_str s = s := by
  unfold c_str
  rw [List.takeWhile_eq_self_iff]
  intro b hb
  exact decide_eq_true (fun h0 => h (h0 ▸ hb))

theorem not_mem_c_str (s : Str) : 0 ∉ c_str s := by
  intro h
  have := List.mem_takeWhile_imp h
  simp at this

theorem c_str_c_str (s : Str) : c_str (c_str s) = c_str s :=
  c_str_of_not_mem (not_mem_c_str s)

theorem column_int_of_fits {v : Int} (h₁ : -2147483648 ≤ v) (h₂ : v ≤ 2147483647) :
    column_int v = v := by
  unfold column_int
  omega

theorem upsert_full (now : Str) (st : Store) (en zh m z : Str)
    (hfull : largest_user_vocab_id st = 9223372036854775807) :
    upsert_user_vocab now st en zh m z = st := by
  unfold upsert_user_vocab
  rw [if_pos hfull]

/-- In a table with distinct ids, looking a row up by its id finds that row. -/
theorem find_by_id {l : List UserVocabRow} (hn : (l.map UserVocabRow.id).Nodup)
    {r : UserVocabRow} (hr : r ∈ l) :
    l.find? (fun x => decide (x.id = r.id)) = some r := by
  induction l with
  | nil => cases hr
  | cons a l ih =>
    rw [List.map_cons, List.nodup_cons] at hn
    rcases List.mem_cons.mp hr with rfl | hr'
    · simp
    · have hne : a.id ≠ r.id := by
        intro h
        exact hn.1 (h ▸ List.mem_map_of_mem UserVocabRow.id hr')
      rw [List.find?_cons_of_neg _ (by simpa using hne)]
      exact ih hn.2 hr'

/-- In a table with distinct keys, the rows holding a key are one row. -/
theorem key_unique {l : List UserVocabRow}
    (hp : l.Pairwise (fun r₁ r₂ => ∀ en zh, r₁.english = some en → r₁.chinese = some zh →
      ¬ (r₂.english = some en ∧ r₂.chinese = some zh)))
    {r₁ r₂ : UserVocabRow} {en zh : Str} (h₁ : r₁ ∈ l) (h₂ : r₂ ∈ l)
    (k₁ : has_key en zh r₁ = true) (k₂ : has_key en zh r₂ = true) : r₁ = r₂ := by
  simp only [has_key, Bool.and_eq_true, decide_eq_true_eq] at k₁ k₂
  induction l with
  | nil => cases h₁
  | cons a l ih =>
    rw [List.pairwise_cons] at hp
    rcases List.mem_cons.mp h₁ with rfl | h₁'
    · rcases List.mem_cons.mp h₂ with rfl | h₂'
      · rfl
      · exact absurd k₂ (hp.1 r₂ h₂' en zh k₁.1 k₁.2)
    · rcases List.mem_cons.mp h₂ with rfl | h₂'
      · exact absurd k₁ (hp.1 r₁ h₁' en zh k₂.1 k₂.2)
      · exact ih hp.2 h₁' h₂'

theorem has_key_iff {en zh : Str} {r : UserVocabRow} :
    has_key en zh r = true ↔ r.english = some en ∧ r.chinese = some zh := by
  simp only [has_key, Bool.and_eq_true, decide_eq_true_eq]

theorem has_key_refresh (en zh now m z : Str) (r : UserVocabRow) :
    has_key en zh (refresh_meanings now m z r) = has_key en zh r := rfl

theorem any_has_key_of_mem {l : List UserVocabRow} {en zh : Str} {r : UserVocabRow}
    (hr : r ∈ l) (hk : has_key en zh r = true) : l.any (has_key en zh) = true :=
  List.any_eq_true.mpr ⟨r, hr, hk⟩

/-- The upsert on a key that a row `r₀` holds: only `r₀` is refreshed. -/
theorem upsert_existing (now : Str) (st : Store) (en zh m z : Str) (hok : store_ok st)
    (hroom : largest_user_vocab_id st ≠ 9223372036854775807)
    {r₀ : UserVocabRow} (hr : r₀ ∈ st.user_vocab) (hk : has_key en zh r₀ = true) :
    (upsert_user_vocab now st en zh m z).user_vocab =
      st.user_vocab.map (fun r => if r.id = r₀.id then refresh_meanings now m z r else r) ∧
    select_row_id (upsert_user_vocab now st en zh m z) en zh = column_int r₀.id := by
  have hmap : (upsert_user_vocab now st en zh m z).user_vocab =
      st.user_vocab.map (fun r => if has_key en zh r then refresh_meanings now m z r else r) := by
    unfold upsert_user_vocab
    rw [if_neg hroom, if_pos (any_has_key_of_mem hr hk)]
    rfl
  have hiff : ∀ r ∈ st.user_vocab, (has_key en zh r = true ↔ r.id = r₀.id) := by
    intro r hmem
    constructor
    · intro h
      rw [key_unique hok.2 hmem hr h hk]
    · intro h
      have h1 := find_by_id hok.1 hmem
      have h2 := find_by_id hok.1 hr
      rw [h] at h1
      rw [h1] at h2
      rw [Option.some.inj h2]
      exact hk
  constructor
  · rw [hmap]
    apply List.map_congr_left
    intro r hmem
    by_cases h : has_key en zh r = true
    · rw [if_pos h, if_pos ((hiff r hmem).mp h)]
    · rw [if_neg h, if_neg (fun h' => h ((hiff r hmem).mpr h'))]
  · unfold select_row_id
    rw [hmap, List.find?_map]
    have hcomp : (has_key en zh ∘ fun r =>
        if has_key en zh r = true then refresh_meanings now m z r else r) = has_key en zh := by
      funext r
      simp only [Function.comp]
      by_cases h : has_key en zh r = true
      · rw [if_pos h, has_key_refresh]
      · rw [if_neg h]
    rw [hcomp]
    cases hf : st.user_vocab.find? (has_key en zh) with
    | none =>
      rw [List.find?_eq_none] at hf
      exact absurd hk (hf r₀ hr)
    | some r =>
      have hmem := List.mem_of_find?_eq_some hf
      have hkr := List.find?_some hf
      rw [key_unique hok.2 hmem hr hkr hk]
      simp only [Option.map_some', hk, if_true]
      rfl

/-- The upsert on a key no row holds: one row is appended, with a new id. -/
theorem upsert_new (now : Str) (st : Store) (en zh m z : Str)
    (hroom : largest_user_vocab_id st ≠ 9223372036854775807)
    (hnone : ∀ r ∈ st.user_vocab, has_key en zh r = false) :
    (upsert_user_vocab now st en zh m z).user_vocab =
      st.user_vocab ++ [new_row now st en zh m z] ∧
    select_row_id (upsert_user_vocab now st en zh m z) en zh =
      column_int (next_user_vocab_id st) := by
  have hany : ¬ (st.user_vocab.any (has_key en zh) = true) := by
    rw [List.any_eq_true]
    rintro ⟨r, hr, hk⟩
    rw [hnone r hr] at hk
    exact absurd hk (by simp)
  have happ : (upsert_user_vocab now st en zh m z).user_vocab =
      st.user_vocab ++ [new_row now st en zh m z] := by
    unfold upsert_user_vocab
    rw [if_neg hroom, if_neg hany]
    rfl
  refine ⟨happ, ?_⟩
  unfold select_row_id
  rw [happ, List.find?_append]
  have hf : st.user_vocab.find? (has_key en zh) = none := by
    rw [List.find?_eq_none]
    intro r hr
    rw [hnone r hr]
    simp
  have hnew : has_key en zh (new_row now st en zh m z) = true := by
    simp [has_key, new_row]
  rw [hf]
  simp only [Option.none_or, List.find?_cons_of_pos _ hnew]
  rfl

theorem record_of_not_blank (now : Str) (st : Store)
    (english chinese meaning_en meaning_zh : Option Str)
    (h : ¬ (norm_english english = [] ∧ norm_trim chinese = [])) :
    (record now st english chinese meaning_en meaning_zh).1.user_vocab =
      (upsert_user_vocab now st (c_str (norm_english english)) (c_str (norm_trim chinese))
        (c_str (norm_trim meaning_en)) (c_str (norm_trim meaning_zh))).user_vocab ∧
    (record now st english chinese meaning_en meaning_zh).2 =
      some (select_row_id
        (upsert_user_vocab now st (c_str (norm_english english)) (c_str (norm_trim chinese))
          (c_str (norm_trim meaning_en)) (c_str (norm_trim meaning_zh)))
        (c_str (norm_english english)) (c_str (norm_trim chinese))) := by
  unfold record
  rw [if_neg h]
  exact ⟨record_links_user_vocab _ _ _, rfl⟩

/-- Rewriting rows without touching `id`, `english`, `chinese` keeps the
constraints of the table. -/
theorem store_ok_map {st st' : Store} (f : UserVocabRow → UserVocabRow)
    (hf : ∀ r, (f r).id = r.id ∧ (f r).english = r.english ∧ (f r).chinese = r.chinese)
    (h : st'.user_vocab = st.user_vocab.map f) (hok : store_ok st) : store_ok st' := by
  unfold store_ok
  rw [h]
  constructor
  · rw [List.map_map]
    have : (UserVocabRow.id ∘ f) = UserVocabRow.id := funext (fun r => (hf r).1)
    rw [this]
    exact hok.1
  · rw [List.pairwise_map]
    refine hok.2.imp ?_
    intro a b hab en zh h1 h2
    rw [(hf a).2.1] at h1
    rw [(hf a).2.2] at h2
    rw [(hf b).2.1, (hf b).2.2]
    exact hab en zh h1 h2

theorem store_ok_append_new (now : Str) {st st' : Store} (en zh m z : Str)
    (hnone : ∀ r ∈ st.user_vocab, has_key en zh r = false)
    (h : st'.user_vocab = st.user_vocab ++ [new_row now st en zh m z])
    (hok : store_ok st) : store_ok st' := by
  unfold store_ok
  rw [h]
  constructor
  · rw [List.map_append, List.nodup_append]
    refine ⟨hok.1, List.nodup_singleton _, ?_⟩
    intro i hi hi'
    simp only [List.map_cons, List.map_nil, List.mem_singleton] at hi'
    obtain ⟨r, hr, rfl⟩ := List.mem_map.mp hi
    exact next_user_vocab_id_fresh st hr hi'
  · rw [List.pairwise_append]
    refine ⟨hok.2, List.pairwise_singleton _ _, ?_⟩
    intro a ha b hb en' zh' h1 h2 hb'
    rw [List.mem_singleton] at hb
    subst hb
    simp only [new_row, Option.some.injEq] at hb'
    have hk : has_key en zh a = true := by
      rw [has_key_iff, h1, h2, hb'.1, hb'.2]
      exact ⟨rfl, rfl⟩
    rw [hnone a ha] at hk
    exact absurd hk (by simp)

/-- After a successful `record` that SQLite could give a rowid, the table holds a
row with the bound key and meanings whose id, read as an `int`, is the returned
one; the row is an old one or has the next rowid, and the table constraints
still hold. -/
theorem record_row (now : Str) (st : Store)
    (english chinese meaning_en meaning_zh : Option Str) (hok : store_ok st)
    (hroom : largest_user_vocab_id st ≠ 9223372036854775807)
    (h : ¬ (norm_english english = [] ∧ norm_trim chinese = [])) :
    ∃ row, row ∈ (record now st english chinese meaning_en meaning_zh).1.user_vocab ∧
      (record now st english chinese meaning_en meaning_zh).2 = some (column_int row.id) ∧
      row.english = some (c_str (norm_english english)) ∧
      row.chinese = some (c_str (norm_trim chinese)) ∧
      row.meaning_en = some (c_str (norm_trim meaning_en)) ∧
      row.meaning_zh = some (c_str (norm_trim meaning_zh)) ∧
      store_ok (record now st english chinese meaning_en meaning_zh).1 ∧
      ((∃ r₀ ∈ st.user_vocab, r₀.id = row.id) ∨ row.id = next_user_vocab_id st) := by
  obtain ⟨huv, hid⟩ := record_of_not_blank now st english chinese meaning_en meaning_zh h
  by_cases hex : ∃ r₀ ∈ st.user_vocab,
      has_key (c_str (norm_english english)) (c_str (norm_trim chinese)) r₀ = true
  · obtain ⟨r₀, hr, hk⟩ := hex
    obtain ⟨hmap, hsel⟩ := upsert_existing now st _ _ (c_str (norm_trim meaning_en))
      (c_str (norm_trim meaning_zh)) hok hroom hr hk
    rw [hmap] at huv
    rw [hsel] at hid
    refine ⟨refresh_meanings now (c_str (norm_trim meaning_en)) (c_str (norm_trim meaning_zh))
      r₀, ?_, hid, (has_key_iff.mp hk).1, (has_key_iff.mp hk).2, rfl, rfl, ?_,
      Or.inl ⟨r₀, hr, rfl⟩⟩
    · rw [huv, List.mem_map]
      exact ⟨r₀, hr, by rw [if_pos rfl]⟩
    · refine store_ok_map _ ?_ huv hok
      intro r
      split_ifs
      · exact ⟨rfl, rfl, rfl⟩
      · exact ⟨rfl, rfl, rfl⟩
  · have hnone : ∀ r ∈ st.user_vocab,
        has_key (c_str (norm_english english)) (c_str (norm_trim chinese)) r = false := by
      intro r hr
      by_contra hk
      exact hex ⟨r, hr, by simpa using hk⟩
    obtain ⟨happ, hsel⟩ := upsert_new now st _ _ (c_str (norm_trim meaning_en))
      (c_str (norm_trim meaning_zh)) hroom hnone
    rw [happ] at huv
    rw [hsel] at hid
    refine ⟨new_row now st _ _ (c_str (norm_trim meaning_en)) (c_str (norm_trim meaning_zh)),
      ?_, hid, rfl, rfl, rfl, rfl, store_ok_append_new now _ _ _ _ hnone huv hok, Or.inr rfl⟩
    rw [huv]
    exact List.mem_append_right _ (List.mem_singleton.mpr rfl)

theorem filter_not_space_trim (s : Str) :
    (trim s).filter (fun b => !isspace b) = s.filter (fun b => !isspace b) := by
  have hdrop : ∀ l : Str, (l.dropWhile isspace).filter (fun b => !isspace b) =
      l.filter (fun b => !isspace b) := by
    intro l
    induction l with
    | nil => rfl
    | cons a l ih =>
      by_cases ha : isspace a = true
      · rw [List.dropWhile_cons_of_pos ha, ih, List.filter_cons_of_neg (by simp [ha])]
      · rw [List.dropWhile_cons_of_neg ha]
  unfold trim List.rdropWhile
  rw [List.filter_reverse, hdrop, ← List.filter_reverse, List.reverse_reverse, hdrop]

theorem trim_infix (s : Str) : trim s <:+: s :=
  (List.rdropWhile_prefix isspace _).isInfix.trans (List.dropWhile_suffix isspace).isInfix

theorem store_ok_empty : store_ok empty_store :=
  ⟨List.nodup_nil, List.Pairwise.nil⟩

theorem store_ok_singleton {st : Store} {r : UserVocabRow} (h : st.user_vocab = [r]) :
    store_ok st := by
  unfold store_ok
  rw [h]
  exact ⟨List.nodup_singleton _, List.pairwise_singleton _ _⟩

theorem get_entry_of_mem {st : Store} (hok : store_ok st) {row : UserVocabRow}
    (hr : row ∈ st.user_vocab) : get_entry st row.id = some (row_to_entry row) := by
  unfold get_entry fetch_entry
  rw [find_by_id hok.1 hr]
  rfl

theorem not_mem_trim {s : Str} (h : 0 ∉ s) : 0 ∉ trim s :=
  fun hm => h (List.IsInfix.subset ( trim_infix s) hm)

theorem not_mem_to_lower_ascii {s : Str} (h : 0 ∉ s) : 0 ∉ to_lower_ascii s := by
  unfold to_lower_ascii
  intro hm
  obtain ⟨b, hb, hb0⟩ := List.mem_map.mp hm
  have : b = 0 := by
    unfold tolower at hb0
    split_ifs at hb0
    omega
  exact h (this ▸ hb)

/-- Counterexample to C14 as stated.  On `wide_store`, whose row `"a"` has the
rowid `2^32 + 5`, `record("a")` returns `5` and `get_entry(5)` finds nothing, and
`record("b")`, whose new row gets the rowid `2^32 + 6`, returns `6` and
`get_entry(6)` finds nothing; and on the empty database `record("a\0b")` reads
back as `"a"`, not as `to_lower_ascii(trim("a\0b")) = "a\0b"`. -/
theorem record_read_back_counterexample :
    (store_ok wide_store ∧
      (record sample_time wide_store (some (bytes "a")) none none none).2 = some 5 ∧
      get_entry (record sample_time wide_store (some (bytes "a")) none none none).1 5 = none ∧
      (record sample_time wide_store (some (bytes "b")) none none none).2 = some 6 ∧
      get_entry (record sample_time wide_store (some (bytes "b")) none none none).1 6 = none) ∧
    ((record sample_time empty_store (some [97, 0, 98]) none none none).2 = some 1 ∧
      (get_entry (record sample_time empty_store (some [97, 0, 98]) none none none).1 1).map
        (fun e => e.english) = some (bytes "a") ∧
      to_lower_ascii (trim [97, 0, 98]) = [97, 0, 98]) :=
  ⟨⟨store_ok_singleton rfl, by decide, by decide, by decide, by decide⟩, by decide, by decide,
    by decide⟩

theorem select_row_id_of_mem {st : Store} (hok : store_ok st) {en zh : Str}
    {r₀ : UserVocabRow} (hr : r₀ ∈ st.user_vocab) (hk : has_key en zh r₀ = true) :
    select_row_id st en zh = column_int r₀.id := by
  unfold select_row_id
  cases hf : st.user_vocab.find? (has_key en zh) with
  | none =>
    rw [List.find?_eq_none] at hf
    exact absurd hk (hf r₀ hr)
  | some r =>
    have hmem := List.mem_of_find?_eq_some hf
    have hkey := List.find?_some hf
    rw [key_unique hok.2 hmem hr hkey hk]

/-- What `record` leaves for a pair whose row, the stored one or else the one
with the next rowid, has an `int` rowid: a row with the bound pair whose id is
the returned one. -/
theorem record_int_row (now : Str) (st : Store)
    (english chinese meaning_en meaning_zh : Option Str) (hok : store_ok st)
    (hids : ∀ r ∈ st.user_vocab, r.english = some (c_str (norm_english english)) →
      r.chinese = some (c_str (norm_trim chinese)) → fits_int r.id)
    (hnext : (∀ r ∈ st.user_vocab, ¬ (r.english = some (c_str (norm_english english)) ∧
      r.chinese = some (c_str (norm_trim chinese)))) → fits_int (next_user_vocab_id st))
    (h : ¬ (norm_english english = [] ∧ norm_trim chinese = [])) :
    ∃ row, row ∈ (record now st english chinese meaning_en meaning_zh).1.user_vocab ∧
      (record now st english chinese meaning_en meaning_zh).2 = some row.id ∧
      column_int row.id = row.id ∧
      row.english = some (c_str (norm_english english)) ∧
      row.chinese = some (c_str (norm_trim chinese)) ∧
      store_ok (record now st english chinese meaning_en meaning_zh).1 := by
  obtain ⟨huv, hid⟩ := record_of_not_blank now st english chinese meaning_en meaning_zh h
  by_cases hex : ∃ r₀ ∈ st.user_vocab,
      has_key (c_str (norm_english english)) (c_str (norm_trim chinese)) r₀ = true
  · obtain ⟨r₀, hr, hk⟩ := hex
    have hfit := hids r₀ hr (has_key_iff.mp hk).1 (has_key_iff.mp hk).2
    have hcol : column_int r₀.id = r₀.id := column_int_of_fits hfit.1 hfit.2
    by_cases hfull : largest_user_vocab_id st = 9223372036854775807
    · rw [upsert_full now st _ _ _ _ hfull] at huv hid
      rw [select_row_id_of_mem hok hr hk, hcol] at hid
      refine ⟨r₀, ?_, hid, hcol, (has_key_iff.mp hk).1, (has_key_iff.mp hk).2, ?_⟩
      · rw [huv]
        exact hr
      · unfold store_ok
        rw [huv]
        exact hok
    · obtain ⟨hmap, hsel⟩ := upsert_existing now st _ _ (c_str (norm_trim meaning_en))
        (c_str (norm_trim meaning_zh)) hok hfull hr hk
      rw [hmap] at huv
      rw [hsel, hcol] at hid
      refine ⟨refresh_meanings now (c_str (norm_trim meaning_en))
        (c_str (norm_trim meaning_zh)) r₀, ?_, hid, hcol, (has_key_iff.mp hk).1,
        (has_key_iff.mp hk).2, ?_⟩
      · rw [huv, List.mem_map]
        exact ⟨r₀, hr, by rw [if_pos rfl]⟩
      · refine store_ok_map _ ?_ huv hok
        intro r
        split_ifs
        · exact ⟨rfl, rfl, rfl⟩
        · exact ⟨rfl, rfl, rfl⟩
  · have hnone : ∀ r ∈ st.user_vocab,
        has_key (c_str (norm_english english)) (c_str (norm_trim chinese)) r = false := by
      intro r hr
      by_contra hk
      exact hex ⟨r, hr, by simpa using hk⟩
    have hfit := hnext (fun r hr hkey => by
      have := hnone r hr
      rw [has_key_iff.mpr hkey] at this
      cases this)
    have hroom : largest_user_vocab_id st ≠ 9223372036854775807 := by
      have := hfit.2
      unfold next_user_vocab_id at this
      omega
    obtain ⟨happ, hsel⟩ := upsert_new now st _ _ (c_str (norm_trim meaning_en))
      (c_str (norm_trim meaning_zh)) hroom hnone
    have hcol : column_int (next_user_vocab_id st) = next_user_vocab_id st :=
      column_int_of_fits hfit.1 hfit.2
    rw [happ] at huv
    rw [hsel, hcol] at hid
    refine ⟨new_row now st _ _ (c_str (norm_trim meaning_en)) (c_str (norm_trim meaning_zh)),
      ?_, hid, hcol, rfl, rfl, store_ok_append_new now _ _ _ _ hnone huv hok⟩
    rw [huv]
    exact List.mem_append_right _ (List.mem_singleton.mpr rfl)

/-- C14 (amended): on a database where the row of the pair has an `int` rowid (the
stored row or, when the pair is new, the row `AUTOINCREMENT` gives the next
rowid), when english and chinese are not both blank `record` returns an id, and
`get_entry` of that id gives an entry whose english is `to_lower_ascii(trim(e))`
and whose chinese is `trim(c)`, each cut at its first NUL byte.  For texts
without a NUL byte these are `to_lower_ascii(trim(e))` and `trim(c)` themselves,
the latter a contiguous piece of `c` holding all of its non-white-space bytes
unchanged (an absent argument reads back as `""`).  `record("Hello", "你好")` on
the empty database reads back `"hello"` and `"你好"`. -/
theorem record_read_back (now : Str) (st : Store)
    (english chinese meaning_en meaning_zh : Option Str) (hok : store_ok st)
    (hids : ∀ r ∈ st.user_vocab, r.english = some (c_str (norm_english english)) →
      r.chinese = some (c_str (norm_trim chinese)) → fits_int r.id)
    (hnext : (∀ r ∈ st.user_vocab, ¬ (r.english = some (c_str (norm_english english)) ∧
      r.chinese = some (c_str (norm_trim chinese)))) → fits_int (next_user_vocab_id st))
    (hnb : ¬ (is_blank english ∧ is_blank chinese)) :
    (∃ id entry, (record now st english chinese meaning_en meaning_zh).2 = some id ∧
      get_entry (record now st english chinese meaning_en meaning_zh).1 id = some entry ∧
      entry.id = id ∧
      entry.english = c_str (norm_english english) ∧
      entry.chinese = c_str (norm_trim chinese) ∧
      (∀ e, english = some e → 0 ∉ e → entry.english = to_lower_ascii (trim e)) ∧
      (∀ c, chinese = some c → 0 ∉ c → entry.chinese = trim c ∧ entry.chinese <:+: c ∧
        entry.chinese.filter (fun b => !isspace b) = c.filter (fun b => !isspace b))) ∧
    ((record sample_time empty_store (some (bytes "Hello")) (some (bytes "你好")) none none).2
        = some 1 ∧
      (get_entry
        (record sample_time empty_store (some (bytes "Hello")) (some (bytes "你好")) none none).1
        1).map (fun e => (e.english, e.chinese)) = some (bytes "hello", bytes "你好")) := by
  refine ⟨?_, by decide, by decide⟩
  have h : ¬ (norm_english english = [] ∧ norm_trim chinese = []) := fun h =>
    hnb ⟨(norm_english_eq_nil_iff _).mp h.1, (norm_trim_eq_nil_iff _).mp h.2⟩
  obtain ⟨row, hmem, hid, hfit, hen, hzh, hok'⟩ :=
    record_int_row now st english chinese meaning_en meaning_zh hok hids hnext h
  have hE : (row_to_entry row).english = c_str (norm_english english) := by
    simp only [row_to_entry, hen, Option.getD_some]
  have hC : (row_to_entry row).chinese = c_str (norm_trim chinese) := by
    simp only [row_to_entry, hzh, Option.getD_some]
  refine ⟨row.id, row_to_entry row, hid, get_entry_of_mem hok' hmem, hfit, hE, hC, ?_, ?_⟩
  · intro e he h0
    rw [hE, he]
    exact c_str_of_not_mem (not_mem_to_lower_ascii (not_mem_trim h0))
  · intro c hc h0
    have hT : (row_to_entry row).chinese = trim c := by
      rw [hC, hc]
      exact c_str_of_not_mem (not_mem_trim h0)
    rw [hT]
    exact ⟨rfl, trim_infix c, filter_not_space_trim c⟩

/-- Witness of `record_read_back`: `record("Hello", "你好")` on the empty
database. -/
theorem record_read_back_witness :
    (∃ id entry,
      (record sample_time empty_store (some (bytes "Hello")) (some (bytes "你好")) none none).2
        = some id ∧
      get_entry
        (record sample_time empty_store (some (bytes "Hello")) (some (bytes "你好")) none none).1
        id = some entry ∧
      entry.id = id ∧
      entry.english = c_str (norm_english (some (bytes "Hello"))) ∧
      entry.chinese = c_str (norm_trim (some (bytes "你好"))) ∧
      (∀ e, some (bytes "Hello") = some e → 0 ∉ e → entry.english = to_lower_ascii (trim e)) ∧
      (∀ c, some (bytes "你好") = some c → 0 ∉ c →
        entry.chinese = trim c ∧ entry.chinese <:+: c ∧
        entry.chinese.filter (fun b => !isspace b) = c.filter (fun b => !isspace b))) ∧
    ((record sample_time empty_store (some (bytes "Hello")) (some (bytes "你好")) none none).2
        = some 1 ∧
      (get_entry
        (record sample_time empty_store (some (bytes "Hello")) (some (bytes "你好")) none none).1
        1).map (fun e => (e.english, e.chinese)) = some (bytes "hello", bytes "你好")) :=
  record_read_back sample_time empty_store (some (bytes "Hello")) (some (bytes "你好")) none none
    store_ok_empty (fun r hr => absurd hr (List.not_mem_nil r)) (fun _ => by decide)
    (fun h => absurd (h.1 (bytes "Hello") rfl 72 (by decide)) (by decide))

/-! ## `record` on a key that is already stored -/

theorem eq_of_id_eq {st : Store} (hok : store_ok st) {r r' : UserVocabRow}
    (hr : r ∈ st.user_vocab) (hr' : r' ∈ st.user_vocab) (h : r.id = r'.id) : r = r' := by
  have h1 := find_by_id hok.1 hr
  have h2 := find_by_id hok.1 hr'
  rw [h] at h1
  rw [h1] at h2
  exact Option.some.inj h2

theorem record_existing (now : Str) (st : Store)
    (english chinese meaning_en meaning_zh : Option Str) (hok : store_ok st)
    (hroom : largest_user_vocab_id st ≠ 9223372036854775807)
    (h : ¬ (norm_english english = [] ∧ norm_trim chinese = []))
    {r₀ : UserVocabRow} (hr : r₀ ∈ st.user_vocab)
    (hk : has_key (c_str (norm_english english)) (c_str (norm_trim chinese)) r₀ = true) :
    (record now st english chinese meaning_en meaning_zh).2 = some (column_int r₀.id) ∧
    (record now st english chinese meaning_en meaning_zh).1.user_vocab =
      st.user_vocab.map (fun r =>
        if r.id = r₀.id then
          refresh_meanings now (c_str (norm_trim meaning_en)) (c_str (norm_trim meaning_zh)) r
        else r) := by
  obtain ⟨huv, hid⟩ := record_of_not_blank now st english chinese meaning_en meaning_zh h
  obtain ⟨hmap, hsel⟩ := upsert_existing now st _ _ (c_str (norm_trim meaning_en))
    (c_str (norm_trim meaning_zh)) hok hroom hr hk
  rw [hmap] at huv
  rw [hsel] at hid
  exact ⟨hid, huv⟩

theorem max_id_append (l : List Int) (x : Int) : max_id (l ++ [x]) = max (max_id l) x := by
  unfold max_id
  rw [List.foldl_append]
  rfl

theorem ensure_term_seq (st : Store) (term lang : Str) :
    (ensure_term st term lang).user_vocab_seq = st.user_vocab_seq := by
  unfold ensure_term
  split_ifs <;> rfl

theorem record_links_seq (st : Store) (en zh : Str) :
    (record_links st en zh).user_vocab_seq = st.user_vocab_seq := by
  unfold record_links
  simp only []
  split_ifs <;>
    simp only [upsert_translation_edge, ensure_term_seq]

/-- A `record` that SQLite could give a rowid advances the largest rowid the table
has held by one. -/
theorem record_largest (now : Str) (st : Store)
    (english chinese meaning_en meaning_zh : Option Str)
    (hroom : largest_user_vocab_id st ≠ 9223372036854775807)
    (h : ¬ (norm_english english = [] ∧ norm_trim chinese = [])) :
    largest_user_vocab_id (record now st english chinese meaning_en meaning_zh).1 =
      next_user_vocab_id st := by
  have huv := (record_of_not_blank now st english chinese meaning_en meaning_zh h).1
  have hseq : (record now st english chinese meaning_en meaning_zh).1.user_vocab_seq =
      next_user_vocab_id st := by
    unfold record
    rw [if_neg h]
    simp only [record_links_seq]
    unfold upsert_user_vocab
    rw [if_neg hroom]
    split_ifs <;> rfl
  have hle : max_id (st.user_vocab.map UserVocabRow.id) ≤ largest_user_vocab_id st :=
    le_max_left _ _
  have hids : max_id ((record now st english chinese meaning_en meaning_zh).1.user_vocab.map
      UserVocabRow.id) ≤ next_user_vocab_id st := by
    rw [huv]
    unfold upsert_user_vocab
    rw [if_neg hroom]
    split_ifs
    · simp only [List.map_map]
      have hcomp : (UserVocabRow.id ∘ fun r : UserVocabRow =>
          if has_key (c_str (norm_english english)) (c_str (norm_trim chinese)) r = true then
            { r with meaning_en := some (c_str (norm_trim meaning_en)),
                     meaning_zh := some (c_str (norm_trim meaning_zh)), updated_at := now }
          else r) = UserVocabRow.id := by
        funext r
        simp only [Function.comp]
        split_ifs <;> rfl
      rw [hcomp]
      unfold next_user_vocab_id
      omega
    · simp only [List.map_append, List.map_cons, List.map_nil, max_id_append]
      unfold next_user_vocab_id
      omega
  unfold largest_user_vocab_id
  rw [hseq]
  exact max_eq_right hids

theorem filter_has_key_eq_singleton {l : List UserVocabRow}
    (hp : l.Pairwise (fun r₁ r₂ => ∀ en zh, r₁.english = some en → r₁.chinese = some zh →
      ¬ (r₂.english = some en ∧ r₂.chinese = some zh)))
    {r : UserVocabRow} {en zh : Str} (hr : r ∈ l) (hk : has_key en zh r = true) :
    l.filter (has_key en zh) = [r] := by
  induction l with
  | nil => cases hr
  | cons a l ih =>
    have hp' := List.pairwise_cons.mp hp
    by_cases ha : has_key en zh a = true
    · have hEq : a = r := key_unique hp (List.mem_cons_self _ _) hr ha hk
      have hnil : l.filter (has_key en zh) = [] := by
        rw [List.filter_eq_nil_iff]
        intro b hb hkb
        exact hp'.1 b hb en zh (has_key_iff.mp ha).1 (has_key_iff.mp ha).2 (has_key_iff.mp hkb)
      rw [List.filter_cons_of_pos ha, hnil, hEq]
    · rcases List.mem_cons.mp hr with rfl | hr'
      · exact absurd hk ha
      · rw [List.filter_cons_of_neg ha]
        exact ih hp'.2 hr'

/-- Counterexample to C15 as stated.  On the empty database two calls
`record("a", nullopt, "x\0y")` leave the meaning `"x"`, not the trimmed meaning
`"x\0y"` of the second call; and on `full_store`, where SQLite has no rowid left,
two calls `record("a")` both return `0` and leave no row for the pair. -/
theorem record_twice_counterexample :
    ((record sample_time
        (record sample_time empty_store (some (bytes "a")) none (some [120, 0, 121]) none).1
        (some (bytes "a")) none (some [120, 0, 121]) none).1.user_vocab.map
        (fun r => r.meaning_en) = [some (bytes "x")] ∧
      norm_trim (some [120, 0, 121]) = [120, 0, 121]) ∧
    ((record sample_time full_store (some (bytes "a")) none none none).2 = some 0 ∧
      (record sample_time
        (record sample_time full_store (some (bytes "a")) none none none).1
        (some (bytes "a")) none none none).2 = some 0 ∧
      (record sample_time
        (record sample_time full_store (some (bytes "a")) none none none).1
        (some (bytes "a")) none none none).1.user_vocab = []) := by
  decide

/-- C15 (amended): on a database where SQLite can still give two rowids, two
`record` calls whose arguments normalise to the same `(english, chinese)` pair
return the same id; afterwards exactly one row holds the pair as it is bound
(each text cut at its first NUL byte), the returned id is that row's id read as
an `int`, its meanings are the trimmed meanings of the second call cut at their
first NUL byte (`""` for an omitted one), and the second call leaves every other
row as it was and adds none.  A text without NUL byte is bound whole. -/
theorem record_twice (now₁ now₂ : Str) (st : Store)
    (e₁ c₁ m₁ z₁ e₂ c₂ m₂ z₂ : Option Str) (hok : store_ok st)
    (hroom : rowids_left 2 st)
    (hnb : ¬ (is_blank e₁ ∧ is_blank c₁))
    (hen : norm_english e₂ = norm_english e₁) (hzh : norm_trim c₂ = norm_trim c₁) :
    ∃ id row,
      (record now₁ st e₁ c₁ m₁ z₁).2 = some id ∧
      (record now₂ (record now₁ st e₁ c₁ m₁ z₁).1 e₂ c₂ m₂ z₂).2 = some id ∧
      (record now₂ (record now₁ st e₁ c₁ m₁ z₁).1 e₂ c₂ m₂ z₂).1.user_vocab.filter
        (has_key (c_str (norm_english e₁)) (c_str (norm_trim c₁))) = [row] ∧
      id = column_int row.id ∧
      row.meaning_en = some (c_str (norm_trim m₂)) ∧
      row.meaning_zh = some (c_str (norm_trim z₂)) ∧
      (record now₂ (record now₁ st e₁ c₁ m₁ z₁).1 e₂ c₂ m₂ z₂).1.user_vocab =
        (record now₁ st e₁ c₁ m₁ z₁).1.user_vocab.map (fun r =>
          if r.id = row.id then
            refresh_meanings now₂ (c_str (norm_trim m₂)) (c_str (norm_trim z₂)) r
          else r) ∧
      (∀ s : Str, 0 ∉ s → c_str s = s) := by
  have h₁ : ¬ (norm_english e₁ = [] ∧ norm_trim c₁ = []) := fun h =>
    hnb ⟨(norm_english_eq_nil_iff _).mp h.1, (norm_trim_eq_nil_iff _).mp h.2⟩
  have h₂ : ¬ (norm_english e₂ = [] ∧ norm_trim c₂ = []) := by
    rw [hen, hzh]; exact h₁
  have hroom₁ : largest_user_vocab_id st ≠ 9223372036854775807 := by
    have : largest_user_vocab_id st + 2 ≤ 9223372036854775807 := hroom
    omega
  have hroom₂ : largest_user_vocab_id (record now₁ st e₁ c₁ m₁ z₁).1 ≠
      9223372036854775807 := by
    rw [record_largest now₁ st e₁ c₁ m₁ z₁ hroom₁ h₁]
    have : largest_user_vocab_id st + 2 ≤ 9223372036854775807 := hroom
    unfold next_user_vocab_id
    omega
  obtain ⟨row₁, hmem₁, hid₁, hE, hC, _, _, hok₁, _⟩ :=
    record_row now₁ st e₁ c₁ m₁ z₁ hok hroom₁ h₁
  have hk₁ : has_key (c_str (norm_english e₂)) (c_str (norm_trim c₂)) row₁ = true := by
    rw [hen, hzh]; exact has_key_iff.mpr ⟨hE, hC⟩
  obtain ⟨hid₂, hmap₂⟩ := record_existing now₂ _ e₂ c₂ m₂ z₂ hok₁ hroom₂ h₂ hmem₁ hk₁
  have hok₂ : store_ok (record now₂ (record now₁ st e₁ c₁ m₁ z₁).1 e₂ c₂ m₂ z₂).1 := by
    refine store_ok_map _ ?_ hmap₂ hok₁
    intro r
    split_ifs
    · exact ⟨rfl, rfl, rfl⟩
    · exact ⟨rfl, rfl, rfl⟩
  have hmem₂ : refresh_meanings now₂ (c_str (norm_trim m₂)) (c_str (norm_trim z₂)) row₁ ∈
      (record now₂ (record now₁ st e₁ c₁ m₁ z₁).1 e₂ c₂ m₂ z₂).1.user_vocab := by
    rw [hmap₂, List.mem_map]
    exact ⟨row₁, hmem₁, by rw [if_pos rfl]⟩
  refine ⟨column_int row₁.id,
    refresh_meanings now₂ (c_str (norm_trim m₂)) (c_str (norm_trim z₂)) row₁, hid₁, hid₂, ?_,
    rfl, rfl, rfl, hmap₂, fun s hs => c_str_of_not_mem hs⟩
  exact filter_has_key_eq_singleton hok₂.2 hmem₂ (has_key_iff.mpr ⟨hE, hC⟩)

/-- Witness of `record_twice`: `record("Hello", "你好", "greeting")` and then
`record(" hello ", "你好 ")` on the empty database. -/
theorem record_twice_witness :
    ∃ id row,
      (record sample_time empty_store (some (bytes "Hello")) (some (bytes "你好"))
        (some (bytes "greeting")) none).2 = some id ∧
      (record sample_time
        (record sample_time empty_store (some (bytes "Hello")) (some (bytes "你好"))
          (some (bytes "greeting")) none).1
        (some (bytes " hello ")) (some (bytes "你好 ")) none none).2 = some id ∧
      (record sample_time
        (record sample_time empty_store (some (bytes "Hello")) (some (bytes "你好"))
          (some (bytes "greeting")) none).1
        (some (bytes " hello ")) (some (bytes "你好 ")) none none).1.user_vocab.filter
        (has_key (c_str (norm_english (some (bytes "Hello"))))
          (c_str (norm_trim (some (bytes "你好"))))) = [row] ∧
      id = column_int row.id ∧
      row.meaning_en = some (c_str (norm_trim none)) ∧
      row.meaning_zh = some (c_str (norm_trim none)) ∧
      (record sample_time
        (record sample_time empty_store (some (bytes "Hello")) (some (bytes "你好"))
          (some (bytes "greeting")) none).1
        (some (bytes " hello ")) (some (bytes "你好 ")) none none).1.user_vocab =
        (record sample_time empty_store (some (bytes "Hello")) (some (bytes "你好"))
          (some (bytes "greeting")) none).1.user_vocab.map (fun r =>
          if r.id = row.id then
            refresh_meanings sample_time (c_str (norm_trim none)) (c_str (norm_trim none)) r
          else r) ∧
      (∀ s : Str, 0 ∉ s → c_str s = s) :=
  record_twice sample_time sample_time empty_store (some (bytes "Hello")) (some (bytes "你好"))
    (some (bytes "greeting")) none (some (bytes " hello ")) (some (bytes "你好 ")) none none
    store_ok_empty (by decide)
    (fun h => absurd (h.1 (bytes "Hello") rfl 72 (by decide)) (by decide))
    (by decide) (by decide)

/-! ## Soft delete and restore -/

theorem mem_load_deleted_vocab {st : Store} {entry : VocabEntry} :
    entry ∈ load_deleted_vocab st ↔
      ∃ row ∈ st.user_vocab, (∃ d, row.deleted = some d ∧ d ≠ 0) ∧
        row_to_entry row = entry := by
  unfold load_deleted_vocab
  simp only [List.mem_map, List.mem_filter]
  constructor
  · rintro ⟨row, ⟨h1, h2⟩, h3⟩
    refine ⟨row, h1, ?_, h3⟩
    cases hd : row.deleted with
    | none => rw [hd] at h2; exact absurd h2 (by simp)
    | some d =>
      rw [hd] at h2
      exact ⟨d, rfl, by simpa using h2⟩
  · rintro ⟨row, h1, ⟨d, hd, hne⟩, h3⟩
    refine ⟨row, ⟨h1, ?_⟩, h3⟩
    rw [hd]
    simpa using hne

/-- Rewriting rows without touching the `deleted` flag, and leaving the active
rows as they are, does not change `list_active()`. -/
theorem load_user_vocab_map_inactive {st st' : Store} (f : UserVocabRow → UserVocabRow)
    (hd : ∀ r, (f r).deleted = r.deleted)
    (hf : ∀ r ∈ st.user_vocab, r.deleted = some 0 → f r = r)
    (h : st'.user_vocab = st.user_vocab.map f) :
    load_user_vocab st' = load_user_vocab st := by
  unfold load_user_vocab
  rw [h]
  have key : ∀ l : List UserVocabRow, (∀ r ∈ l, r.deleted = some 0 → f r = r) →
      ((l.map f).filter (fun r => decide (r.deleted = some 0))).map row_to_entry =
        (l.filter (fun r => decide (r.deleted = some 0))).map row_to_entry := by
    intro l
    induction l with
    | nil => intro _; rfl
    | cons a l ih =>
      intro hl
      have ih' := ih (fun r hr => hl r (List.mem_cons_of_mem _ hr))
      by_cases ha : a.deleted = some 0
      · have hfa : f a = a := hl a (List.mem_cons_self _ _) ha
        simp only [List.map_cons, List.filter_cons, hfa, ha, decide_True, if_true, ih']
      · have hfa : ¬ (f a).deleted = some 0 := by rw [hd]; exact ha
        simp only [List.map_cons, List.filter_cons, hfa, ha, decide_False,
          Bool.false_eq_true, if_false, ih']
  exact key st.user_vocab hf

/-- Counterexample to C16 as stated.  On `nul_store`, whose soft-deleted row has
the english text `"a\0b"`, `record("a\0b")` binds the text `"a"` and adds a new,
active row; on `deleted_wide_store`, whose soft-deleted row has the rowid
`2^32 + 5`, `record("a")` returns `5`; and on `full_deleted_store`, where SQLite
has no rowid left, `record("apple", nullopt, "m")` leaves the meaning of the
soft-deleted row as it was. -/
theorem record_soft_deleted_counterexample :
    (nul_row ∈ nul_store.user_vocab ∧ nul_row.deleted = some 1 ∧
      nul_row.english = some (norm_english (some [97, 0, 98])) ∧
      nul_row.chinese = some (norm_trim none) ∧
      (record sample_time nul_store (some [97, 0, 98]) none none none).1.user_vocab.length
        = 2 ∧
      (list_active (record sample_time nul_store (some [97, 0, 98]) none none none).1).map
        (fun e => e.english) = [bytes "a"]) ∧
    (deleted_wide_row ∈ deleted_wide_store.user_vocab ∧
      deleted_wide_row.deleted = some 1 ∧
      deleted_wide_row.english = some (norm_english (some (bytes "a"))) ∧
      deleted_wide_row.chinese = some (norm_trim none) ∧
      deleted_wide_row.id = 4294967301 ∧
      (record sample_time deleted_wide_store (some (bytes "a")) none none none).2 = some 5) ∧
    (deleted_apple_row ∈ full_deleted_store.user_vocab ∧
      deleted_apple_row.deleted = some 1 ∧
      deleted_apple_row.english = some (norm_english (some (bytes "apple"))) ∧
      deleted_apple_row.chinese = some (norm_trim none) ∧
      deleted_apple_row.meaning_en = some [] ∧
      (record sample_time full_deleted_store (some (bytes "apple")) none (some (bytes "m"))
        none).1.user_vocab = [deleted_apple_row]) := by
  decide

/-- C16 (amended): a soft-deleted row keeps its `(english, chinese)` slot.  On a
database where SQLite can still give a rowid, `record` with arguments normalising
to the key of a row with `deleted = 1`, the key holding no NUL byte, adds no row,
returns that row's id read as an `int` (the rowid itself when it is an `int`),
refreshes its meanings (each cut at its first NUL byte) and leaves `deleted = 1`:
no active row has its rowid, `list_active()` is what it was, and `list_deleted()`
holds the refreshed entry. -/
theorem record_soft_deleted (now : Str) (st : Store)
    (english chinese meaning_en meaning_zh : Option Str) (r₀ : UserVocabRow)
    (hok : store_ok st) (hroom : rowids_left 1 st) (hr : r₀ ∈ st.user_vocab)
    (hen : r₀.english = some (norm_english english))
    (hzh : r₀.chinese = some (norm_trim chinese))
    (hnul_en : 0 ∉ norm_english english) (hnul_zh : 0 ∉ norm_trim chinese)
    (hdel : r₀.deleted = some 1)
    (hnb : ¬ (is_blank english ∧ is_blank chinese)) :
    (record now st english chinese meaning_en meaning_zh).2 = some (column_int r₀.id) ∧
    (fits_int r₀.id →
      (record now st english chinese meaning_en meaning_zh).2 = some r₀.id) ∧
    (record now st english chinese meaning_en meaning_zh).1.user_vocab.length =
      st.user_vocab.length ∧
    (record now st english chinese meaning_en meaning_zh).1.user_vocab =
      st.user_vocab.map (fun r =>
        if r.id = r₀.id then
          refresh_meanings now (c_str (norm_trim meaning_en)) (c_str (norm_trim meaning_zh)) r
        else r) ∧
    (refresh_meanings now (c_str (norm_trim meaning_en)) (c_str (norm_trim meaning_zh))
      r₀).deleted = some 1 ∧
    (∀ r ∈ (record now st english chinese meaning_en meaning_zh).1.user_vocab,
      r.deleted = some 0 → r.id ≠ r₀.id) ∧
    list_active (record now st english chinese meaning_en meaning_zh).1 = list_active st ∧
    ({ id := column_int r₀.id, english := norm_english english,
       chinese := norm_trim chinese,
       meaning_en := c_str (norm_trim meaning_en),
       meaning_zh := c_str (norm_trim meaning_zh),
       deleted := true } : VocabEntry) ∈
      list_deleted (record now st english chinese meaning_en meaning_zh).1 := by
  have h : ¬ (norm_english english = [] ∧ norm_trim chinese = []) := fun h =>
    hnb ⟨(norm_english_eq_nil_iff _).mp h.1, (norm_trim_eq_nil_iff _).mp h.2⟩
  have hroom' : largest_user_vocab_id st ≠ 9223372036854775807 := by
    have : largest_user_vocab_id st + 1 ≤ 9223372036854775807 := hroom
    omega
  have hk : has_key (c_str (norm_english english)) (c_str (norm_trim chinese)) r₀ = true := by
    rw [c_str_of_not_mem hnul_en, c_str_of_not_mem hnul_zh]
    exact has_key_iff.mpr ⟨hen, hzh⟩
  obtain ⟨hid, hmap⟩ := record_existing now st english chinese meaning_en meaning_zh hok
    hroom' h hr hk
  have hok' : store_ok (record now st english chinese meaning_en meaning_zh).1 := by
    refine store_ok_map _ ?_ hmap hok
    intro r
    split_ifs
    · exact ⟨rfl, rfl, rfl⟩
    · exact ⟨rfl, rfl, rfl⟩
  have hmem : refresh_meanings now (c_str (norm_trim meaning_en))
      (c_str (norm_trim meaning_zh)) r₀ ∈
      (record now st english chinese meaning_en meaning_zh).1.user_vocab := by
    rw [hmap, List.mem_map]
    exact ⟨r₀, hr, by rw [if_pos rfl]⟩
  have hentry : row_to_entry
      (refresh_meanings now (c_str (norm_trim meaning_en)) (c_str (norm_trim meaning_zh)) r₀) =
      { id := column_int r₀.id, english := norm_english english,
        chinese := norm_trim chinese,
        meaning_en := c_str (norm_trim meaning_en),
        meaning_zh := c_str (norm_trim meaning_zh),
        deleted := true } := by
    simp only [row_to_entry, refresh_meanings, hen, hzh, hdel, Option.getD_some]
    have : decide (column_int 1 ≠ 0) = true := by decide
    rw [this]
  refine ⟨hid, ?_, by rw [hmap, List.length_map], hmap, hdel, ?_, ?_, ?_⟩
  · intro hfit
    rw [hid, column_int_of_fits hfit.1 hfit.2]
  · intro r hrm hact hrid
    have hEq := eq_of_id_eq hok' hrm hmem hrid
    rw [hEq] at hact
    rw [show (refresh_meanings now (c_str (norm_trim meaning_en))
      (c_str (norm_trim meaning_zh)) r₀).deleted = some 1 from hdel] at hact
    exact absurd hact (by decide)
  · refine load_user_vocab_map_inactive _ ?_ ?_ hmap
    · intro r
      split_ifs <;> rfl
    · intro r hrm hact
      have hne : r.id ≠ r₀.id := by
        intro hrid
        have hEq := eq_of_id_eq hok hrm hr hrid
        rw [hEq, hdel] at hact
        exact absurd hact (by decide)
      rw [if_neg hne]
  · rw [← hentry]
    exact mem_load_deleted_vocab.mpr ⟨_, hmem, ⟨1, hdel, by decide⟩, rfl⟩

/-- Witness of `record_soft_deleted`: `record(" Apple", nullopt, "a fruit")` on
`deleted_apple_store`. -/
theorem record_soft_deleted_witness :
    (record sample_time deleted_apple_store (some (bytes " Apple")) none
      (some (bytes "a fruit")) none).2 = some (column_int deleted_apple_row.id) ∧
    (fits_int deleted_apple_row.id →
      (record sample_time deleted_apple_store (some (bytes " Apple")) none
        (some (bytes "a fruit")) none).2 = some deleted_apple_row.id) ∧
    (record sample_time deleted_apple_store (some (bytes " Apple")) none
      (some (bytes "a fruit")) none).1.user_vocab.length =
      deleted_apple_store.user_vocab.length ∧
    (record sample_time deleted_apple_store (some (bytes " Apple")) none
      (some (bytes "a fruit")) none).1.user_vocab =
      deleted_apple_store.user_vocab.map (fun r =>
        if r.id = deleted_apple_row.id then
          refresh_meanings sample_time (c_str (norm_trim (some (bytes "a fruit"))))
            (c_str (norm_trim none)) r
        else r) ∧
    (refresh_meanings sample_time (c_str (norm_trim (some (bytes "a fruit"))))
      (c_str (norm_trim none)) deleted_apple_row).deleted = some 1 ∧
    (∀ r ∈ (record sample_time deleted_apple_store (some (bytes " Apple")) none
      (some (bytes "a fruit")) none).1.user_vocab,
      r.deleted = some 0 → r.id ≠ deleted_apple_row.id) ∧
    list_active (record sample_time deleted_apple_store (some (bytes " Apple")) none
      (some (bytes "a fruit")) none).1 = list_active deleted_apple_store ∧
    ({ id := column_int deleted_apple_row.id,
       english := norm_english (some (bytes " Apple")),
       chinese := norm_trim none,
       meaning_en := c_str (norm_trim (some (bytes "a fruit"))),
       meaning_zh := c_str (norm_trim none),
       deleted := true } : VocabEntry) ∈
      list_deleted (record sample_time deleted_apple_store (some (bytes " Apple")) none
        (some (bytes "a fruit")) none).1 :=
  record_soft_deleted sample_time deleted_apple_store (some (bytes " Apple")) none
    (some (bytes "a fruit")) none deleted_apple_row
    (store_ok_singleton rfl) (by decide) (List.mem_singleton.mpr rfl) (by decide) (by decide)
    (by decide) (by decide) rfl
    (fun h => absurd (h.1 (bytes " Apple") rfl 65 (by decide)) (by decide))

/-- The two listings read only the `deleted` flag and the entry of each row. -/
theorem load_user_vocab_congr {st st' : Store}
    (h : st'.user_vocab.map (fun r => (r.deleted, row_to_entry r)) =
      st.user_vocab.map (fun r => (r.deleted, row_to_entry r))) :
    load_user_vocab st' = load_user_vocab st := by
  have key : ∀ l : List UserVocabRow,
      (l.filter (fun r => decide (r.deleted = some 0))).map row_to_entry =
      ((l.map (fun r => (r.deleted, row_to_entry r))).filter
        (fun x => decide (x.1 = some 0))).map Prod.snd := by
    intro l
    induction l with
    | nil => rfl
    | cons a l ih =>
      by_cases hd : a.deleted = some 0
      · simp only [List.filter_cons, hd, decide_True, if_true, List.map_cons, ih]
      · simp only [List.filter_cons, hd, decide_False, Bool.false_eq_true, if_false,
          List.map_cons, ih]
  unfold load_user_vocab
  rw [key, key, h]

theorem load_deleted_vocab_congr {st st' : Store}
    (h : st'.user_vocab.map (fun r => (r.deleted, row_to_entry r)) =
      st.user_vocab.map (fun r => (r.deleted, row_to_entry r))) :
    load_deleted_vocab st' = load_deleted_vocab st := by
  have key : ∀ l : List UserVocabRow,
      (l.filter (fun r => match r.deleted with
          | some d => decide (d ≠ 0)
          | none => false)).map row_to_entry =
      ((l.map (fun r => (r.deleted, row_to_entry r))).filter
        (fun x => match x.1 with
          | some d => decide (d ≠ 0)
          | none => false)).map Prod.snd := by
    intro l
    induction l with
    | nil => rfl
    | cons a l ih =>
      simp only [List.filter_cons, List.map_cons]
      split_ifs
      · simp only [List.map_cons, ih]
      · exact ih
  unfold load_deleted_vocab
  rw [key, key, h]

/-- Counterexample to C17 as stated.  `list_active()` shows the row of
`wide_store`, whose rowid is `2^32 + 5`, with the id `5`; `soft_delete(5)` leaves
it in `list_active()` and `list_deleted()` empty. -/
theorem soft_delete_counterexample :
    (list_active wide_store).map (fun e => e.id) = [5] ∧
    list_active (soft_delete sample_time wide_store 5).1 = list_active wide_store ∧
    list_deleted (soft_delete sample_time wide_store 5).1 = [] := by
  decide

/-- C17 (amended): for a store with an active row `row` whose rowid is an `int`,
after `soft_delete` of the id `list_active()` shows for it the row is not active,
`list_active()` lists the other rows as before, `list_deleted()` holds the row's
entry (flagged deleted) and lists the other rows as before; and after a following
`restore_entry` of the same id both lists are what they were before the
`soft_delete`. -/
theorem soft_delete_restore (now₁ now₂ : Str) (st : Store) (row : UserVocabRow)
    (hok : store_ok st) (hr : row ∈ st.user_vocab) (hact : row.deleted = some 0)
    (hfit : fits_int row.id) :
    (row_to_entry row).id = row.id ∧
    (∀ r ∈ (soft_delete now₁ st (row_to_entry row).id).1.user_vocab,
      r.deleted = some 0 → r.id ≠ row.id) ∧
    list_active (soft_delete now₁ st (row_to_entry row).id).1 =
      list_active (without_row st row.id) ∧
    ({ row_to_entry row with deleted := true } : VocabEntry) ∈
      list_deleted (soft_delete now₁ st (row_to_entry row).id).1 ∧
    list_deleted (without_row (soft_delete now₁ st (row_to_entry row).id).1 row.id) =
      list_deleted st ∧
    list_active (restore_entry now₂ (soft_delete now₁ st (row_to_entry row).id).1
      (row_to_entry row).id).1 = list_active st ∧
    list_deleted (restore_entry now₂ (soft_delete now₁ st (row_to_entry row).id).1
      (row_to_entry row).id).1 = list_deleted st := by
  have hid : (row_to_entry row).id = row.id := column_int_of_fits hfit.1 hfit.2
  rw [hid]
  have huniq : ∀ r ∈ st.user_vocab, r.id = row.id → r = row :=
    fun r hmem h => eq_of_id_eq hok hmem hr h
  have hA : ∀ l : List UserVocabRow,
      ((l.map (fun r => if r.id = row.id then
            { r with deleted := some 1, updated_at := now₁ } else r)).filter
          (fun r => decide (r.deleted = some 0))).map row_to_entry =
        ((l.filter (fun r => decide (r.id ≠ row.id))).filter
          (fun r => decide (r.deleted = some 0))).map row_to_entry := by
    intro l
    rw [List.filter_map, List.map_map, List.filter_filter]
    have hp : ∀ r ∈ l, ((fun r : UserVocabRow => decide (r.deleted = some 0)) ∘
        (fun r : UserVocabRow => if r.id = row.id then
          { r with deleted := some 1, updated_at := now₁ } else r)) r =
        (decide (r.deleted = some 0) && decide (r.id ≠ row.id)) := by
      intro r _
      by_cases ha : r.id = row.id
      · simp [Function.comp, ha]
      · simp [Function.comp, ha]
    rw [List.filter_congr hp]
    apply List.map_congr_left
    intro r hrm
    have hne : r.id ≠ row.id := by
      have := (List.mem_filter.mp hrm).2
      simp only [Bool.and_eq_true, decide_eq_true_eq] at this
      exact this.2
    simp only [Function.comp, if_neg hne]
  have hD : ∀ l : List UserVocabRow, (∀ r ∈ l, r.id = row.id → r = row) →
      ((((l.map (fun r => if r.id = row.id then
            { r with deleted := some 1, updated_at := now₁ } else r)).filter
          (fun r => decide (r.id ≠ row.id))).filter
          (fun r => match r.deleted with
            | some d => decide (d ≠ 0)
            | none => false)).map row_to_entry) =
        ((l.filter (fun r => match r.deleted with
            | some d => decide (d ≠ 0)
            | none => false)).map row_to_entry) := by
    intro l hu
    rw [List.filter_filter, List.filter_map, List.map_map]
    have hp : ∀ r ∈ l, ((fun r : UserVocabRow =>
          (match r.deleted with
            | some d => decide (d ≠ 0)
            | none => false) && decide (r.id ≠ row.id)) ∘
        (fun r : UserVocabRow => if r.id = row.id then
          { r with deleted := some 1, updated_at := now₁ } else r)) r =
        (match r.deleted with
          | some d => decide (d ≠ 0)
          | none => false) := by
      intro r hrm
      by_cases ha : r.id = row.id
      · have hrow : r = row := hu r hrm ha
        subst hrow
        simp [Function.comp, hact]
      · simp [Function.comp, ha]
    rw [List.filter_congr hp]
    apply List.map_congr_left
    intro r hrm
    have hmem := (List.mem_filter.mp hrm).1
    have hdel := (List.mem_filter.mp hrm).2
    have hne : r.id ≠ row.id := by
      intro ha
      have hrow : r = row := hu r hmem ha
      rw [hrow, hact] at hdel
      exact absurd hdel (by decide)
    simp only [Function.comp, if_neg hne]
  have hR : (restore_entry now₂ (soft_delete now₁ st row.id).1 row.id).1.user_vocab.map
      (fun r => (r.deleted, row_to_entry r)) =
      st.user_vocab.map (fun r => (r.deleted, row_to_entry r)) := by
    simp only [restore_entry, soft_delete, set_deleted, List.map_map]
    apply List.map_congr_left
    intro r hmem
    simp only [Function.comp]
    by_cases ha : r.id = row.id
    · have hax : r = row := huniq r hmem ha
      subst hax
      simp [row_to_entry, hact]
    · simp [ha]
  refine ⟨rfl, ?_, hA st.user_vocab, ?_, hD st.user_vocab huniq, ?_, ?_⟩
  · intro r hrm hract hrid
    simp only [soft_delete, set_deleted, List.mem_map] at hrm
    obtain ⟨r', _, hr'⟩ := hrm
    by_cases h' : r'.id = row.id
    · rw [if_pos h'] at hr'
      rw [← hr'] at hract
      simp at hract
    · rw [if_neg h'] at hr'
      exact h' (hr' ▸ hrid)
  · refine mem_load_deleted_vocab.mpr
      ⟨{ row with deleted := some 1, updated_at := now₁ }, ?_, ⟨1, rfl, by decide⟩, ?_⟩
    · simp only [soft_delete, set_deleted, List.mem_map]
      exact ⟨row, hr, by rw [if_pos rfl]⟩
    · simp only [row_to_entry, Option.getD_some]
      have : decide (column_int 1 ≠ 0) = true := by decide
      rw [this]
  · exact load_user_vocab_congr hR
  · exact load_deleted_vocab_congr hR

/-- Witness of `soft_delete_restore`: the row of `apple_store`. -/
theorem soft_delete_restore_witness :
    (row_to_entry apple_row).id = apple_row.id ∧
    (∀ r ∈ (soft_delete sample_time apple_store (row_to_entry apple_row).id).1.user_vocab,
      r.deleted = some 0 → r.id ≠ apple_row.id) ∧
    list_active (soft_delete sample_time apple_store (row_to_entry apple_row).id).1 =
      list_active (without_row apple_store apple_row.id) ∧
    ({ row_to_entry apple_row with deleted := true } : VocabEntry) ∈
      list_deleted (soft_delete sample_time apple_store (row_to_entry apple_row).id).1 ∧
    list_deleted (without_row
      (soft_delete sample_time apple_store (row_to_entry apple_row).id).1 apple_row.id) =
      list_deleted apple_store ∧
    list_active (restore_entry sample_time
      (soft_delete sample_time apple_store (row_to_entry apple_row).id).1
      (row_to_entry apple_row).id).1 = list_active apple_store ∧
    list_deleted (restore_entry sample_time
      (soft_delete sample_time apple_store (row_to_entry apple_row).id).1
      (row_to_entry apple_row).id).1 = list_deleted apple_store :=
  soft_delete_restore sample_time sample_time apple_store apple_row
    (store_ok_singleton rfl) (List.mem_singleton.mpr rfl) rfl (by decide)

theorem set_deleted_unknown (now : Str) (st : Store) (id flag : Int)
    (h : ∀ r ∈ st.user_vocab, r.id ≠ id) : set_deleted now st id flag = st := by
  unfold set_deleted
  have : st.user_vocab.map (fun r =>
      if r.id = id then { r with deleted := some flag, updated_at := now } else r) =
      st.user_vocab := by
    conv_rhs => rw [← List.map_id st.user_vocab]
    apply List.map_congr_left
    intro r hr
    rw [if_neg (h r hr)]
    rfl
  rw [this]

/-- C18 (code bug): `soft_delete` and `restore_entry` return `true` for every id,
also for one that no row has, where they change nothing; the claim wants `false`
there.  On the empty database `soft_delete(42)` and `restore_entry(42)` return
`true`, while `get_entry(42)` finds nothing and the sibling `update_entry(42, ...)`
returns `false`. -/
theorem soft_delete_unknown_id (now : Str) (st : Store) (id : Int) :
    (soft_delete now st id).2 = true ∧ (restore_entry now st id).2 = true ∧
    ((∀ r ∈ st.user_vocab, r.id ≠ id) →
      (soft_delete now st id).1 = st ∧ (restore_entry now st id).1 = st) ∧
    ((soft_delete sample_time empty_store 42).2 = true ∧
     (restore_entry sample_time empty_store 42).2 = true ∧
     get_entry empty_store 42 = none ∧
     (update_entry sample_time empty_store 42 none none none none).2 = false) := by
  refine ⟨rfl, rfl, fun h => ⟨set_deleted_unknown now st id 1 h,
    set_deleted_unknown now st id 0 h⟩, rfl, rfl, rfl, rfl⟩

/-! ## The VocabularyEntry invariant -/

theorem entry_invariant_map {st st' : Store} (f : UserVocabRow → UserVocabRow)
    (hf : ∀ r, (f r).english = r.english ∧ (f r).chinese = r.chinese)
    (h : st'.user_vocab = st.user_vocab.map f) (hinv : entry_invariant st) :
    entry_invariant st' := by
  intro r hr
  rw [h, List.mem_map] at hr
  obtain ⟨r', hr', rfl⟩ := hr
  rw [(hf r').1, (hf r').2]
  exact hinv r' hr'

/-- The sibling operations `record` (on texts that are not cut to nothing at a
NUL byte), `soft_delete` and `restore_entry` keep the invariant. -/
theorem entry_invariant_kept (now : Str) (st : Store) (hinv : entry_invariant st) :
    (∀ e c m z, c_str (norm_english e) ≠ [] ∨ c_str (norm_trim c) ≠ [] →
      entry_invariant (record now st e c m z).1) ∧
    (∀ id, entry_invariant (soft_delete now st id).1) ∧
    (∀ id, entry_invariant (restore_entry now st id).1) := by
  refine ⟨?_, ?_, ?_⟩
  · intro e c m z hkey
    by_cases h : norm_english e = [] ∧ norm_trim c = []
    · unfold record
      rw [if_pos h]
      exact hinv
    · obtain ⟨huv, _⟩ := record_of_not_blank now st e c m z h
      intro r hr
      rw [huv] at hr
      unfold upsert_user_vocab at hr
      split_ifs at hr
      · exact hinv r hr
      · obtain ⟨r', hr', rfl⟩ := List.mem_map.mp hr
        split_ifs
        · exact hinv r' hr'
        · exact hinv r' hr'
      · rcases List.mem_append.mp hr with hr' | hr'
        · exact hinv r hr'
        · rw [List.mem_singleton] at hr'
          subst hr'
          simp only [Option.getD_some]
          exact hkey
  · intro id
    refine entry_invariant_map _ ?_ rfl hinv
    intro r
    split_ifs
    · exact ⟨rfl, rfl⟩
    · exact ⟨rfl, rfl⟩
  · intro id
    refine entry_invariant_map _ ?_ rfl hinv
    intro r
    split_ifs
    · exact ⟨rfl, rfl⟩
    · exact ⟨rfl, rfl⟩

/-- C19 (code bug): `update_entry` does not keep the invariant.  From the empty
database, `record("a")` returns id `1`, and `update_entry(1, " ")` then succeeds
and leaves that row with an empty english and an empty chinese, so the invariant
fails; `record` itself rejects the same blank texts. -/
theorem update_entry_breaks_invariant :
    (record sample_time empty_store (some (bytes "a")) none none none).2 = some 1 ∧
    entry_invariant (record sample_time empty_store (some (bytes "a")) none none none).1 ∧
    (update_entry sample_time
      (record sample_time empty_store (some (bytes "a")) none none none).1 1
      (some (bytes " ")) none none none).2 = true ∧
    (update_entry sample_time
      (record sample_time empty_store (some (bytes "a")) none none none).1 1
      (some (bytes " ")) none none none).1.user_vocab.map
        (fun r => (r.id, r.english, r.chinese)) = [(1, some [], some [])] ∧
    ¬ entry_invariant (update_entry sample_time
      (record sample_time empty_store (some (bytes "a")) none none none).1 1
      (some (bytes " ")) none none none).1 ∧
    (record sample_time empty_store (some (bytes " ")) none none none).2 = none := by
  have hrows : (update_entry sample_time
      (record sample_time empty_store (some (bytes "a")) none none none).1 1
      (some (bytes " ")) none none none).1.user_vocab.map
        (fun r => (r.id, r.english, r.chinese)) = [(1, some [], some [])] := by decide
  refine ⟨by decide, ?_, by decide, hrows, ?_, by decide⟩
  · exact (entry_invariant_kept sample_time empty_store
      (fun r hr => by cases hr)).1 _ _ _ _ (Or.inl (by decide))
  · intro hinv
    have hlen : ∃ r, r ∈ (update_entry sample_time
        (record sample_time empty_store (some (bytes "a")) none none none).1 1
        (some (bytes " ")) none none none).1.user_vocab ∧
        r.english = some [] ∧ r.chinese = some [] := by
      have hmem : ((1 : Int), (some [] : Option Str), (some [] : Option Str)) ∈
          (update_entry sample_time
            (record sample_time empty_store (some (bytes "a")) none none none).1 1
            (some (bytes " ")) none none none).1.user_vocab.map
              (fun r => (r.id, r.english, r.chinese)) := by
        rw [hrows]; exact List.mem_singleton.mpr rfl
      obtain ⟨r, hr, heq⟩ := List.mem_map.mp hmem
      simp only [Prod.mk.injEq] at heq
      exact ⟨r, hr, heq.2.1, heq.2.2⟩
    obtain ⟨r, hr, he, hc⟩ := hlen
    rcases hinv r hr with h | h
    · rw [he] at h; exact h rfl
    · rw [hc] at h; exact h rfl

/-! ## The score of an entry -/

theorem max_field_score_nonneg (q_bi : List Str) (fields : List Str) :
    0 ≤ max_field_score q_bi fields := by
  unfold max_field_score
  induction (fields.filter (fun f => decide (f ≠ []))).map
      (fun f => dice_score q_bi (bigrams f)) with
  | nil => exact le_refl 0
  | cons a l ih => exact le_trans ih (le_max_right a _)

theorem max_field_score_cons (q_bi : List Str) (t : Str) (l : List Str) :
    max_field_score q_bi (t :: l) =
      if t = [] then max_field_score q_bi l
      else max (dice_score q_bi (bigrams t)) (max_field_score q_bi l) := by
  unfold max_field_score
  by_cases ht : t = []
  · rw [if_pos ht, List.filter_cons_of_neg (by simp [ht])]
  · rw [if_neg ht, List.filter_cons_of_pos (by simp [ht])]
    rfl

theorem consider_eq (q_bi : List Str) (best : ℚ) (text : Str) :
    consider q_bi best text =
      if text = [] then best else max best (dice_score q_bi (bigrams text)) := by
  simp only [consider]
  split_ifs with h1 h2
  · rfl
  · exact (max_eq_right (le_of_lt h2)).symm
  · exact (max_eq_left (not_lt.mp h2)).symm

/-- The loop over the fields computes the maximum, whatever the order. -/
theorem foldl_consider_eq (q_bi : List Str) (best : ℚ) (hb : 0 ≤ best) (l : List Str) :
    l.foldl (consider q_bi) best = max best (max_field_score q_bi l) := by
  induction l generalizing best with
  | nil =>
    have h0 : max_field_score q_bi [] = 0 := rfl
    rw [h0, max_eq_left hb]
    rfl
  | cons t l ih =>
    rw [List.foldl_cons, ih _ (le_trans hb (consider_ge_best q_bi best t)), consider_eq,
      max_field_score_cons]
    split_ifs
    · rfl
    · exact max_assoc _ _ _

theorem max_field_score_perm (q_bi : List Str) {l₁ l₂ : List Str} (h : l₁.Perm l₂) :
    max_field_score q_bi l₁ = max_field_score q_bi l₂ := by
  unfold max_field_score
  exact List.Perm.foldr_op_eq ((h.filter _).map _)

/-- The reference value is a maximum: no non-empty field scores above it, and it
is `0` or the score of one of the non-empty fields. -/
theorem max_field_score_is_max (q_bi : List Str) (fields : List Str) :
    (∀ f ∈ fields, f ≠ [] → dice_score q_bi (bigrams f) ≤ max_field_score q_bi fields) ∧
    (max_field_score q_bi fields = 0 ∨
      ∃ f ∈ fields, f ≠ [] ∧ max_field_score q_bi fields = dice_score q_bi (bigrams f)) := by
  induction fields with
  | nil => exact ⟨fun f hf _ => absurd hf (List.not_mem_nil f), Or.inl rfl⟩
  | cons t l ih =>
    rw [max_field_score_cons]
    by_cases ht : t = []
    · rw [if_pos ht]
      constructor
      · intro f hf hne
        rcases List.mem_cons.mp hf with rfl | hf'
        · exact absurd ht hne
        · exact ih.1 f hf' hne
      · rcases ih.2 with h0 | ⟨f, hf, hne, heq⟩
        · exact Or.inl h0
        · exact Or.inr ⟨f, List.mem_cons_of_mem _ hf, hne, heq⟩
    · rw [if_neg ht]
      constructor
      · intro f hf hne
        rcases List.mem_cons.mp hf with rfl | hf'
        · exact le_max_left _ _
        · exact le_trans (ih.1 f hf' hne) (le_max_right _ _)
      · rcases le_total (dice_score q_bi (bigrams t)) (max_field_score q_bi l) with h | h
        · rw [max_eq_right h]
          rcases ih.2 with h0 | ⟨f, hf, hne, heq⟩
          · exact Or.inl h0
          · exact Or.inr ⟨f, List.mem_cons_of_mem _ hf, hne, heq⟩
        · rw [max_eq_left h]
          exact Or.inr ⟨t, List.mem_cons_self _ _, ht, rfl⟩

theorem entry_best_en (q_bi : List Str) (e : VocabEntry) :
    entry_best q_bi (bytes "en") e =
      max_field_score q_bi [e.english, e.meaning_en, e.chinese, e.meaning_zh] := by
  unfold entry_best
  rw [if_pos rfl, foldl_consider_eq q_bi 0 (le_refl 0),
    max_eq_right (max_field_score_nonneg _ _)]

theorem entry_best_zh (q_bi : List Str) (e : VocabEntry) :
    entry_best q_bi (bytes "zh") e =
      max_field_score q_bi [e.english, e.meaning_en, e.chinese, e.meaning_zh] := by
  unfold entry_best
  rw [if_neg (by decide), if_pos rfl, foldl_consider_eq q_bi 0 (le_refl 0),
    max_eq_right (max_field_score_nonneg _ _)]
  apply max_field_score_perm
  -- [chinese, meaning_zh, english, meaning_en] ~ [english, meaning_en, chinese, meaning_zh]
  have h : ([e.chinese, e.meaning_zh] ++ [e.english, e.meaning_en]).Perm
      ([e.english, e.meaning_en] ++ [e.chinese, e.meaning_zh]) := List.perm_append_comm
  exact h

theorem entry_best_other (q_bi : List Str) (lang : Str) (e : VocabEntry)
    (h₁ : lang ≠ bytes "en") (h₂ : lang ≠ bytes "zh") :
    entry_best q_bi lang e = dice_score q_bi (bigrams (joined_fields e)) := by
  unfold entry_best
  rw [if_neg h₁, if_neg h₂, consider_eq]
  split_ifs with h
  · rw [h]
    have : bigrams ([] : Str) = [] := rfl
    rw [this, dice_score_eq, if_pos (Or.inr rfl)]
  · exact max_eq_right (dice_score_nonneg _ _)

theorem trim_append_space (s : Str) : trim (s ++ bytes " ") = trim s := by
  have hsp : bytes " " = [32] := rfl
  have h32 : isspace 32 = true := by decide
  rw [hsp]
  unfold trim
  rw [List.dropWhile_append]
  by_cases hd : s.dropWhile isspace = []
  · rw [hd]
    simp [h32]
  · have : (s.dropWhile isspace).isEmpty = false := by
      cases hs : s.dropWhile isspace with
      | nil => exact absurd hs hd
      | cons a l => rfl
    rw [this]
    simp only [Bool.false_eq_true, if_false]
    exact List.rdropWhile_concat_pos isspace _ 32 h32

theorem joined_fields_eq (e : VocabEntry) : joined_fields e = trim (joined_with_spaces e) := by
  have hsp : bytes " " = [32] := rfl
  unfold joined_fields joined_with_spaces
  by_cases hE : e.english = [] <;> by_cases hC : e.chinese = [] <;>
    by_cases hM : e.meaning_en = [] <;> by_cases hZ : e.meaning_zh = [] <;>
    simp [hE, hC, hM, hZ, List.intercalate, List.intersperse, hsp] <;>
    first
      | rfl
      | (have h := trim_append_space e.english; rw [hsp] at h; simpa using h)
      | (have h := trim_append_space e.chinese; rw [hsp] at h; simpa using h)
      | (have h := trim_append_space e.meaning_en; rw [hsp] at h; simpa using h)
      | (have h := trim_append_space (e.english ++ 32 :: e.chinese); rw [hsp] at h;
         simpa using h)
      | (have h := trim_append_space (e.english ++ 32 :: e.meaning_en); rw [hsp] at h;
         simpa using h)
      | (have h := trim_append_space (e.chinese ++ 32 :: e.meaning_en); rw [hsp] at h;
         simpa using h)
      | (have h := trim_append_space (e.english ++ 32 :: (e.chinese ++ 32 :: e.meaning_en));
         rw [hsp] at h; simpa using h)

theorem trim_eq_self_iff (s : Str) :
    trim s = s ↔ (s.dropWhile isspace = s ∧ s.rdropWhile isspace = s) := by
  constructor
  · intro h
    have h1 : (trim s).length ≤ (s.dropWhile isspace).length :=
      (List.rdropWhile_prefix isspace _).length_le
    rw [h] at h1
    have hd : s.dropWhile isspace = s :=
      (List.dropWhile_suffix isspace).eq_of_length_le h1
    refine ⟨hd, ?_⟩
    unfold trim at h
    rw [hd] at h
    exact h
  · rintro ⟨h1, h2⟩
    unfold trim
    rw [h1, h2]

/-- Two non-empty texts without outer white space, joined by a space, again have
no outer white space. -/
theorem trim_join (a b : Str) (ha : a ≠ []) (hb : b ≠ []) (hta : trim a = a)
    (htb : trim b = b) : trim (a ++ (bytes " " ++ b)) = a ++ (bytes " " ++ b) := by
  rw [trim_eq_self_iff] at hta htb ⊢
  constructor
  · rw [List.dropWhile_eq_self_iff] at hta ⊢
    intro hl
    cases a with
    | nil => exact absurd rfl ha
    | cons x t => exact hta.1 (by simp)
  · rw [List.rdropWhile_eq_self_iff] at htb ⊢
    intro hl
    have hne : bytes " " ++ b ≠ [] := by simp [hb]
    rw [List.getLast_append_of_ne_nil hne, List.getLast_append_of_ne_nil hb]
    exact htb.2 hb

theorem trim_intercalate (l : List Str) (h : ∀ f ∈ l, f ≠ [] ∧ trim f = f) :
    trim ((bytes " ").intercalate l) = (bytes " ").intercalate l ∧
    (l ≠ [] → (bytes " ").intercalate l ≠ []) := by
  induction l with
  | nil => exact ⟨rfl, fun h => absurd rfl h⟩
  | cons f l ih =>
    cases l with
    | nil =>
      have hf := h f (List.mem_cons_self _ _)
      have : (bytes " ").intercalate [f] = f := by simp [List.intercalate, List.intersperse]
      rw [this]
      exact ⟨hf.2, fun _ => hf.1⟩
    | cons g l =>
      have hf := h f (List.mem_cons_self _ _)
      have ih' := ih (fun x hx => h x (List.mem_cons_of_mem _ hx))
      have hcons : (bytes " ").intercalate (f :: g :: l) =
          f ++ (bytes " " ++ (bytes " ").intercalate (g :: l)) := by
        simp [List.intercalate, List.intersperse]
      rw [hcons]
      refine ⟨trim_join f _ hf.1 (ih'.2 (List.cons_ne_nil _ _)) hf.2 ih'.1, ?_⟩
      intro _
      simp [hf.1]

/-- When no field of the entry has outer white space, trimming the join changes
nothing. -/
theorem joined_fields_of_trimmed (e : VocabEntry)
    (h : trim e.english = e.english ∧ trim e.chinese = e.chinese ∧
      trim e.meaning_en = e.meaning_en ∧ trim e.meaning_zh = e.meaning_zh) :
    joined_fields e = joined_with_spaces e := by
  rw [joined_fields_eq]
  unfold joined_with_spaces
  refine (trim_intercalate _ ?_).1
  intro f hf
  rw [List.mem_filter] at hf
  refine ⟨by simpa using hf.2, ?_⟩
  have hmem := hf.1
  simp only [List.mem_cons, List.mem_singleton, List.not_mem_nil, or_false] at hmem
  rcases hmem with rfl | rfl | rfl | rfl
  · exact h.1
  · exact h.2.1
  · exact h.2.2.1
  · exact h.2.2.2

/-- C11 (as amended): the score `search_user_vocab` gives an entry.  For `"en"`
and `"zh"` it is the maximum, over the entry's non-empty fields, of the Dice score
of the query bigrams against the field's bigrams, whatever the order of the
fields.  For any other language it is the one Dice score of the query against
the trimmed join of the non-empty fields (english, chinese, meaning_en,
meaning_zh, single spaces); the trimming changes nothing when no field has outer
white space.  The query is `to_lower_ascii(trim(query))` for `"en"` and
`trim(query)` otherwise, and every returned hit carries this score of an active
row. -/
theorem entry_score_reference (query lang : Str) (e : VocabEntry) :
    (normalize_query query lang =
      if lang = bytes "en" then to_lower_ascii (trim query) else trim query) ∧
    ((lang = bytes "en" ∨ lang = bytes "zh") →
      entry_best (bigrams (normalize_query query lang)) lang e = reference_score query lang e ∧
      (∀ fields : List Str, fields.Perm [e.english, e.meaning_en, e.chinese, e.meaning_zh] →
        entry_best (bigrams (normalize_query query lang)) lang e =
          max_field_score (bigrams (normalize_query query lang)) fields) ∧
      (∀ f ∈ [e.english, e.meaning_en, e.chinese, e.meaning_zh], f ≠ [] →
        dice_score (bigrams (normalize_query query lang)) (bigrams f) ≤
          entry_best (bigrams (normalize_query query lang)) lang e) ∧
      (entry_best (bigrams (normalize_query query lang)) lang e = 0 ∨
        ∃ f ∈ [e.english, e.meaning_en, e.chinese, e.meaning_zh], f ≠ [] ∧
          entry_best (bigrams (normalize_query query lang)) lang e =
            dice_score (bigrams (normalize_query query lang)) (bigrams f))) ∧
    (lang ≠ bytes "en" → lang ≠ bytes "zh" →
      entry_best (bigrams (normalize_query query lang)) lang e =
        dice_score (bigrams (trim query)) (bigrams (trim (joined_with_spaces e))) ∧
      ((trim e.english = e.english ∧ trim e.chinese = e.chinese ∧
          trim e.meaning_en = e.meaning_en ∧ trim e.meaning_zh = e.meaning_zh) →
        entry_best (bigrams (normalize_query query lang)) lang e =
          reference_score query lang e)) ∧
    (∀ (env : Env) (st : Store) (topk : Int) (hits : List SearchHit) (hit : SearchHit),
      search_user_vocab env st query lang topk = some hits → hit ∈ hits →
      ∃ row ∈ st.user_vocab, row.deleted = some 0 ∧
        hit.score = entry_best (bigrams (normalize_query query lang)) lang (row_to_entry row)) := by
  refine ⟨rfl, ?_, ?_, ?_⟩
  · intro hl
    have hbest : entry_best (bigrams (normalize_query query lang)) lang e =
        max_field_score (bigrams (normalize_query query lang))
          [e.english, e.meaning_en, e.chinese, e.meaning_zh] := by
      rcases hl with rfl | rfl
      · exact entry_best_en _ e
      · exact entry_best_zh _ e
    refine ⟨?_, ?_, ?_, ?_⟩
    · rw [hbest]
      unfold reference_score normalize_query
      rcases hl with rfl | rfl
      · rw [if_pos rfl, if_pos rfl]
      · rw [if_neg (by decide), if_neg (by decide), if_pos rfl]
    · intro fields hp
      rw [hbest]
      exact (max_field_score_perm _ hp).symm
    · rw [hbest]
      exact (max_field_score_is_max _ _).1
    · rw [hbest]
      exact (max_field_score_is_max _ _).2
  · intro h₁ h₂
    have hq : normalize_query query lang = trim query := by
      unfold normalize_query
      rw [if_neg h₁]
    have hbest := entry_best_other (bigrams (normalize_query query lang)) lang e h₁ h₂
    rw [hq] at hbest ⊢
    refine ⟨by rw [hbest, joined_fields_eq], ?_⟩
    intro ht
    rw [hbest, joined_fields_of_trimmed e ht]
    unfold reference_score
    rw [if_neg h₁, if_neg h₂]
  · intro env st topk hits hit h hmem
    obtain ⟨_, rfl⟩ := eq_take_of_truncate h
    have hc := mem_of_mem_sort_take env.std_sort hmem
    obtain ⟨entry, he, _, rfl⟩ := mem_user_candidates.mp hc
    obtain ⟨row, hrow, hdel, rfl⟩ := mem_load_user_vocab.mp he
    exact ⟨row, hrow, hdel, rfl⟩

/-- Witness of `entry_score_reference`: the entry `apple` of `apple_store` under
language `"both"`, whose fields have no outer white space. -/
theorem entry_score_reference_witness :
    entry_best (bigrams (normalize_query (bytes "aple") (bytes "both"))) (bytes "both")
      (row_to_entry apple_row) =
      reference_score (bytes "aple") (bytes "both") (row_to_entry apple_row) :=
  ((entry_score_reference (bytes "aple") (bytes "both") (row_to_entry apple_row)).2.2.1
    (by decide) (by decide)).2 (by decide)

/-- C11 fails as stated for language `"both"` on a field with outer white space:
for the entry whose english is `" a"` and the query `"a"`, the code scores the
trimmed join `"a"` and gives `1`, the stated reference scores the join `" a"` and
gives `0`; `search_user_vocab` returns the hit with score `1`. -/
theorem entry_score_counterexample :
    entry_best (bigrams (normalize_query (bytes "a") (bytes "both"))) (bytes "both")
      padded_entry = 1 ∧
    reference_score (bytes "a") (bytes "both") padded_entry = 0 ∧
    load_user_vocab padded_store = [padded_entry] ∧
    search_user_vocab stable_env padded_store (bytes "a") (bytes "both") 5 =
      some [{ score := 1, source := bytes "user", english := bytes " a", chinese := [],
              extra := [] }] := by
  have hq : normalize_query (bytes "a") (bytes "both") = bytes "a" := by decide
  have hj : joined_fields padded_entry = bytes "a" := by decide
  have hbest : entry_best (bigrams (bytes "a")) (bytes "both") padded_entry = 1 := by
    rw [entry_best_other _ _ _ (by decide) (by decide), hj]
    exact dice_score_of_perm (by decide) (List.Perm.refl _)
  have hload : load_user_vocab padded_store = [padded_entry] := by decide
  refine ⟨by rw [hq]; exact hbest, ?_, hload, ?_⟩
  · have hjs : joined_with_spaces padded_entry = bytes " a" := by decide
    have hm : matched (bigrams (trim (bytes "a"))) (bigrams (bytes " a")) = 0 := by decide
    unfold reference_score
    rw [if_neg (by decide), if_neg (by decide), hjs, dice_score_eq, hm]
    simp
  · rw [search_user_vocab_of_nonneg _ _ _ _ (by decide)]
    have hc : user_candidates padded_store (bytes "a") (bytes "both") =
        [{ score := 1, source := bytes "user", english := bytes " a", chinese := [],
           extra := [] }] := by
      unfold user_candidates
      simp only [hq, hload, List.filterMap_cons, List.filterMap_nil, hbest]
      norm_num
      exact ⟨rfl, rfl⟩
    rw [hc, sort_singleton]
    rfl

/-! ## Bounds of the Dice score -/

theorem matched_le_right (A B : List Str) : matched A B ≤ B.length := by
  rw [matched_comm]
  exact matched_le_left B A

theorem perm_of_matched_eq {A B : List Str} (hA : matched A B = A.length)
    (hB : matched A B = B.length) : A.Perm B := by
  have h1 : (B : Multiset Str) ∩ (A : Multiset Str) = (A : Multiset Str) :=
    Multiset.eq_of_le_of_card_le (Multiset.inter_le_right _ _)
      (by rw [card_inter_eq_matched, hA, Multiset.coe_card])
  have h2 : (B : Multiset Str) ∩ (A : Multiset Str) = (B : Multiset Str) :=
    Multiset.eq_of_le_of_card_le (Multiset.inter_le_left _ _)
      (by rw [card_inter_eq_matched, hB, Multiset.coe_card])
  exact Multiset.coe_eq_coe.mp (h1.symm.trans h2)

/-- C29: for all bigram lists `A` and `B` the matched count is at most
`min(|A|, |B|)`, so `0 <= dice_score(A, B) <= 1`; and `dice_score(A, B) == 1` only
if `A` and `B` are non-empty and equal as multisets (permutations of each
other). -/
theorem dice_score_bounds (A B : List Str) :
    matched A B ≤ min A.length B.length ∧
    0 ≤ dice_score A B ∧ dice_score A B ≤ 1 ∧
    (dice_score A B = 1 → A ≠ [] ∧ B ≠ [] ∧ A.Perm B) := by
  have hl := matched_le_left A B
  have hr := matched_le_right A B
  refine ⟨le_min hl hr, dice_score_nonneg A B, ?_, ?_⟩
  · rw [dice_score_eq]
    split_ifs with h
    · exact zero_le_one
    · push_neg at h
      have hpos : (0 : ℚ) < (A.length : ℚ) + (B.length : ℚ) := by
        have : 0 < A.length := List.length_pos.mpr h.1
        positivity
      rw [div_le_one hpos]
      have h2 : 2 * matched A B ≤ A.length + B.length := by omega
      exact_mod_cast h2
  · intro h1
    rw [dice_score_eq] at h1
    split_ifs at h1 with h
    · exact absurd h1 (by norm_num)
    · push_neg at h
      have hpos : (0 : ℚ) < (A.length : ℚ) + (B.length : ℚ) := by
        have : 0 < A.length := List.length_pos.mpr h.1
        positivity
      rw [div_eq_one_iff_eq (ne_of_gt hpos)] at h1
      have h2 : 2 * matched A B = A.length + B.length := by exact_mod_cast h1
      exact ⟨h.1, h.2, perm_of_matched_eq (by omega) (by omega)⟩

/-! ## Idempotence of the normalisation -/

theorem isspace_tolower (c : Nat) : isspace (tolower c) = isspace c := by
  unfold tolower isspace
  split_ifs with h
  · have h1 : (c + 32 == 32) = false := by simp; omega
    have h2 : (c == 32) = false := by simp; omega
    have h3 : decide (c + 32 ≤ 13) = false := by simp
    have h4 : decide (c ≤ 13) = false := by simp; omega
    simp [h1, h2, h3, h4]
  · rfl

theorem tolower_tolower (c : Nat) : tolower (tolower c) = tolower c := by
  unfold tolower
  split_ifs with h h'
  · omega
  · rfl
  · rfl

theorem to_lower_ascii_idem (s : Str) : to_lower_ascii (to_lower_ascii s) = to_lower_ascii s := by
  unfold to_lower_ascii
  rw [List.map_map]
  exact List.map_congr_left (fun c _ => tolower_tolower c)

theorem dropWhile_isspace_map_tolower (s : Str) :
    (s.map tolower).dropWhile isspace = (s.dropWhile isspace).map tolower := by
  induction s with
  | nil => rfl
  | cons c r ih =>
    rw [List.map_cons, List.dropWhile_cons, List.dropWhile_cons, isspace_tolower]
    by_cases h : isspace c = true
    · rw [if_pos h, if_pos h, ih]
    · rw [if_neg h, if_neg h, List.map_cons]

theorem rdropWhile_isspace_map_tolower (s : Str) :
    (s.map tolower).rdropWhile isspace = (s.rdropWhile isspace).map tolower := by
  unfold List.rdropWhile
  rw [← List.map_reverse, dropWhile_isspace_map_tolower, List.map_reverse]

theorem trim_to_lower_ascii (s : Str) : trim (to_lower_ascii s) = to_lower_ascii (trim s) := by
  unfold trim to_lower_ascii
  rw [dropWhile_isspace_map_tolower, rdropWhile_isspace_map_tolower]

theorem dropWhile_rdropWhile_dropWhile (s : Str) :
    ((s.dropWhile isspace).rdropWhile isspace).dropWhile isspace =
      (s.dropWhile isspace).rdropWhile isspace := by
  cases ht : s.dropWhile isspace with
  | nil => rfl
  | cons c r =>
    have hc : isspace c = false := by
      have h := List.head_dropWhile_not isspace s (by rw [ht]; exact List.cons_ne_nil c r)
      simpa [ht] using h
    obtain ⟨u, hu⟩ := List.rdropWhile_prefix isspace (c :: r)
    cases hq : (c :: r).rdropWhile isspace with
    | nil => rfl
    | cons c' r' =>
      rw [hq] at hu
      have hcc : c' = c := by
        have := congrArg List.head? hu
        simpa using this
      rw [List.dropWhile_cons, hcc, hc]
      simp

theorem trim_trim (s : Str) : trim (trim s) = trim s := by
  rw [trim_eq_self_iff]
  exact ⟨dropWhile_rdropWhile_dropWhile s, List.rdropWhile_idempotent isspace _⟩

/-- C27: normalisation is idempotent. With `N_en(x) = to_lower_ascii(trim(x))`
(what `record` and `search` apply to English text) and `N_zh(x) = trim(x)`,
`N_en(N_en(x)) == N_en(x)` and `N_zh(N_zh(x)) == N_zh(x)` for every string `x`;
in particular `trim(trim(x)) == trim(x)` and
`to_lower_ascii(to_lower_ascii(x)) == to_lower_ascii(x)`, and the same holds for
`norm_english`, `norm_trim` and `normalize_query` as the code composes them. -/
theorem normalization_idempotent (x : Str) :
    to_lower_ascii (trim (to_lower_ascii (trim x))) = to_lower_ascii (trim x) ∧
    trim (trim x) = trim x ∧
    to_lower_ascii (to_lower_ascii x) = to_lower_ascii x ∧
    norm_english (some (norm_english (some x))) = norm_english (some x) ∧
    norm_trim (some (norm_trim (some x))) = norm_trim (some x) ∧
    (∀ lang, normalize_query (normalize_query x lang) lang = normalize_query x lang) := by
  have hen : to_lower_ascii (trim (to_lower_ascii (trim x))) = to_lower_ascii (trim x) := by
    rw [trim_to_lower_ascii, trim_trim, to_lower_ascii_idem]
  refine ⟨hen, trim_trim x, to_lower_ascii_idem x, hen, trim_trim x, ?_⟩
  intro lang
  unfold normalize_query
  split_ifs
  · exact hen
  · exact trim_trim x

end FastVocabService

namespace wordsDictionary

open FastVocabService

/-! # Theorems on `wordsDictionary` -/

theorem with_synonyms_with_synonyms (node : aiThesaurusWord) (A B : Finset Str) :
    with_synonyms (with_synonyms node A) B = with_synonyms node (A ∪ B) := by
  simp only [with_synonyms, Finset.union_assoc]

theorem with_synonyms_empty (node : aiThesaurusWord) : with_synonyms node ∅ = node := by
  cases node
  simp only [with_synonyms, Finset.union_empty]

/-- The effect of one `emplace` statement on the map `database`. -/
theorem add_synonym_eq (d : State) (headword synonym : Str) (node : aiThesaurusWord)
    (h : d.database headword = some node) :
    ∃ d', add_synonym d headword synonym = some d' ∧
      d'.ZHDatabase = d.ZHDatabase ∧ d'.ENDatabase = d.ENDatabase ∧
      ∀ k, d'.database k =
        if k = headword then some (with_synonyms node {synonym}) else d.database k := by
  unfold add_synonym
  rw [h]
  refine ⟨_, rfl, rfl, rfl, ?_⟩
  intro k
  by_cases hk : k = headword
  · simp only [hk, if_true, with_synonyms, Option.some.injEq, aiThesaurusWord.mk.injEq,
      true_and, and_true]
    rw [Finset.insert_eq, Finset.union_comm]
  · simp only [hk, if_false]

/-- The inner loop adds to the headword's node the tokens at the other indices. -/
theorem link_inner_eq (tokens : List Str) (i : Nat) (js : List Nat) (d : State)
    (node : aiThesaurusWord) (h : d.database (tokens.getD i []) = some node) :
    ∃ d', js.foldlM (fun d j =>
        if j = i then some d
        else add_synonym d (tokens.getD i []) (tokens.getD j [])) d = some d' ∧
      d'.ZHDatabase = d.ZHDatabase ∧ d'.ENDatabase = d.ENDatabase ∧
      ∀ k, d'.database k =
        if k = tokens.getD i [] then
          some (with_synonyms node
            (((js.filter (fun j => decide (j ≠ i))).map (fun j => tokens.getD j [])).toFinset))
        else d.database k := by
  induction js generalizing d node with
  | nil =>
    refine ⟨d, rfl, rfl, rfl, ?_⟩
    intro k
    by_cases hk : k = tokens.getD i []
    · rw [if_pos hk, hk, h]
      simp [with_synonyms_empty]
    · rw [if_neg hk]
  | cons j js ih =>
    rw [List.foldlM_cons]
    by_cases hj : j = i
    · rw [if_pos hj]
      obtain ⟨d', h1, h2, h3, h4⟩ := ih d node h
      refine ⟨d', h1, h2, h3, ?_⟩
      intro k
      rw [h4 k, List.filter_cons_of_neg (by simp [hj])]
    · rw [if_neg hj]
      obtain ⟨d₁, e1, z1, n1, db1⟩ := add_synonym_eq d (tokens.getD i []) (tokens.getD j [])
        node h
      rw [e1]
      have h' : d₁.database (tokens.getD i []) =
          some (with_synonyms node {tokens.getD j []}) := by
        rw [db1, if_pos rfl]
      obtain ⟨d', h1, h2, h3, h4⟩ := ih d₁ _ h'
      refine ⟨d', h1, h2.trans z1, h3.trans n1, ?_⟩
      intro k
      rw [h4 k, List.filter_cons_of_pos (by simp [hj])]
      by_cases hk : k = tokens.getD i []
      · rw [if_pos hk, if_pos hk, with_synonyms_with_synonyms]
        simp only [List.map_cons, List.toFinset_cons, Finset.insert_eq]
      · rw [if_neg hk, if_neg hk, db1, if_neg hk]

/-- In a row of distinct tokens, the tokens at the indices other than `i` are the
tokens other than the `i`-th. -/
theorem others_eq_erase (tokens : List Str) (hn : tokens.Nodup) (i : Nat)
    (hi : i < tokens.length) :
    (((List.range tokens.length).filter (fun j => decide (j ≠ i))).map
      (fun j => tokens.getD j [])).toFinset = tokens.toFinset.erase (tokens.getD i []) := by
  ext x
  simp only [List.mem_toFinset, List.mem_map, List.mem_filter, List.mem_range,
    decide_eq_true_eq, Finset.mem_erase]
  constructor
  · rintro ⟨j, ⟨hj, hne⟩, rfl⟩
    rw [List.getD_eq_getElem _ _ hj, List.getD_eq_getElem _ _ hi]
    refine ⟨?_, List.getElem_mem hj⟩
    intro heq
    exact hne ((List.Nodup.getElem_inj_iff hn).mp heq)
  · rintro ⟨hne, hx⟩
    obtain ⟨j, hj, rfl⟩ := List.getElem_of_mem hx
    refine ⟨j, ⟨hj, ?_⟩, List.getD_eq_getElem _ _ hj⟩
    rintro rfl
    exact hne (List.getD_eq_getElem _ _ hj).symm

theorem link_headword_eq (tokens : List Str) (hn : tokens.Nodup) (i : Nat)
    (hi : i < tokens.length) (d : State) (node : aiThesaurusWord)
    (h : d.database (tokens.getD i []) = some node) :
    ∃ d', link_headword tokens i d = some d' ∧
      d'.ZHDatabase = d.ZHDatabase ∧ d'.ENDatabase = d.ENDatabase ∧
      ∀ k, d'.database k =
        if k = tokens.getD i [] then
          some (with_synonyms node (tokens.toFinset.erase (tokens.getD i [])))
        else d.database k := by
  obtain ⟨d', h1, h2, h3, h4⟩ := link_inner_eq tokens i (List.range tokens.length) d node h
  rw [others_eq_erase tokens hn i hi] at h4
  exact ⟨d', h1, h2, h3, h4⟩

/-- The outer loop: the nodes of the headwords processed so far (`S`) and of
those in `is` have received the other tokens of the row. -/
theorem link_outer_eq (tokens : List Str) (hn : tokens.Nodup) (d₀ : State)
    (hpres : ∀ t ∈ tokens, ∃ node, d₀.database t = some node)
    (is : List Nat) (his : ∀ i ∈ is, i < tokens.length) (d : State) (S : Finset Str)
    (hinv : ∀ k, d.database k =
      if k ∈ S then
        (d₀.database k).map (fun node => with_synonyms node (tokens.toFinset.erase k))
      else d₀.database k) :
    ∃ d', is.foldlM (fun d i => link_headword tokens i d) d = some d' ∧
      d'.ZHDatabase = d.ZHDatabase ∧ d'.ENDatabase = d.ENDatabase ∧
      ∀ k, d'.database k =
        if k ∈ S ∪ (is.map (fun i => tokens.getD i [])).toFinset then
          (d₀.database k).map (fun node => with_synonyms node (tokens.toFinset.erase k))
        else d₀.database k := by
  induction is generalizing d S with
  | nil =>
    refine ⟨d, rfl, rfl, rfl, ?_⟩
    intro k
    rw [hinv k]
    simp
  | cons i is ih =>
    have hi : i < tokens.length := his i (List.mem_cons_self _ _)
    have hmem : tokens.getD i [] ∈ tokens := by
      rw [List.getD_eq_getElem _ _ hi]
      exact List.getElem_mem hi
    obtain ⟨node₀, hnode₀⟩ := hpres _ hmem
    have hcur : ∃ node₁, d.database (tokens.getD i []) = some node₁ ∧
        with_synonyms node₁ (tokens.toFinset.erase (tokens.getD i [])) =
          with_synonyms node₀ (tokens.toFinset.erase (tokens.getD i [])) := by
      rw [hinv, hnode₀]
      by_cases hs : tokens.getD i [] ∈ S
      · rw [if_pos hs]
        refine ⟨_, rfl, ?_⟩
        rw [with_synonyms_with_synonyms, Finset.union_self]
      · rw [if_neg hs]
        exact ⟨node₀, rfl, rfl⟩
    obtain ⟨node₁, hnode₁, hsame⟩ := hcur
    obtain ⟨d₁, e1, z1, n1, db1⟩ := link_headword_eq tokens hn i hi d node₁ hnode₁
    have hinv₁ : ∀ k, d₁.database k =
        if k ∈ insert (tokens.getD i []) S then
          (d₀.database k).map (fun node => with_synonyms node (tokens.toFinset.erase k))
        else d₀.database k := by
      intro k
      rw [db1 k]
      by_cases hk : k = tokens.getD i []
      · rw [if_pos hk, if_pos (by rw [hk]; exact Finset.mem_insert_self _ _), hk, hnode₀,
          hsame]
        rfl
      · rw [if_neg hk, hinv k]
        by_cases hs : k ∈ S
        · rw [if_pos hs, if_pos (Finset.mem_insert_of_mem hs)]
        · rw [if_neg hs, if_neg (fun h => (Finset.mem_insert.mp h).elim hk hs)]
    obtain ⟨d', h1, h2, h3, h4⟩ := ih (fun j hj => his j (List.mem_cons_of_mem _ hj)) d₁
      (insert (tokens.getD i []) S) hinv₁
    refine ⟨d', ?_, h2.trans z1, h3.trans n1, ?_⟩
    · rw [List.foldlM_cons, e1]
      exact h1
    · intro k
      rw [h4 k]
      have hset : insert (tokens.getD i []) S ∪
          (is.map (fun i => tokens.getD i [])).toFinset =
          S ∪ ((i :: is).map (fun i => tokens.getD i [])).toFinset := by
        ext x
        simp only [Finset.mem_union, Finset.mem_insert, List.map_cons, List.toFinset_cons]
        tauto
      rw [hset]

/-- One row of distinct tokens whose nodes exist: every token's node receives
exactly the other tokens, no other node changes. -/
theorem link_row_eq (tokens : List Str) (hn : tokens.Nodup) (d : State)
    (hpres : ∀ t ∈ tokens, ∃ node, d.database t = some node) :
    ∃ d', link_row tokens d = some d' ∧
      d'.ZHDatabase = d.ZHDatabase ∧ d'.ENDatabase = d.ENDatabase ∧
      ∀ k, d'.database k =
        if k ∈ tokens then
          (d.database k).map (fun node => with_synonyms node (tokens.toFinset.erase k))
        else d.database k := by
  obtain ⟨d', h1, h2, h3, h4⟩ := link_outer_eq tokens hn d hpres (List.range tokens.length)
    (fun i hi => List.mem_range.mp hi) d ∅ (fun k => by simp)
  refine ⟨d', h1, h2, h3, ?_⟩
  intro k
  rw [h4 k]
  have hiff : k ∈ (∅ : Finset Str) ∪
      ((List.range tokens.length).map (fun i => tokens.getD i [])).toFinset ↔ k ∈ tokens := by
    simp only [Finset.empty_union, List.mem_toFinset, List.mem_map, List.mem_range]
    constructor
    · rintro ⟨i, hi, rfl⟩
      rw [List.getD_eq_getElem _ _ hi]
      exact List.getElem_mem hi
    · intro hk
      obtain ⟨i, hi, rfl⟩ := List.getElem_of_mem hk
      exact ⟨i, hi, List.getD_eq_getElem _ _ hi⟩
  by_cases hk : k ∈ tokens
  · rw [if_pos (hiff.mpr hk), if_pos hk]
  · rw [if_neg (fun h => hk (hiff.mp h)), if_neg hk]

/-! ## Ingesting one synonym row -/

theorem create_node_database (lang : Language) (into_zh : Bool) (d : State) (t k : Str) :
    (create_node lang into_zh d t).database k =
      if k = t then
        (match d.database t with
          | some v => some v
          | none => some (fresh_node t lang))
      else d.database k := by
  unfold create_node
  cases h : d.database t with
  | some v =>
    by_cases hk : k = t
    · simp only [hk, if_true, h]
    · simp only [hk, if_false]
  | none =>
    by_cases hk : k = t
    · simp only [map_emplace, hk, if_true, h, fresh_node]
    · simp only [map_emplace, hk, if_false]

theorem create_fold_database (lang : Language) (into_zh : Bool) (toks : List Str)
    (d : State) (k : Str) :
    (toks.foldl (create_node lang into_zh) d).database k =
      match d.database k with
      | some v => some v
      | none => if k ∈ toks then some (fresh_node k lang) else none := by
  induction toks generalizing d with
  | nil =>
    cases h : d.database k <;> simp [h]
  | cons t toks ih =>
    rw [List.foldl_cons, ih, create_node_database]
    by_cases hk : k = t
    · subst hk
      cases h : d.database k <;> simp [h]
    · rw [if_neg hk]
      cases h : d.database k with
      | some v => rfl
      | none => simp [hk]

theorem erase_card (toks : List Str) (hn : toks.Nodup) {t : Str} (ht : t ∈ toks) :
    (toks.toFinset.erase t).card = toks.length - 1 := by
  rw [Finset.card_erase_of_mem (List.mem_toFinset.mpr ht), List.toFinset_card_of_nodup hn]

/-- From the database a row leaves (each token with its other tokens), the graph
is exactly linked. -/
theorem exactly_linked_of_database (lang : Language) (toks : List Str) (hn : toks.Nodup)
    (d : State)
    (h : ∀ k, d.database k =
      if k ∈ toks then some (with_synonyms (fresh_node k lang) (toks.toFinset.erase k))
      else none) : exactly_linked lang toks d := by
  have hsyn : ∀ t, synonyms_of d t = if t ∈ toks then toks.toFinset.erase t else ∅ := by
    intro t
    unfold synonyms_of
    rw [h t]
    by_cases ht : t ∈ toks
    · simp [ht, with_synonyms, fresh_node]
    · simp [ht]
  have hiff : ∀ s t, s ∈ synonyms_of d t ↔ (s ∈ toks ∧ t ∈ toks ∧ s ≠ t) := by
    intro s t
    rw [hsyn t]
    by_cases ht : t ∈ toks
    · simp only [if_pos ht, Finset.mem_erase, List.mem_toFinset]
      tauto
    · simp only [if_neg ht, Finset.not_mem_empty, false_iff]
      tauto
  refine ⟨?_, ?_, hiff, ?_, ?_, ?_⟩
  · intro t ht
    refine ⟨_, by rw [h t, if_pos ht], rfl, rfl, ?_, ?_⟩
    · simp [with_synonyms, fresh_node]
    · simp only [with_synonyms, fresh_node, Finset.empty_union]
      exact erase_card toks hn ht
  · intro k hk
    rw [h k, if_neg hk]
  · intro s t hst
    obtain ⟨h1, h2, h3⟩ := (hiff s t).mp hst
    exact (hiff t s).mpr ⟨h2, h1, fun e => h3 e.symm⟩
  · intro t ht
    exact ((hiff t t).mp ht).2.2 rfl
  · have hconst : toks.map (fun t => (synonyms_of d t).card) =
        toks.map (fun _ => toks.length - 1) := by
      apply List.map_congr_left
      intro t ht
      rw [hsyn t, if_pos ht]
      exact erase_card toks hn ht
    rw [hconst, List.map_const', List.sum_replicate, smul_eq_mul]

/-- The two steps on a file of one row, for either language. -/
theorem one_row_linked (lang : Language) (into_zh : Bool) (content line : Str)
    (toks : List Str) (hfile : getline_all 10 content = [line])
    (htoks : trimmed_tokens line = toks) (hn : toks.Nodup) (hne : ∀ t ∈ toks, t ≠ []) :
    ∃ d, initialize_synonyms (some content)
        (create_synonym_nodes lang into_zh (some content) State.empty) = some d ∧
      exactly_linked lang toks d := by
  have hcreate : ∀ k, (create_synonym_nodes lang into_zh (some content) State.empty).database k =
      if k ∈ toks then some (fresh_node k lang) else none := by
    intro k
    unfold create_synonym_nodes file_lines
    simp only [hfile, List.foldl_cons, List.foldl_nil]
    by_cases hl : line = []
    · rw [if_pos hl]
      have : toks = [] := by rw [← htoks, hl]; rfl
      rw [this]
      rfl
    · rw [if_neg hl, htoks, create_fold_database]
      rfl
  have hfilter : toks.filter (fun t => decide (t ≠ [])) = toks := by
    rw [List.filter_eq_self]
    intro t ht
    simpa using hne t ht
  unfold initialize_synonyms
  simp only [hfile, List.foldlM_cons, List.foldlM_nil, htoks, hfilter]
  by_cases hl : line = []
  · have ht0 : toks = [] := by rw [← htoks, hl]; rfl
    rw [if_pos hl]
    refine ⟨_, rfl, exactly_linked_of_database lang toks hn _ ?_⟩
    intro k
    rw [hcreate k, ht0]
    simp
  · rw [if_neg hl]
    by_cases ht0 : toks = []
    · rw [if_pos ht0]
      refine ⟨_, rfl, exactly_linked_of_database lang toks hn _ ?_⟩
      intro k
      rw [hcreate k, ht0]
      simp
    · rw [if_neg ht0]
      obtain ⟨d', h1, _, _, h4⟩ := link_row_eq toks hn
        (create_synonym_nodes lang into_zh (some content) State.empty)
        (fun t ht => ⟨_, by rw [hcreate t, if_pos ht]⟩)
      refine ⟨d', by simpa using h1, exactly_linked_of_database lang toks hn _ ?_⟩
      intro k
      rw [h4 k, hcreate k]
      by_cases hk : k ∈ toks
      · simp [hk]
      · simp [hk]

/-- C20: from the empty graph, `createAllEnglishSynonyms` followed by
`initializeEnglishSynonyms` (and likewise the Chinese pair) on a file of one row
of `n` pairwise distinct non-empty tokens returns a graph with exactly the
`n * (n - 1)` directed synonym pairs of the row: each token's synonym set is the
other `n - 1` tokens, the relation is symmetric, no token is its own synonym and
there is no other node. -/
theorem synonym_row_pairs (content line : Str) (toks : List Str)
    (hfile : getline_all 10 content = [line]) (htoks : trimmed_tokens line = toks)
    (hn : toks.Nodup) (hne : ∀ t ∈ toks, t ≠ []) :
    (∃ d, initializeEnglishSynonyms (some content)
        (createAllEnglishSynonyms (some content) State.empty) = some d ∧
      exactly_linked Language.english toks d) ∧
    (∃ d, initializeChineseSynonyms (some content)
        (createAllChineseSynonyms (some content) State.empty) = some d ∧
      exactly_linked Language.chinese toks d) ∧
    (∃ d, initializeEnglishSynonyms (some (bytes "run, jog, sprint"))
        (createAllEnglishSynonyms (some (bytes "run, jog, sprint")) State.empty) = some d ∧
      ([bytes "run", bytes "jog", bytes "sprint"].map
        (fun t => (synonyms_of d t).card)).sum = 6 ∧
      (∀ k, k ∉ [bytes "run", bytes "jog", bytes "sprint"] → synonyms_of d k = ∅)) := by
  refine ⟨one_row_linked Language.english false content line toks hfile htoks hn hne,
    one_row_linked Language.chinese true content line toks hfile htoks hn hne, ?_⟩
  obtain ⟨d, hd, hl⟩ := one_row_linked Language.english false (bytes "run, jog, sprint")
    (bytes "run, jog, sprint") [bytes "run", bytes "jog", bytes "sprint"]
    (by decide) (by decide) (by decide) (by decide)
  refine ⟨d, hd, hl.2.2.2.2.2, ?_⟩
  intro k hk
  unfold synonyms_of
  rw [hl.2.1 k hk]

/-- Witness of `synonym_row_pairs`: the row `"run, jog, sprint"`, with its
`3 * 2 = 6` directed pairs. -/
theorem synonym_row_pairs_witness :
    (∃ d, initializeEnglishSynonyms (some (bytes "run, jog, sprint"))
        (createAllEnglishSynonyms (some (bytes "run, jog, sprint")) State.empty) = some d ∧
      exactly_linked Language.english [bytes "run", bytes "jog", bytes "sprint"] d) ∧
    (∃ d, initializeChineseSynonyms (some (bytes "run, jog, sprint"))
        (createAllChineseSynonyms (some (bytes "run, jog, sprint")) State.empty) = some d ∧
      exactly_linked Language.chinese [bytes "run", bytes "jog", bytes "sprint"] d) :=
  let h := synonym_row_pairs (bytes "run, jog, sprint") (bytes "run, jog, sprint")
    [bytes "run", bytes "jog", bytes "sprint"] (by decide) (by decide) (by decide) (by decide)
  ⟨h.1, h.2.1⟩

/-! ## A row with a repeated token -/

/-- C21: the code at the row `"run, run"`. After `createAllEnglishSynonyms` and
`initializeEnglishSynonyms` (and likewise after the Chinese pair) the node `run`
is a member of its own synonym set: the loops skip equal positions
(`idxSynonym == idxHeadword`), not equal tokens. -/
theorem self_loop_on_repeated_token :
    (∃ d, initializeEnglishSynonyms (some (bytes "run, run"))
        (createAllEnglishSynonyms (some (bytes "run, run")) State.empty) = some d ∧
      bytes "run" ∈ synonyms_of d (bytes "run")) ∧
    (∃ d, initializeChineseSynonyms (some (bytes "跑, 跑"))
        (createAllChineseSynonyms (some (bytes "跑, 跑")) State.empty) = some d ∧
      bytes "跑" ∈ synonyms_of d (bytes "跑")) :=
  ⟨⟨_, rfl, by decide⟩, ⟨_, rfl, by decide⟩⟩

/-! ## Empty tokens -/

/-- C26: the code at the rows `"a,,b"` and `"a, ,b"`. `createAllChineseSynonyms`
and `createAllEnglishSynonyms` create a node whose text is the empty string: they
trim every token but, unlike `initialize*Synonyms`, do not skip an empty one. -/
theorem empty_token_node_created :
    ((createAllChineseSynonyms (some (bytes "a,,b")) State.empty).database []).map
        (fun node => node.word) = some [] ∧
    ((createAllEnglishSynonyms (some (bytes "a,,b")) State.empty).database []).map
        (fun node => node.word) = some [] ∧
    ((createAllChineseSynonyms (some (bytes "a, ,b")) State.empty).database []).map
        (fun node => node.word) = some [] ∧
    ((createAllEnglishSynonyms (some (bytes "a, ,b")) State.empty).database []).map
        (fun node => node.word) = some [] := by
  decide

/-- Every text `createAll*Synonyms` looks up and creates is trimmed: it has no
white space at either end. -/
theorem created_tokens_trimmed (file : Option Str) {t : Str}
    (h : t ∈ created_tokens file) : trim t = t := by
  unfold created_tokens trimmed_tokens at h
  obtain ⟨line, _, ht⟩ := List.mem_flatMap.mp h
  obtain ⟨x, _, hx⟩ := List.mem_map.mp ht
  rw [← hx]
  exact trim_trim x

/-! ## `createAllTranslations` -/

theorem split_aux_pending_ne_nil (delim : Nat) (s cur : Str) :
    split_aux delim cur true s ≠ [] := by
  induction s generalizing cur with
  | nil => simp [split_aux]
  | cons c rest ih =>
    unfold split_aux
    split_ifs
    · exact List.cons_ne_nil _ _
    · exact ih _

theorem getline_all_ne_nil (delim : Nat) {s : Str} (hs : s ≠ []) :
    getline_all delim s ≠ [] := by
  cases s with
  | nil => exact absurd rfl hs
  | cons c rest =>
    unfold getline_all split_aux
    split_ifs
    · exact List.cons_ne_nil _ _
    · exact split_aux_pending_ne_nil delim rest _

theorem translation_row_out_of_range (d : State) {line : Str} (hl : line ≠ []) :
    translation_row none d line = none := by
  unfold translation_row trimmed_tokens
  cases hg : getline_all 44 line with
  | nil => exact absurd hg (getline_all_ne_nil 44 hl)
  | cons t ts => rfl

theorem foldlM_out_of_range (rows : List Str) (d : State)
    (h : ∃ line ∈ rows, line ≠ []) :
    rows.foldlM (fun d line =>
      if line = [] then some d else translation_row none d line) d = none := by
  induction rows generalizing d with
  | nil =>
    obtain ⟨line, hm, _⟩ := h
    exact absurd hm (List.not_mem_nil line)
  | cons r rest ih =>
    rw [List.foldlM_cons]
    by_cases hr : r = []
    · rw [if_pos hr]
      obtain ⟨line, hm, hne⟩ := h
      rcases List.mem_cons.mp hm with heq | hin
      · exact absurd (heq ▸ hr) hne
      · exact ih d ⟨line, hin, hne⟩
    · rw [if_neg hr, translation_row_out_of_range d hr]
      rfl

/-- C30: the code at any translation file with a non-empty data row. The local
vector `tokens` is never filled, so the read `tokens[loop_index]` at column 0 of
the first non-empty data row is out of range (`tokens.size()` is 0): when such a
read stops the program, `createAllTranslations` does not return. -/
theorem createAllTranslations_out_of_range (content : Str) (d : State)
    (h : ∃ line ∈ (getline_all 10 content).drop 1, line ≠ []) :
    vector_index none [] 0 = none ∧
    createAllTranslations none (some content) d = none :=
  ⟨rfl, foldlM_out_of_range _ d h⟩

/-- Witness of `createAllTranslations_out_of_range`: a header line and the data
row `apple`. -/
theorem createAllTranslations_out_of_range_witness :
    (∃ line ∈ (getline_all 10 (bytes "word\napple")).drop 1, line ≠ []) ∧
    vector_index none [] 0 = none ∧
    createAllTranslations none (some (bytes "word\napple")) State.empty = none :=
  ⟨⟨bytes "apple", by decide, by decide⟩,
    createAllTranslations_out_of_range (bytes "word\napple") State.empty
      ⟨bytes "apple", by decide, by decide⟩⟩

/-- C23: the code at the data rows `apple` and `apple,x,y,苹果` on an empty
dictionary. Whatever string the read `tokens[0]` yields, the node of the English
column is tagged `english` and entered into `ZHDatabase`, not into `ENDatabase`;
and when the reads yield the empty string the node of the Chinese column is
tagged `chinese` and entered into `ENDatabase`, not into `ZHDatabase`. -/
theorem translation_nodes_registered_swapped (g : Str) :
    (∃ d, createAllTranslations (some g) (some (bytes "word\napple")) State.empty = some d ∧
      language_of d (bytes "apple") = some Language.english ∧
      d.ZHDatabase (bytes "apple") = some (bytes "apple", Language.english) ∧
      d.ENDatabase (bytes "apple") = none) ∧
    (∃ d, createAllTranslations (some []) (some (bytes "word\napple,x,y,苹果"))
        State.empty = some d ∧
      language_of d (bytes "apple") = some Language.english ∧
      d.ZHDatabase (bytes "apple") = some (bytes "apple", Language.english) ∧
      d.ENDatabase (bytes "apple") = none ∧
      language_of d (bytes "苹果") = some Language.chinese ∧
      d.ENDatabase (bytes "苹果") = some (bytes "苹果", Language.chinese) ∧
      d.ZHDatabase (bytes "苹果") = none) :=
  ⟨⟨_, rfl, by decide, by decide, by decide⟩,
    ⟨_, rfl, by decide, by decide, by decide, by decide, by decide, by decide⟩⟩

theorem initializeTranslations_eq (file : Option Str) (d : State) :
    initializeTranslations file d = d := by
  cases file with
  | none => rfl
  | some content =>
    unfold initializeTranslations
    have h : ∀ (ls : List Str) (p : State × Int),
        (ls.foldl (fun (p : State × Int) _ =>
          if p.2 = 4 then p else if p.2 = 0 then p else p) p) = p := by
      intro ls
      induction ls with
      | nil => intro p; rfl
      | cons l rest ih =>
        intro p
        rw [List.foldl_cons]
        simp only [ite_self]
        simp
    simp only [h]

/-- C24: the code at the bilingual row `apple,x,y,苹果` (the reads of `tokens`
yielding the empty string, so that both nodes are created). After
`createAllTranslations` and `initializeTranslations` both nodes exist and neither
is in the translation set of the other; `initializeTranslations` leaves every
dictionary as it finds it. -/
theorem translation_edge_not_inserted :
    (∀ file d, initializeTranslations file d = d) ∧
    (∃ d, createAllTranslations (some []) (some (bytes "word\napple,x,y,苹果"))
        State.empty = some d ∧
      (d.database (bytes "apple")).isSome = true ∧
      (d.database (bytes "苹果")).isSome = true ∧
      bytes "苹果" ∉ translations_of
        (initializeTranslations (some (bytes "word\napple,x,y,苹果")) d) (bytes "apple") ∧
      bytes "apple" ∉ translations_of
        (initializeTranslations (some (bytes "word\napple,x,y,苹果")) d) (bytes "苹果")) :=
  ⟨initializeTranslations_eq,
    ⟨_, rfl, by decide, by decide, by decide, by decide⟩⟩

/-! ## A source that cannot be opened -/

/-- C25: a source that cannot be opened is treated as an empty source. Each
`create*` and `initialize*` step on a file that is not open returns normally and
leaves the dictionary as it was, and the constructor gives the same result as on
an empty file in place of the unreadable one, whichever of the three sources it
is. -/
theorem unreadable_source_is_empty (oob : Option Str) :
    (∀ d, createAllChineseSynonyms none d = d ∧
      createAllEnglishSynonyms none d = d ∧
      createAllTranslations oob none d = some d ∧
      initializeChineseSynonyms none d = some d ∧
      initializeEnglishSynonyms none d = some d ∧
      initializeTranslations none d = d) ∧
    (∀ d, createAllChineseSynonyms none d = createAllChineseSynonyms (some []) d ∧
      createAllEnglishSynonyms none d = createAllEnglishSynonyms (some []) d ∧
      createAllTranslations oob none d = createAllTranslations oob (some []) d ∧
      initializeChineseSynonyms none d = initializeChineseSynonyms (some []) d ∧
      initializeEnglishSynonyms none d = initializeEnglishSynonyms (some []) d ∧
      initializeTranslations none d = initializeTranslations (some []) d) ∧
    (∀ zh en tr,
      construct oob none en tr = construct oob (some []) en tr ∧
      construct oob zh none tr = construct oob zh (some []) tr ∧
      construct oob zh en none = construct oob zh en (some [])) :=
  ⟨fun _ => ⟨rfl, rfl, rfl, rfl, rfl, rfl⟩,
    fun _ => ⟨rfl, rfl, rfl, rfl, rfl, rfl⟩,
    fun _ _ _ => ⟨rfl, rfl, rfl⟩⟩

/-! ## The languages joined by a synonym edge -/

theorem linked_within_refl (T : List Str) (d : State) : linked_within T d d := by
  intro k
  refine ⟨∅, ?_, fun s hs => absurd hs (Finset.not_mem_empty s)⟩
  cases h : d.database k with
  | none => rfl
  | some node => simp only [Option.map_some', with_synonyms_empty]

theorem linked_within_trans {T : List Str} {d₁ d₂ d₃ : State}
    (h₁ : linked_within T d₁ d₂) (h₂ : linked_within T d₂ d₃) : linked_within T d₁ d₃ := by
  intro k
  obtain ⟨X, hX, hXT⟩ := h₁ k
  obtain ⟨Y, hY, hYT⟩ := h₂ k
  refine ⟨X ∪ Y, ?_, ?_⟩
  · rw [hY, hX]
    cases h : d₁.database k with
    | none => rfl
    | some node => simp only [Option.map_some', with_synonyms_with_synonyms]
  · intro s hs
    rcases Finset.mem_union.mp hs with h | h
    · exact hXT s h
    · exact hYT s h

theorem linked_within_mono {T T' : List Str} {d d' : State} (hT : ∀ t ∈ T, t ∈ T')
    (h : linked_within T d d') : linked_within T' d d' := by
  intro k
  obtain ⟨X, hX, hXT⟩ := h k
  exact ⟨X, hX, fun s hs => ⟨hT s (hXT s hs).1, hT k (hXT s hs).2⟩⟩

theorem add_synonym_linked {T : List Str} {d d' : State} {headword synonym : Str}
    (hh : headword ∈ T) (hs : synonym ∈ T) (h : add_synonym d headword synonym = some d') :
    linked_within T d d' := by
  cases hn : d.database headword with
  | none =>
    unfold add_synonym at h
    rw [hn] at h
    exact absurd h (by simp)
  | some node =>
    obtain ⟨d₁, h₁, _, _, hdb⟩ := add_synonym_eq d headword synonym node hn
    rw [h₁] at h
    have hd : d₁ = d' := Option.some.inj h
    subst hd
    intro k
    by_cases hk : k = headword
    · refine ⟨{synonym}, ?_, ?_⟩
      · rw [hdb k, if_pos hk, hk, hn]
        rfl
      · intro s hsX
        rw [Finset.mem_singleton.mp hsX, hk]
        exact ⟨hs, hh⟩
    · refine ⟨∅, ?_, fun s hsX => absurd hsX (Finset.not_mem_empty s)⟩
      rw [hdb k, if_neg hk]
      cases h : d.database k with
      | none => rfl
      | some node' => simp only [Option.map_some', with_synonyms_empty]

theorem foldlM_linked {α : Type} {T : List Str} (f : State → α → Option State)
    (l : List α)
    (hf : ∀ a ∈ l, ∀ d d', f d a = some d' → linked_within T d d')
    (d d' : State) (h : l.foldlM f d = some d') : linked_within T d d' := by
  induction l generalizing d with
  | nil =>
    have hd : d = d' := Option.some.inj h
    rw [hd]
    exact linked_within_refl T d'
  | cons a rest ih =>
    rw [List.foldlM_cons] at h
    cases hfa : f d a with
    | none =>
      rw [hfa] at h
      exact absurd h (by simp)
    | some d₁ =>
      rw [hfa] at h
      exact linked_within_trans (hf a (List.mem_cons_self a rest) d d₁ hfa)
        (ih (fun b hb => hf b (List.mem_cons_of_mem a hb)) d₁ h)

theorem getD_mem_of_lt (tokens : List Str) {i : Nat} (hi : i < tokens.length) :
    tokens.getD i [] ∈ tokens := by
  rw [List.getD_eq_getElem tokens [] hi]
  exact List.getElem_mem hi

theorem link_row_linked (tokens : List Str) (d d' : State)
    (h : link_row tokens d = some d') : linked_within tokens d d' := by
  unfold link_row at h
  refine foldlM_linked _ _ ?_ d d' h
  intro i hi d₁ d₂ h₁
  unfold link_headword at h₁
  refine foldlM_linked _ _ ?_ d₁ d₂ h₁
  intro j hj d₃ d₄ h₃
  by_cases hji : j = i
  · rw [if_pos hji] at h₃
    rw [← Option.some.inj h₃]
    exact linked_within_refl tokens d₃
  · rw [if_neg hji] at h₃
    exact add_synonym_linked (getD_mem_of_lt tokens (List.mem_range.mp hi))
      (getD_mem_of_lt tokens (List.mem_range.mp hj)) h₃

theorem initialize_synonyms_linked (file : Option Str) (d d' : State)
    (h : initialize_synonyms file d = some d') :
    linked_within (source_tokens file) d d' := by
  cases file with
  | none =>
    rw [← Option.some.inj h]
    exact linked_within_refl _ d
  | some content =>
    unfold initialize_synonyms at h
    refine foldlM_linked _ _ ?_ d d' h
    intro line hline d₁ d₂ h₁
    by_cases hl : line = []
    · rw [if_pos hl] at h₁
      rw [← Option.some.inj h₁]
      exact linked_within_refl _ d₁
    · rw [if_neg hl] at h₁
      by_cases ht : (trimmed_tokens line).filter (fun t => decide (t ≠ [])) = []
      · simp only [ht, if_true] at h₁
        rw [← Option.some.inj h₁]
        exact linked_within_refl _ d₁
      · simp only [ht, if_false] at h₁
        refine linked_within_mono ?_ (link_row_linked _ d₁ d₂ h₁)
        intro t htm
        unfold source_tokens file_lines
        exact List.mem_flatMap.mpr ⟨line, hline, htm⟩

theorem create_lines_database (lang : Language) (into_zh : Bool) (lines : List Str)
    (d : State) (k : Str) :
    (lines.foldl (fun d line =>
        if line = [] then d
        else (trimmed_tokens line).foldl (create_node lang into_zh) d) d).database k =
      match d.database k with
      | some v => some v
      | none =>
        if k ∈ lines.flatMap trimmed_tokens then some (fresh_node k lang) else none := by
  induction lines generalizing d with
  | nil =>
    cases h : d.database k <;> simp [h]
  | cons line rest ih =>
    have hstep : (if line = [] then d
        else (trimmed_tokens line).foldl (create_node lang into_zh) d) =
        (trimmed_tokens line).foldl (create_node lang into_zh) d := by
      by_cases hl : line = []
      · rw [if_pos hl, hl]
        rfl
      · rw [if_neg hl]
    rw [List.foldl_cons, hstep, ih, create_fold_database]
    cases h : d.database k with
    | some v => rfl
    | none =>
      by_cases hk : k ∈ trimmed_tokens line
      · simp [hk]
      · simp [hk]

theorem create_synonym_nodes_database (lang : Language) (into_zh : Bool)
    (file : Option Str) (d : State) (k : Str) :
    (create_synonym_nodes lang into_zh file d).database k =
      match d.database k with
      | some v => some v
      | none => if k ∈ created_tokens file then some (fresh_node k lang) else none :=
  create_lines_database lang into_zh (file_lines file) d k

theorem source_tokens_subset_created (file : Option Str) {t : Str}
    (h : t ∈ source_tokens file) : t ∈ created_tokens file ∧ t ≠ [] := by
  unfold source_tokens at h
  obtain ⟨line, hline, ht⟩ := List.mem_flatMap.mp h
  obtain ⟨htm, hne⟩ := List.mem_filter.mp ht
  exact ⟨List.mem_flatMap.mpr ⟨line, hline, htm⟩, of_decide_eq_true hne⟩

theorem created_mem_source_tokens (file : Option Str) {t : Str}
    (h : t ∈ created_tokens file) (hne : t ≠ []) : t ∈ source_tokens file := by
  unfold created_tokens at h
  obtain ⟨line, hline, ht⟩ := List.mem_flatMap.mp h
  exact List.mem_flatMap.mpr ⟨line, hline, List.mem_filter.mpr ⟨ht, decide_eq_true hne⟩⟩

theorem grown_refl (d : State) : grown d d := fun _ => Or.inl rfl

theorem grown_trans {d₁ d₂ d₃ : State} (h₁ : grown d₁ d₂) (h₂ : grown d₂ d₃) :
    grown d₁ d₃ := by
  intro k
  rcases h₂ k with h | ⟨hn, lang, hf⟩
  · rw [h]
    exact h₁ k
  · rcases h₁ k with h | ⟨hn₁, _⟩
    · exact Or.inr ⟨by rw [← h]; exact hn, lang, hf⟩
    · exact Or.inr ⟨hn₁, lang, hf⟩

theorem register_node_grown (lang : Language) (into_zh : Bool) (d : State) (token : Str) :
    grown d (register_node lang into_zh d token) := by
  intro k
  by_cases hk : k = token
  · cases h : d.database token with
    | some v =>
      left
      simp only [register_node, map_emplace, hk, if_true, h]
    | none =>
      right
      refine ⟨by rw [hk]; exact h, lang, ?_⟩
      simp only [register_node, map_emplace, hk, if_true, h]
  · left
    simp only [register_node, map_emplace, hk, if_false]

theorem foldlM_grown {α : Type} (f : State → α → Option State) (l : List α)
    (hf : ∀ a d d', f d a = some d' → grown d d')
    (d d' : State) (h : l.foldlM f d = some d') : grown d d' := by
  induction l generalizing d with
  | nil =>
    rw [← Option.some.inj h]
    exact grown_refl d
  | cons a rest ih =>
    rw [List.foldlM_cons] at h
    cases hfa : f d a with
    | none =>
      rw [hfa] at h
      exact absurd h (by simp)
    | some d₁ =>
      rw [hfa] at h
      exact grown_trans (hf a d d₁ hfa) (ih d₁ h)

theorem translation_column_grown (oob : Option Str) (tokens : List Str) (d d' : State)
    (i : Nat) (token : Str) (h : translation_column oob tokens d i token = some d') :
    grown d d' := by
  unfold translation_column at h
  split_ifs at h
  · cases hv : vector_index oob tokens i with
    | none => simp [hv] at h
    | some key =>
      cases hk : d.database key with
      | some v =>
        simp only [hv, hk] at h
        rw [← Option.some.inj h]
        exact grown_refl d
      | none =>
        simp only [hv, hk] at h
        rw [← Option.some.inj h]
        exact register_node_grown _ _ d token
  · cases hv : vector_index oob tokens i with
    | none => simp [hv] at h
    | some key =>
      cases hk : d.database key with
      | some v =>
        simp only [hv, hk] at h
        rw [← Option.some.inj h]
        exact grown_refl d
      | none =>
        simp only [hv, hk] at h
        rw [← Option.some.inj h]
        exact register_node_grown _ _ d token
  · rw [← Option.some.inj h]
    exact grown_refl d

theorem createAllTranslations_grown (oob : Option Str) (file : Option Str) (d d' : State)
    (h : createAllTranslations oob file d = some d') : grown d d' := by
  unfold createAllTranslations at h
  refine foldlM_grown _ _ ?_ d d' h
  intro line d₁ d₂ h₁
  by_cases hl : line = []
  · rw [if_pos hl] at h₁
    rw [← Option.some.inj h₁]
    exact grown_refl d₁
  · rw [if_neg hl] at h₁
    unfold translation_row at h₁
    exact foldlM_grown _ _
      (fun column d₃ d₄ h₃ => translation_column_grown oob [] d₃ d₄ column.1 column.2 h₃)
      d₁ d₂ h₁

theorem language_of_linked {T : List Str} {d d' : State} (h : linked_within T d d')
    (k : Str) : language_of d' k = language_of d k := by
  obtain ⟨X, hX, _⟩ := h k
  unfold language_of
  rw [hX]
  cases d.database k with
  | none => rfl
  | some node => rfl

theorem synonyms_of_linked {T : List Str} {d d' : State} (h : linked_within T d d')
    {k s : Str} (hs : s ∈ synonyms_of d' k) : s ∈ synonyms_of d k ∨ (s ∈ T ∧ k ∈ T) := by
  obtain ⟨X, hX, hXT⟩ := h k
  unfold synonyms_of at hs ⊢
  rw [hX] at hs
  cases hk : d.database k with
  | none =>
    rw [hk] at hs
    exact absurd hs (Finset.not_mem_empty s)
  | some node =>
    rw [hk] at hs
    rcases Finset.mem_union.mp hs with h₁ | h₂
    · exact Or.inl h₁
    · exact Or.inr (hXT s h₂)

theorem language_of_grown {d d' : State} (h : grown d d') {k : Str} {lang : Language}
    (hl : language_of d k = some lang) : language_of d' k = some lang := by
  rcases h k with h₁ | ⟨hn, _⟩
  · unfold language_of at hl ⊢
    rw [h₁]
    exact hl
  · unfold language_of at hl
    rw [hn] at hl
    exact absurd hl (by simp)

theorem synonyms_of_grown {d d' : State} (h : grown d d')
    (hd : ∀ k, synonyms_of d k = ∅) (k : Str) : synonyms_of d' k = ∅ := by
  rcases h k with h₁ | ⟨_, lang, hf⟩
  · have := hd k
    unfold synonyms_of at this ⊢
    rw [h₁]
    exact this
  · unfold synonyms_of
    rw [hf]
    rfl

/-- The nodes after the two `createAll*Synonyms` calls of the constructor. -/
theorem created_nodes (zh en : Option Str) (k : Str) :
    language_of (createAllEnglishSynonyms en
        (createAllChineseSynonyms zh State.empty)) k =
      (if k ∈ created_tokens zh then some Language.chinese
       else if k ∈ created_tokens en then some Language.english else none) ∧
    synonyms_of (createAllEnglishSynonyms en
        (createAllChineseSynonyms zh State.empty)) k = ∅ := by
  unfold language_of synonyms_of createAllEnglishSynonyms createAllChineseSynonyms
  rw [create_synonym_nodes_database, create_synonym_nodes_database]
  have he : State.empty.database k = none := rfl
  rw [he]
  by_cases hz : k ∈ created_tokens zh
  · simp [hz, fresh_node]
  · by_cases hen : k ∈ created_tokens en
    · simp [hz, hen, fresh_node]
    · simp [hz, hen]

/-- Counterexample to C22 as stated: the token `ok` is in both sources. It is
created once, as a Chinese node, and the English row `ok, fine` then joins it
with the English node `fine`. -/
theorem synonym_edge_across_languages :
    ∃ d, construct none (some (bytes "ok")) (some (bytes "ok, fine")) none = some d ∧
      bytes "fine" ∈ synonyms_of d (bytes "ok") ∧
      language_of d (bytes "ok") = some Language.chinese ∧
      language_of d (bytes "fine") = some Language.english :=
  ⟨_, rfl, by decide, by decide, by decide⟩

/-- C22 (amended): for every content of the two synonym sources, after the
constructor has built the dictionary, the two ends of every synonym edge have a
node, and their language tags are equal exactly when both ends or neither end
is spelled identically to a token of the Chinese source. In particular an edge
joins two nodes of the same language whenever neither of its ends is a token
spelled identically in both sources. -/
theorem synonym_edges_same_language (oob : Option Str) (zh en tr : Option Str)
    (d : State) (hd : construct oob zh en tr = some d)
    (w s : Str) (hs : s ∈ synonyms_of d w) :
    ∃ lw ls, language_of d w = some lw ∧ language_of d s = some ls ∧
      (lw = ls ↔ (w ∈ source_tokens zh ↔ s ∈ source_tokens zh)) ∧
      (¬ (w ∈ source_tokens zh ∧ w ∈ source_tokens en) →
        ¬ (s ∈ source_tokens zh ∧ s ∈ source_tokens en) → lw = ls) := by
  unfold construct at hd
  obtain ⟨d₃, h₃, hd⟩ := Option.bind_eq_some.mp hd
  obtain ⟨d₄, h₄, h₅⟩ := Option.bind_eq_some.mp hd
  have hg := createAllTranslations_grown oob tr _ d₃ h₃
  have hz := initialize_synonyms_linked zh d₃ d₄ h₄
  have he := initialize_synonyms_linked en d₄ d h₅
  have hlang : ∀ k lang,
      language_of (createAllEnglishSynonyms en
        (createAllChineseSynonyms zh State.empty)) k = some lang →
      language_of d k = some lang := by
    intro k lang hk
    rw [language_of_linked he, language_of_linked hz]
    exact language_of_grown hg hk
  have hchinese : ∀ k, k ∈ source_tokens zh → language_of d k = some Language.chinese := by
    intro k hk
    apply hlang
    rw [(created_nodes zh en k).1, if_pos (source_tokens_subset_created zh hk).1]
  have henglish : ∀ k, k ∈ source_tokens en → k ∉ source_tokens zh →
      language_of d k = some Language.english := by
    intro k hk hkz
    apply hlang
    have hnz : k ∉ created_tokens zh := fun hc =>
      hkz (created_mem_source_tokens zh hc (source_tokens_subset_created en hk).2)
    rw [(created_nodes zh en k).1, if_neg hnz, if_pos (source_tokens_subset_created en hk).1]
  have hne : Language.chinese ≠ Language.english := by decide
  rcases synonyms_of_linked he hs with h | ⟨hs₁, hw₁⟩
  · rcases synonyms_of_linked hz h with h' | ⟨hs₂, hw₂⟩
    · rw [synonyms_of_grown hg (fun k => (created_nodes zh en k).2) w] at h'
      exact absurd h' (Finset.not_mem_empty s)
    · exact ⟨Language.chinese, Language.chinese, hchinese w hw₂, hchinese s hs₂,
        ⟨fun _ => ⟨fun _ => hs₂, fun _ => hw₂⟩, fun _ => rfl⟩, fun _ _ => rfl⟩
  · by_cases hwz : w ∈ source_tokens zh
    · by_cases hsz : s ∈ source_tokens zh
      · exact ⟨Language.chinese, Language.chinese, hchinese w hwz, hchinese s hsz,
          ⟨fun _ => ⟨fun _ => hsz, fun _ => hwz⟩, fun _ => rfl⟩, fun _ _ => rfl⟩
      · exact ⟨Language.chinese, Language.english, hchinese w hwz, henglish s hs₁ hsz,
          ⟨fun h => absurd h hne, fun h => absurd (h.mp hwz) hsz⟩,
          fun h _ => absurd ⟨hwz, hw₁⟩ h⟩
    · by_cases hsz : s ∈ source_tokens zh
      · exact ⟨Language.english, Language.chinese, henglish w hw₁ hwz, hchinese s hsz,
          ⟨fun h => absurd h.symm hne, fun h => absurd (h.mpr hsz) hwz⟩,
          fun _ h => absurd ⟨hsz, hs₁⟩ h⟩
      · exact ⟨Language.english, Language.english, henglish w hw₁ hwz, henglish s hs₁ hsz,
          ⟨fun _ => ⟨fun h => absurd h hwz, fun h => absurd h hsz⟩, fun _ => rfl⟩,
          fun _ _ => rfl⟩

/-- Witness of `synonym_edges_same_language`: the sources `ok, 好` and
`ok, fine, nice` share the token `ok`; `nice` is a synonym of `fine`, neither is
a token of the Chinese source, and both are English. -/
theorem synonym_edges_same_language_witness :
    ∃ d, construct none (some (bytes "ok, 好")) (some (bytes "ok, fine, nice")) none =
        some d ∧
      bytes "nice" ∈ synonyms_of d (bytes "fine") ∧
      ∃ lw ls, language_of d (bytes "fine") = some lw ∧
        language_of d (bytes "nice") = some ls ∧
        (lw = ls ↔ (bytes "fine" ∈ source_tokens (some (bytes "ok, 好")) ↔
          bytes "nice" ∈ source_tokens (some (bytes "ok, 好")))) ∧
        (¬ (bytes "fine" ∈ source_tokens (some (bytes "ok, 好")) ∧
            bytes "fine" ∈ source_tokens (some (bytes "ok, fine, nice"))) →
          ¬ (bytes "nice" ∈ source_tokens (some (bytes "ok, 好")) ∧
            bytes "nice" ∈ source_tokens (some (bytes "ok, fine, nice"))) → lw = ls) :=
  ⟨_, rfl, by decide,
    synonym_edges_same_language none (some (bytes "ok, 好")) (some (bytes "ok, fine, nice"))
      none _ rfl (bytes "fine") (bytes "nice") (by decide)⟩

end wordsDictionary

namespace zhAiThesaurusWord

open FastVocabService

/-! # Theorems on `zhAiThesaurusWord::getTokens` -/

theorem zh_delims_eq : zh_delims = [44, 239, 188, 140, 32, 9] := by decide

theorem advancedGetline_delimiter {c : Nat} (hc : c ∈ zh_delims) (Z : Str) :
    advancedGetline (c :: Z) zh_delims = some ([], Z) := by
  unfold advancedGetline advancedGetline_loop
  rw [if_pos hc]

theorem advancedGetline_loop_token (t : Str) (out Z : Str)
    (ht : ∀ b ∈ t, isspace b = false ∧ b ∉ zh_delims)
    (hZ : Z = [] ∨ ∃ c Z', Z = c :: Z' ∧ c ∈ zh_delims) (hne : out ++ t ≠ []) :
    advancedGetline_loop zh_delims out (t ++ Z) = some (out ++ t, Z.tail) := by
  induction t generalizing out with
  | nil =>
    rw [List.append_nil] at hne
    rcases hZ with hZ | ⟨c, Z', hZ, hc⟩
    · subst hZ
      unfold advancedGetline_loop
      simp [hne]
    · subst hZ
      unfold advancedGetline_loop
      simp [hc]
  | cons b t' ih =>
    have hb := ht b (List.mem_cons_self b t')
    have hb10 : b ≠ 10 := by
      intro h
      rw [h] at hb
      exact absurd hb.1 (by decide)
    rw [List.cons_append]
    unfold advancedGetline_loop
    rw [if_neg hb.2, if_neg hb10,
      ih (out ++ [b]) (fun x hx => ht x (List.mem_cons_of_mem b hx)) (by simp)]
    simp

theorem ltrim_eq_self (t : Str) (hs : ∀ b ∈ t, isspace b = false)
    (hp : ¬ bytes "\u3000" <+: t) : ltrim t = t := by
  have hb : bytes "\u3000" = [227, 128, 128] := by decide
  rw [hb] at hp
  cases t with
  | nil => rfl
  | cons c rest =>
    unfold ltrim
    rw [hs c (List.mem_cons_self c rest)]
    simp only [Bool.false_eq_true, if_false]
    split
    · exact absurd (List.prefix_append [227, 128, 128] _) hp
    · rfl

theorem rtrim_reversed_eq_self (u : Str) (hs : ∀ b ∈ u, isspace b = false)
    (hp : ¬ [128, 128, 227] <+: u) : rtrim_reversed u = u := by
  cases u with
  | nil => rfl
  | cons c rest =>
    unfold rtrim_reversed
    rw [hs c (List.mem_cons_self c rest)]
    simp only [Bool.false_eq_true, if_false]
    split
    · exact absurd (List.prefix_append [128, 128, 227] _) hp
    · rfl

theorem rtrim_eq_self (t : Str) (hs : ∀ b ∈ t, isspace b = false)
    (hp : ¬ bytes "\u3000" <:+ t) : rtrim t = t := by
  have hb : bytes "\u3000" = [227, 128, 128] := by decide
  rw [hb] at hp
  unfold rtrim
  rw [rtrim_reversed_eq_self t.reverse (fun b hb => hs b (List.mem_reverse.mp hb)),
    List.reverse_reverse]
  intro h
  have h' : List.reverse [227, 128, 128] <+: t.reverse := h
  exact hp (List.reverse_prefix.mp h')

theorem trimChinese_plain {t : Str} (ht : plain_token t) : trimChinese t = t := by
  obtain ⟨_, hb, hp, hq⟩ := ht
  unfold trimChinese
  rw [ltrim_eq_self t (fun b hm => (hb b hm).1) hp, rtrim_eq_self t (fun b hm => (hb b hm).1) hq]

theorem trimChinese_nil : trimChinese [] = [] := rfl

theorem getTokens_loop_skip (s t Z : Str) (hs : ∀ b ∈ s, b ∈ zh_delims)
    (ht : plain_token t) (hZ : Z = [] ∨ ∃ c Z', Z = c :: Z' ∧ c ∈ zh_delims)
    (n : Nat) (hn : s.length < n) :
    getTokens_loop n (s ++ (t ++ Z)) = some (t, Z.tail) := by
  induction s generalizing n with
  | nil =>
    cases n with
    | zero => exact absurd hn (Nat.lt_irrefl 0)
    | succ m =>
      rw [List.nil_append]
      unfold getTokens_loop advancedGetline
      rw [advancedGetline_loop_token t [] Z ht.2.1 hZ (by simpa using ht.1)]
      simp only [List.nil_append, trimChinese_plain ht]
      rw [if_pos ht.1]
  | cons c s' ih =>
    cases n with
    | zero => exact absurd hn (Nat.not_lt_zero _)
    | succ m =>
      rw [List.cons_append]
      unfold getTokens_loop
      rw [advancedGetline_delimiter (hs c (List.mem_cons_self c s'))]
      simp only [trimChinese_nil, ne_eq, not_true_eq_false, if_false]
      exact ih (fun b hb => hs b (List.mem_cons_of_mem c hb)) m
        (Nat.lt_of_succ_lt_succ hn)

theorem getTokens_skip (s t Z : Str) (hs : ∀ b ∈ s, b ∈ zh_delims)
    (ht : plain_token t) (hZ : Z = [] ∨ ∃ c Z', Z = c :: Z' ∧ c ∈ zh_delims) :
    getTokens (s ++ (t ++ Z)) = some (t, Z.tail) := by
  unfold getTokens
  exact getTokens_loop_skip s t Z hs ht hZ _ (by simp; omega)

theorem read_tokens_nil (calls : Nat) : read_tokens calls [] = [] := by
  cases calls with
  | zero => rfl
  | succ m => rfl

/-- A row of tokens, each preceded by a run of delimiter bytes (the first run may
be empty), is read back token by token. -/
theorem read_tokens_runs (ts : List Str) (s t : Str) (seps : List Str) (calls : Nat)
    (hs : ∀ b ∈ s, b ∈ zh_delims) (ht : plain_token t)
    (hts : ∀ u ∈ ts, plain_token u) (hlen : seps.length = ts.length)
    (hseps : ∀ sp ∈ seps, sp ≠ [] ∧ ∀ b ∈ sp, b ∈ zh_delims)
    (hcalls : (s ++ (t ++ (List.zipWith (fun s t => s ++ t) seps ts).flatten)).length
      < calls) :
    read_tokens calls (s ++ (t ++ (List.zipWith (fun s t => s ++ t) seps ts).flatten)) =
      t :: ts := by
  induction ts generalizing s t seps calls with
  | nil =>
    cases calls with
    | zero => exact absurd hcalls (Nat.not_lt_zero _)
    | succ m =>
      rw [List.zipWith_nil_right, List.flatten_nil]
      unfold read_tokens
      rw [getTokens_skip s t [] hs ht (Or.inl rfl)]
      simp only [List.tail_nil, read_tokens_nil]
  | cons u ts' ih =>
    cases seps with
    | nil => exact absurd hlen (by simp)
    | cons sp seps' =>
      obtain ⟨hne, hsp⟩ := hseps sp (List.mem_cons_self sp seps')
      cases sp with
      | nil => exact absurd rfl hne
      | cons c s' =>
        cases calls with
        | zero => exact absurd hcalls (Nat.not_lt_zero _)
        | succ m =>
          have key : ∀ R : Str, (s ++ (t ++ c :: (s' ++ (u ++ R)))).length < m + 1 →
              (s' ++ (u ++ R)).length < m := by
            intro R h
            simp only [List.length_append, List.length_cons] at h ⊢
            omega
          have hY : List.flatten (List.zipWith (fun s t => s ++ t) ((c :: s') :: seps')
              (u :: ts')) =
              c :: (s' ++ (u ++ List.flatten (List.zipWith (fun s t => s ++ t) seps' ts'))) := by
            simp
          rw [hY] at hcalls ⊢
          unfold read_tokens
          rw [getTokens_skip s t _ hs ht
            (Or.inr ⟨c, _, rfl, hsp c (List.mem_cons_self c s')⟩)]
          simp only [List.tail_cons]
          rw [ih s' u seps' m (fun b hb => hsp b (List.mem_cons_of_mem c hb))
            (hts u (List.mem_cons_self u ts'))
            (fun v hv => hts v (List.mem_cons_of_mem u hv))
            (by simpa using hlen)
            (fun sp' hsp' => hseps sp' (List.mem_cons_of_mem _ hsp'))
            (key _ hcalls)]

theorem advancedGetline_loop_length (delims : Str) (stream out token rest : Str)
    (h : advancedGetline_loop delims out stream = some (token, rest)) :
    rest.length ≤ stream.length ∧ (stream ≠ [] → rest.length < stream.length) := by
  induction stream generalizing out with
  | nil =>
    unfold advancedGetline_loop at h
    split_ifs at h
    rw [← (Prod.mk.inj (Option.some.inj h)).2]
    exact ⟨Nat.le_refl _, fun hne => absurd rfl hne⟩
  | cons c r ih =>
    unfold advancedGetline_loop at h
    have hlt : rest.length < (c :: r).length := by
      split_ifs at h
      · rw [← (Prod.mk.inj (Option.some.inj h)).2]
        exact Nat.lt_succ_self _
      · rw [← (Prod.mk.inj (Option.some.inj h)).2]
        exact Nat.lt_succ_self _
      · exact Nat.lt_succ_of_le (ih _ h).1
    exact ⟨Nat.le_of_lt hlt, fun _ => hlt⟩

theorem advancedGetline_length (delims : Str) (stream token rest : Str)
    (h : advancedGetline stream delims = some (token, rest)) :
    rest.length < stream.length := by
  cases stream with
  | nil => exact absurd h (by simp [advancedGetline, advancedGetline_loop])
  | cons c r =>
    exact (advancedGetline_loop_length delims (c :: r) [] token rest h).2
      (List.cons_ne_nil c r)

/-- The loop of `getTokens` ends within `iss.size() + 1` calls of `advancedGetline`:
any larger bound gives the same result. -/
theorem getTokens_loop_fuel (n m : Nat) (iss : Str) (hn : iss.length < n)
    (hm : iss.length < m) : getTokens_loop n iss = getTokens_loop m iss := by
  induction n generalizing m iss with
  | zero => exact absurd hn (Nat.not_lt_zero _)
  | succ k ih =>
    cases m with
    | zero => exact absurd hm (Nat.not_lt_zero _)
    | succ j =>
      unfold getTokens_loop
      cases ha : advancedGetline iss zh_delims with
      | none => rfl
      | some p =>
        obtain ⟨token, rest⟩ := p
        have hlt := advancedGetline_length zh_delims iss token rest ha
        simp only
        split_ifs
        · rfl
        · exact ih j rest (by omega) (by omega)

theorem delimiter_strings_bytes :
    ∀ p ∈ delimiter_strings, p ≠ [] ∧ ∀ b ∈ p, b ∈ zh_delims := by
  decide

theorem mix_is_delimiter_run (parts : List Str) (hne : parts ≠ [])
    (h : ∀ p ∈ parts, p ∈ delimiter_strings) :
    parts.flatten ≠ [] ∧ ∀ b ∈ parts.flatten, b ∈ zh_delims := by
  constructor
  · cases parts with
    | nil => exact absurd rfl hne
    | cons p ps =>
      have hp := (delimiter_strings_bytes p (h p (List.mem_cons_self p ps))).1
      rw [List.flatten_cons]
      intro hnil
      exact hp (List.append_eq_nil.mp hnil).1
  · intro b hb
    obtain ⟨p, hp, hbp⟩ := List.mem_flatten.mp hb
    exact (delimiter_strings_bytes p (h p hp)).2 b hbp

/-- Counterexample to C28 as stated. The token U+3000 `好` (a full-width space and
one character) is valid UTF-8 without ASCII white space, comma or full-width
comma, and `getTokens` returns it without its full-width space; the token `会`
(bytes `E4 BC 9A`) comes back as the two one-byte tokens `E4` and `9A`, split at
the byte `BC` that it shares with the full-width comma. -/
theorem getTokens_counterexample :
    (bytes "\u3000好" ≠ [] ∧
      (∀ b ∈ bytes "\u3000好", isspace b = false ∧ b ≠ 44) ∧
      ¬ bytes "\uFF0C" <:+: bytes "\u3000好" ∧
      join_row [bytes "\u3000好"] [] = bytes "\u3000好" ∧
      read_tokens 7 (bytes "\u3000好") = [bytes "好"] ∧
      read_tokens 7 (bytes "\u3000好") ≠ [bytes "\u3000好"]) ∧
    (bytes "会" ≠ [] ∧
      (∀ b ∈ bytes "会", isspace b = false ∧ b ≠ 44) ∧
      ¬ bytes "\uFF0C" <:+: bytes "会" ∧
      join_row [bytes "会"] [] = bytes "会" ∧
      read_tokens 4 (bytes "会") = [[228], [154]] ∧
      read_tokens 4 (bytes "会") ≠ [bytes "会"]) := by
  decide

/-- C28 (amended): for every list of tokens, each a non-empty string without
ASCII white space, without any byte of the delimiter string (the ASCII comma and
the bytes `EF`, `BC`, `8C` of the full-width comma) and without a full-width
space (U+3000) at its start or end, joining them with any mix of ASCII commas,
full-width commas, spaces and tabs (at least one between two tokens) and calling
`getTokens` until it returns false yields exactly those tokens, in order and
byte for byte, with no empty token. -/
theorem getTokens_recovers_tokens (tokens : List Str) (seps : List (List Str))
    (calls : Nat)
    (htok : ∀ t ∈ tokens, plain_token t)
    (hlen : seps.length = tokens.length - 1)
    (hsep : ∀ parts ∈ seps, parts ≠ [] ∧ ∀ p ∈ parts, p ∈ delimiter_strings)
    (hcalls : (join_row tokens (seps.map List.flatten)).length < calls) :
    read_tokens calls (join_row tokens (seps.map List.flatten)) = tokens ∧
    ∀ t ∈ read_tokens calls (join_row tokens (seps.map List.flatten)), t ≠ [] := by
  have hread : read_tokens calls (join_row tokens (seps.map List.flatten)) = tokens := by
    cases tokens with
    | nil => exact read_tokens_nil calls
    | cons t ts =>
      have h := read_tokens_runs ts [] t (seps.map List.flatten) calls
        (fun b hb => absurd hb (List.not_mem_nil b))
        (htok t (List.mem_cons_self t ts))
        (fun u hu => htok u (List.mem_cons_of_mem t hu))
        (by rw [List.length_map, hlen]; rfl)
        (fun sp hsp => by
          obtain ⟨parts, hparts, hflat⟩ := List.mem_map.mp hsp
          rw [← hflat]
          exact mix_is_delimiter_run parts (hsep parts hparts).1 (hsep parts hparts).2)
        hcalls
      exact h
  refine ⟨hread, ?_⟩
  rw [hread]
  exact fun t ht => (htok t ht).1

/-- Witness of `getTokens_recovers_tokens`: the row of `好`, `坏`, `大`, `小` joined by
a comma, a full-width comma and a space, and two tabs. -/
theorem getTokens_recovers_tokens_witness :
    (∀ t ∈ [bytes "好", bytes "坏", bytes "大", bytes "小"], plain_token t) ∧
    join_row [bytes "好", bytes "坏", bytes "大", bytes "小"]
      ([[bytes ","], [bytes "\uFF0C", bytes " "], [bytes "\t", bytes "\t"]].map
        List.flatten) = bytes "好,坏\uFF0C 大\t\t小" ∧
    read_tokens 30 (join_row [bytes "好", bytes "坏", bytes "大", bytes "小"]
      ([[bytes ","], [bytes "\uFF0C", bytes " "], [bytes "\t", bytes "\t"]].map
        List.flatten)) = [bytes "好", bytes "坏", bytes "大", bytes "小"] :=
  ⟨by decide, by decide,
    (getTokens_recovers_tokens [bytes "好", bytes "坏", bytes "大", bytes "小"]
      [[bytes ","], [bytes "\uFF0C", bytes " "], [bytes "\t", bytes "\t"]] 30
      (by decide) (by decide) (by decide) (by decide)).1⟩

end zhAiThesaurusWord
